import Mathlib

/-!
# TimeStatsHelper: histogram engine and layer statistics

A shallow embedding of
`services/surfaceflinger/TimeStats/timestatsproto/TimeStatsHelper.cpp`.

Conventions of the embedding

* `int32_t` / `int64_t` values are integers (`Int`); every arithmetic step of the
  source that can leave its machine type is followed by `wrap32` / `wrap64`, the
  two's-complement reduction of the result to that type (the value the target
  hardware produces; the C++ standard leaves signed overflow undefined).
* `float` and `double` values are values of `FP` (sign, significand and exponent, or
  an infinity, or a NaN); the conversions and divisions of the source round to nearest,
  ties to even, to 24 or 53 binary digits. `Histogram.averageTime` yields the two
  `int64_t` operands of its return statement, `FloatQuotient.toFloat` the `float`
  computed from them, and `averageFPSText` the text that `%.3f` prints for
  `1000.0 / averageTime()`.
* `std::string` is a list of characters (`List Char`), one per `char`.
* `std::unordered_map<K, V>` is an association list with pairwise distinct keys;
  the order of the list stands for the (unspecified) iteration order of the map.
-/

namespace android
namespace surfaceflinger

/-! ## Machine integers -/

/-- Reduction of an integer to the signed 32-bit range `[-2^31, 2^31)`. -/
def wrap32 (x : Int) : Int := (x + 2147483648) % 4294967296 - 2147483648

/-- Reduction of an integer to the signed 64-bit range `[-2^63, 2^63)`. -/
def wrap64 (x : Int) : Int :=
  (x + 9223372036854775808) % 18446744073709551616 - 9223372036854775808

/-- Membership in the range of `int32_t`. -/
def isInt32 (x : Int) : Prop := -2147483648 ≤ x ∧ x ≤ 2147483647

instance (x : Int) : Decidable (isInt32 x) := by unfold isInt32; infer_instance

/-! ## The boundary table -/

/-- The macro `HISTOGRAM_SIZE`. -/
def HISTOGRAM_SIZE : Nat := 85

/-- The table `histogramConfig`: the time buckets of a histogram. -/
def histogramConfig : List Int :=
  [0,   1,   2,   3,   4,   5,   6,   7,   8,   9,   10,  11,  12,  13,  14,  15,  16,
   17,  18,  19,  20,  21,  22,  23,  24,  25,  26,  27,  28,  29,  30,  31,  32,  33,
   34,  36,  38,  40,  42,  44,  46,  48,  50,  54,  58,  62,  66,  70,  74,  78,  82,
   86,  90,  94,  98,  102, 106, 110, 114, 118, 122, 126, 130, 134, 138, 142, 146, 150,
   200, 250, 300, 350, 400, 450, 500, 550, 600, 650, 700, 750, 800, 850, 900, 950, 1000]

/-- The function `std::lower_bound(first, last, value)` by its contract: the position of
the first element that is not less than `value` (the length of the range when there is
none), for a range in which the elements less than `value` come first. -/
def lower_bound : List Int → Int → Nat
  | [], _ => 0
  | x :: xs, value => if x < value then lower_bound xs value + 1 else 0

namespace TimeStatsHelper

/-! ## Histogram -/

/-- The class `Histogram`: `hist` maps a time bucket to the number of its appearances
(`std::unordered_map<int32_t, int32_t>`). -/
structure Histogram where
  hist : List (Int × Int)
deriving DecidableEq, Repr

/-- The histogram with no entry, as a default-constructed `Histogram`. -/
def Histogram.empty : Histogram := ⟨[]⟩

/-- Representation invariant of the map type: distinct keys, keys and values in
`int32_t`. -/
def Histogram.Valid (h : Histogram) : Prop :=
  (h.hist.map Prod.fst).Nodup ∧ ∀ e ∈ h.hist, isInt32 e.1 ∧ isInt32 e.2

instance (h : Histogram) : Decidable h.Valid := by
  unfold Histogram.Valid
  infer_instance

/-- The lookup `hist.find(key)`: the mapped value, `none` for `hist.end()`. -/
def find : List (Int × Int) → Int → Option Int
  | [], _ => none
  | (k, c) :: rest, key => if k = key then some c else find rest key

/-- The statement `hist[key]++`: `operator[]` yields the mapped value of `key`, first
adding the entry `(key, 0)` when the key is absent, and the value is incremented in
`int32_t`. -/
def increment (key : Int) : List (Int × Int) → List (Int × Int)
  | [] => [(key, wrap32 (0 + 1))]
  | (k, c) :: rest =>
    if k = key then (k, wrap32 (c + 1)) :: rest else (k, c) :: increment key rest

/-- The method `Histogram::insert(int32_t delta)`. The last branch dereferences the
iterator returned by `std::lower_bound`; `none` stands for the past-the-end iterator. -/
def Histogram.insert (h : Histogram) (delta : Int) : Histogram :=
  if delta < 0 then h
  else if delta > histogramConfig.getD (HISTOGRAM_SIZE - 1) 0 then
    ⟨increment (histogramConfig.getD (HISTOGRAM_SIZE - 1) 0) h.hist⟩
  else
    match histogramConfig.get? (lower_bound histogramConfig delta) with
    | some bucket => ⟨increment bucket h.hist⟩
    | none => h

/-- The count read for a bucket as in `Histogram::toString`:
`(hist.count(bucket) == 0) ? 0 : hist[bucket]`. -/
def Histogram.countOf (h : Histogram) (bucket : Int) : Int :=
  match find h.hist bucket with
  | none => 0
  | some c => c

/-- A run of `insert` calls, in order. -/
def Histogram.insertAll (h : Histogram) (deltas : List Int) : Histogram :=
  deltas.foldl Histogram.insert h

/-- The boundary a non-negative delta is counted under: the least table entry that is
not below `delta`, the last entry when there is none. -/
def bucketFor (delta : Int) : Int :=
  (histogramConfig.find? (fun b => decide (delta ≤ b))).getD 1000


/-- The loop of `Histogram::averageTime`: the accumulators `ret` and `count` after the
walk over `hist`. The product `ele.first * ele.second` has two `int32_t` operands and is
taken in 32 bits; both accumulators are `int64_t`. -/
def Histogram.averageTimeLoop (h : Histogram) : Int × Int :=
  h.hist.foldl
    (fun (acc : Int × Int) (ele : Int × Int) =>
      let count := wrap64 (acc.2 + ele.2)
      let ret := wrap64 (acc.1 + wrap32 (ele.1 * ele.2))
      (ret, count))
    (0, 0)

/-- The operands of the return statement `static_cast<float>(ret) / count` of
`Histogram::averageTime`: the numerator `ret` and the divisor `count`, both `int64_t`.
The `float` that the statement yields from them is `FloatQuotient.toFloat`. -/
structure FloatQuotient where
  ret : Int
  count : Int
deriving DecidableEq, Repr

/-- The method `Histogram::averageTime()` up to the operands of its return statement;
the value it returns is `h.averageTime.toFloat`. -/
def Histogram.averageTime (h : Histogram) : FloatQuotient :=
  ⟨h.averageTimeLoop.1, h.averageTimeLoop.2⟩

/-! ## Floating point -/

/-- The number of binary digits of `n`, found by halving at most `fuel` times. -/
def bitLengthAux : Nat → Nat → Nat
  | 0, _ => 0
  | fuel + 1, n => if n = 0 then 0 else bitLengthAux fuel (n / 2) + 1

/-- The number of binary digits of a natural number, 0 for 0. -/
def bitLength (n : Nat) : Nat := bitLengthAux n n

/-- The integer nearest to `num / den`, the even one of two that are equally near (the
rounding of IEEE 754 arithmetic in its default mode, and of the decimal conversion
of `printf`). -/
def roundNearestEven (num den : Nat) : Nat :=
  if 2 * (num % den) > den ∨ (2 * (num % den) = den ∧ (num / den) % 2 = 1) then
    num / den + 1
  else num / den

/-- The fraction `num / den / 2 ^ e`, as a numerator and a denominator. -/
def scaleRatio (num den : Nat) (e : Int) : Nat × Nat :=
  if 0 ≤ e then (num, den * 2 ^ e.toNat) else (num * 2 ^ (-e).toNat, den)

/-- The fraction `num / den` of two positive numbers rounded to `p` significant binary
digits, to nearest, ties to even: the pair `(m, e)` stands for `m * 2 ^ e`, where
`2 ^ (p - 1) ≤ m < 2 ^ p`. -/
def roundRatio (p num den : Nat) : Nat × Int :=
  let e0 : Int := (bitLength num : Int) - (bitLength den : Int) - (p : Int)
  let s0 := scaleRatio num den e0
  let e : Int := if s0.1 / s0.2 ≥ 2 ^ p then e0 + 1 else e0
  let s := scaleRatio num den e
  let m := roundNearestEven s.1 s.2
  if m = 2 ^ p then (2 ^ (p - 1), e + 1) else (m, e)

/-- A value of an IEEE 754 binary format: `finite neg m e` is the number
`(-1) ^ neg * m * 2 ^ e` (a signed zero when `m = 0`), `inf neg` is an infinity and
`nan` a NaN. The precision `p` of the format (24 binary digits for `float`, 53 for
`double`) is an argument of the operations. The exponent is not bounded: the values
met here are `int64_t` values, their quotient and the quotient of 1000 by it, which lie
inside the normal range of the formats, so that no operation overflows or yields a
subnormal number (`toFloat_inFormat`, `averageFPS_inFormat`). -/
inductive FP where
  | finite (neg : Bool) (m : Nat) (e : Int)
  | inf (neg : Bool)
  | nan
deriving DecidableEq, Repr

/-- The conversion of an integer to the format of precision `p`, as by
`static_cast<float>` or by the usual arithmetic conversions. -/
def FP.ofInt (p : Nat) (x : Int) : FP :=
  if x = 0 then .finite false 0 0
  else .finite (decide (x < 0)) (roundRatio p x.natAbs 1).1 (roundRatio p x.natAbs 1).2

/-- The division `a / b` in the format of precision `p`: a NaN for `0 / 0`, for
`inf / inf` and for a NaN operand, an infinity for a division of a non-zero number by
zero, else the quotient rounded to nearest; the sign is the product of the signs. -/
def FP.div (p : Nat) : FP → FP → FP
  | .nan, _ => .nan
  | _, .nan => .nan
  | .inf _, .inf _ => .nan
  | .inf s, .finite t _ _ => .inf (xor s t)
  | .finite s _ _, .inf t => .finite (xor s t) 0 0
  | .finite s ma ea, .finite t mb eb =>
    if mb = 0 then (if ma = 0 then .nan else .inf (xor s t))
    else if ma = 0 then .finite (xor s t) 0 0
    else .finite (xor s t) (roundRatio p ma mb).1 ((roundRatio p ma mb).2 + ea - eb)

/-- The `float` returned by `Histogram::averageTime`: `static_cast<float>(ret) / count`.
The cast rounds `ret` to a `float`, the divisor `count` is converted to `float` for the
division, and the division is that of `float`. -/
def FloatQuotient.toFloat (q : FloatQuotient) : FP :=
  FP.div 24 (FP.ofInt 24 q.ret) (FP.ofInt 24 q.count)

/-! ## Text formatting -/

/-- The conversion `%d` / `%lld` of `StringAppendF`: decimal digits, a minus sign first
for a negative value. -/
def printf_d (x : Int) : List Char :=
  if x < 0 then '-' :: Nat.toDigits 10 x.natAbs else Nat.toDigits 10 x.toNat

/-- The conversion `%.3f` of `StringAppendF`: the decimal with three digits after the
point that is nearest to the value, ties to even, a minus sign first when the sign is
set; `inf` or `-inf` for an infinity and `nan` for a NaN, which the C library of the
platform (bionic) prints without a sign. -/
def printf_3f : FP → List Char
  | .nan => "nan".toList
  | .inf neg => if neg then "-inf".toList else "inf".toList
  | .finite neg m e =>
    let n := if 0 ≤ e then m * 2 ^ e.toNat * 1000
      else roundNearestEven (m * 1000) (2 ^ (-e).toNat)
    (if neg then ['-'] else []) ++ Nat.toDigits 10 (n / 1000)
      ++ ['.', Nat.digitChar (n / 100 % 10), Nat.digitChar (n / 10 % 10),
          Nat.digitChar (n % 10)]

/-- The pointer `s.c_str()` read by `%s`: the characters before the first NUL. -/
def c_str (s : List Char) : List Char := s.takeWhile (fun c => c != Char.ofNat 0)

/-- The assignment `result.back() = c` on a non-empty string. -/
def setBack (result : List Char) (c : Char) : List Char := result.dropLast ++ [c]

/-- The non-const `hist[key]` read as a value: the mapped value and the map after the
access, which holds the new entry `(key, 0)` when the key was absent. -/
def index (m : List (Int × Int)) (key : Int) : Int × List (Int × Int) :=
  match find m key with
  | some c => (c, m)
  | none => (0, m ++ [(key, 0)])

/-- One round of the loop of `Histogram::toString`, on the text so far and the map. -/
def Histogram.toStringStep (st : List Char × List (Int × Int)) (i : Nat) :
    List Char × List (Int × Int) :=
  let bucket := histogramConfig.getD i 0
  let r := if (find st.2 bucket).isNone then (0, st.2) else index st.2 bucket
  (st.1 ++ printf_d bucket ++ "ms=".toList ++ printf_d r.1 ++ " ".toList, r.2)

/-- The method `Histogram::toString()`: the text and the histogram after the call. -/
def Histogram.toString (h : Histogram) : List Char × Histogram :=
  let st := (List.range HISTOGRAM_SIZE).foldl Histogram.toStringStep ([], h.hist)
  (setBack st.1 '\n', ⟨st.2⟩)


/-! ## Package names -/

/-- The fragment of the ECMAScript grammar of `std::regex` that the pattern of
`getPackageName` is written in. -/
inductive Regex where
  /-- The empty pattern. -/
  | eps : Regex
  /-- One character of a class. -/
  | set (p : Char → Bool) : Regex
  /-- Concatenation. -/
  | seq (a b : Regex) : Regex
  /-- The greedy quantifier `?`. -/
  | opt (a : Regex) : Regex
  /-- The greedy quantifier `*` on a class. -/
  | star (p : Char → Bool) : Regex
  /-- The greedy quantifier `+` on a class. -/
  | plus (p : Char → Bool) : Regex
  /-- A capturing group (the pattern has one). -/
  | group (a : Regex) : Regex

/-- Greedy repetition of a class: the longest run is tried first, then shorter ones, each
followed by the rest of the match `k`. -/
def Regex.repeatGreedy {R : Type} (p : Char → Bool) (k : List Char → Option R) :
    List Char → Option R
  | [] => k []
  | c :: cs =>
    if p c then
      match Regex.repeatGreedy p k cs with
      | some r => some r
      | none => k (c :: cs)
    else k (c :: cs)

/-- Backtracking matcher: `exec r k s cap` matches `r` at the front of `s` and hands the
rest of the input and the capture to `k`; alternatives are tried in the order of
ECMAScript (a greedy quantifier takes as much as it can first). -/
def Regex.exec {R : Type} :
    Regex → (List Char → Option (List Char) → Option R) → List Char →
      Option (List Char) → Option R
  | .eps, k, s, cap => k s cap
  | .set p, k, s, cap =>
    match s with
    | c :: cs => if p c then k cs cap else none
    | [] => none
  | .seq a b, k, s, cap => a.exec (fun s1 cap1 => b.exec k s1 cap1) s cap
  | .opt a, k, s, cap =>
    match a.exec k s cap with
    | some r => some r
    | none => k s cap
  | .star p, k, s, cap => Regex.repeatGreedy p (fun s1 => k s1 cap) s
  | .plus p, k, s, cap =>
    match s with
    | c :: cs => if p c then Regex.repeatGreedy p (fun s1 => k s1 cap) cs else none
    | [] => none
  | .group a, k, s, cap =>
    a.exec (fun s1 _ => k s1 (some (s.take (s.length - s1.length)))) s cap

/-- The pattern of a literal string. -/
def Regex.lit : List Char → Regex
  | [] => .eps
  | c :: cs => .seq (.set (fun x => x == c)) (Regex.lit cs)

/-- The call `std::regex_match(first, last, match, re)`: `some` of the first capture
(`none` inside when the group took no part) when the whole input matches. -/
def regex_match (re : Regex) (input : List Char) : Option (Option (List Char)) :=
  re.exec (fun s1 cap => if s1 = [] then some cap else none) input none

/-- The class `\s`: the white-space characters of the classic locale. -/
def isSpace (c : Char) : Bool :=
  c == ' ' || c == '\t' || c == '\n' || c == Char.ofNat 11 || c == Char.ofNat 12 || c == '\r'

/-- The class `\d`. -/
def isDigit (c : Char) : Bool := decide ('0' ≤ c ∧ c ≤ '9')

/-- The class `.`: every character but a line terminator. -/
def isAnyButNewline (c : Char) : Bool := !(c == '\n' || c == '\r')

/-- The pattern `(?:SurfaceView[-\s\t]+)?([^/]+).*#\d+` of `getPackageName`. -/
def packageNameRegex : Regex :=
  .seq (.opt (.seq (Regex.lit "SurfaceView".toList)
                   (.plus (fun c => c == '-' || isSpace c || c == '\t'))))
  (.seq (.group (.plus (fun c => !(c == '/'))))
  (.seq (.star isAnyButNewline)
  (.seq (.set (fun c => c == '#'))
        (.plus isDigit))))

/-- The function `getPackageName(layerName)`. -/
def getPackageName (layerName : List Char) : List Char :=
  match regex_match packageNameRegex layerName with
  | some (some name) => name
  | some none => []
  | none => []

/-! ## Layer statistics -/

/-- The class `TimeStatsLayer`; `deltas` is a
`std::unordered_map<std::string, Histogram>`. -/
structure TimeStatsLayer where
  layerName : List Char
  packageName : List Char
  statsStart : Int
  statsEnd : Int
  totalFrames : Int
  deltas : List (List Char × Histogram)
deriving DecidableEq

/-- The lookup `deltas.find(key)`. -/
def findDelta : List (List Char × Histogram) → List Char → Option Histogram
  | [], _ => none
  | (k, h) :: rest, key => if k = key then some h else findDelta rest key

/-- The non-const `deltas[key]`: the mapped histogram and the map after the access,
which holds a new empty histogram under `key` when the key was absent. -/
def indexDelta (m : List (List Char × Histogram)) (key : List Char) :
    Histogram × List (List Char × Histogram) :=
  match findDelta m key with
  | some h => (h, m)
  | none => (Histogram.empty, m ++ [(key, Histogram.empty)])

/-- The part of `TimeStatsLayer::toString` up to the `totalFrames` line. -/
def TimeStatsLayer.header (layerName packageName : List Char)
    (statsStart statsEnd totalFrames : Int) : List Char :=
  [] ++ ("layerName = ".toList ++ c_str layerName ++ "\n".toList)
     ++ ("packageName = ".toList ++ c_str packageName ++ "\n".toList)
     ++ ("statsStart = ".toList ++ printf_d statsStart ++ "\n".toList)
     ++ ("statsEnd = ".toList ++ printf_d statsEnd ++ "\n".toList)
     ++ ("totalFrames= ".toList ++ printf_d totalFrames ++ "\n".toList)

/-- One round of the last loop of `TimeStatsLayer::toString`; `ele` is a copy of the
map entry, so the histogram left by `ele.second.toString()` is dropped. -/
def TimeStatsLayer.histogramSection (result : List Char) (ele : List Char × Histogram) :
    List Char :=
  result ++ (c_str ele.1 ++ " histogram is as below:\n".toList)
         ++ c_str (ele.2.toString).1

/-- The text that `%.3f` prints for the argument
`1000.0 / deltas["present2present"].averageTime()` of `TimeStatsLayer::toString`, from
the operands `q` of the return statement of `averageTime()`: the `float` returned is
converted to `double` without a change of value and divides the `double` 1000.0. -/
def averageFPSText (q : FloatQuotient) : List Char :=
  printf_3f (FP.div 53 (FP.ofInt 53 1000) q.toFloat)

/-- The method `TimeStatsLayer::toString()`: the text and the layer after the call. The
print of the `averageFPS` value is the argument `fmtFPS`, which the method takes as
`averageFPSText`: `L.toString averageFPSText` is the call `L.toString()`. What does not
depend on the printed value is stated for every `fmtFPS`. -/
def TimeStatsLayer.toString (fmtFPS : FloatQuotient → List Char) (L : TimeStatsLayer) :
    List Char × TimeStatsLayer :=
  let packageName := getPackageName L.layerName
  let result := TimeStatsLayer.header L.layerName packageName L.statsStart L.statsEnd
    L.totalFrames
  let st : List Char × List (List Char × Histogram) :=
    if (findDelta L.deltas "present2present".toList).isSome then
      let r := indexDelta L.deltas "present2present".toList
      (result ++ ("averageFPS = ".toList ++ fmtFPS r.1.averageTime ++ "\n".toList), r.2)
    else (result, L.deltas)
  (st.2.foldl TimeStatsLayer.histogramSection st.1,
   { L with packageName := packageName, deltas := st.2 })

/-! ## Structured records -/

/-- Modelled from the spec: the message `SFTimeStatsHistogramBucketProto` generated from
the wire schema, which is not in the source tree; a (boundary, count) pair whose fields
read 0 until they are set. -/
structure SFTimeStatsHistogramBucketProto where
  render_millis : Int := 0
  frame_count : Int := 0
deriving DecidableEq, Repr

/-- Modelled from the spec: the message `SFTimeStatsDeltaProto`, a `delta_name` and a
repeated histogram-bucket pair. -/
structure SFTimeStatsDeltaProto where
  delta_name : List Char := []
  histograms : List SFTimeStatsHistogramBucketProto := []
deriving DecidableEq, Repr

/-- Modelled from the spec: the message `SFTimeStatsLayerProto`. -/
structure SFTimeStatsLayerProto where
  layer_name : List Char := []
  package_name : List Char := []
  stats_start : Int := 0
  stats_end : Int := 0
  total_frames : Int := 0
  deltas : List SFTimeStatsDeltaProto := []
deriving DecidableEq, Repr

/-- One round of the inner loop of `TimeStatsLayer::toProto`: both setters act on the
record `histProto`. -/
def setBucket (histProto : SFTimeStatsHistogramBucketProto) (histEle : Int × Int) :
    SFTimeStatsHistogramBucketProto :=
  { { histProto with render_millis := histEle.1 } with frame_count := histEle.2 }

/-- One round of the outer loop of `TimeStatsLayer::toProto`: `add_deltas()`,
`set_delta_name`, one call of `add_histograms()`, then the inner loop over the
histogram of `ele`. -/
def addDelta (layerProto : SFTimeStatsLayerProto) (ele : List Char × Histogram) :
    SFTimeStatsLayerProto :=
  let deltaProto : SFTimeStatsDeltaProto := { delta_name := ele.1 }
  let histProto : SFTimeStatsHistogramBucketProto := {}
  let histProto := ele.2.hist.foldl setBucket histProto
  { layerProto with
    deltas := layerProto.deltas ++ [{ deltaProto with histograms := [histProto] }] }

/-- The method `TimeStatsLayer::toProto()`: the record and the layer after the call. -/
def TimeStatsLayer.toProto (L : TimeStatsLayer) : SFTimeStatsLayerProto × TimeStatsLayer :=
  let layerProto : SFTimeStatsLayerProto := {}
  let layerProto := { layerProto with layer_name := L.layerName }
  let packageName := getPackageName L.layerName
  let layerProto := { layerProto with package_name := packageName }
  let layerProto := { layerProto with stats_start := L.statsStart }
  let layerProto := { layerProto with stats_end := L.statsEnd }
  let layerProto := { layerProto with total_frames := L.totalFrames }
  (L.deltas.foldl addDelta layerProto, { L with packageName := packageName })

/-! ## Global statistics -/

/-- The class `TimeStatsGlobal`; `dumpStats` is the sequence of the layers to dump. The
source holds the layers by pointer; the embedding holds their values, which gives the
same texts and records, as neither depends on the cached `packageName` of a layer. -/
structure TimeStatsGlobal where
  statsStart : Int
  statsEnd : Int
  totalFrames : Int
  missedFrames : Int
  clientCompositionFrames : Int
  dumpStats : List TimeStatsLayer
deriving DecidableEq

/-- One round of the loop of `TimeStatsGlobal::toString`: the text of the layer is
appended with `%s`, and the layer is left as its `toString()` leaves it; `fmtFPS` is the
argument of `TimeStatsLayer.toString`. -/
def TimeStatsGlobal.toStringStep (fmtFPS : FloatQuotient → List Char)
    (st : List Char × List TimeStatsLayer) (ele : TimeStatsLayer) :
    List Char × List TimeStatsLayer :=
  let r := ele.toString fmtFPS
  (st.1 ++ c_str r.1, st.2 ++ [r.2])

/-- The method `TimeStatsGlobal::toString()`: the text and the statistics after the
call. -/
def TimeStatsGlobal.toString (fmtFPS : FloatQuotient → List Char) (g : TimeStatsGlobal) :
    List Char × TimeStatsGlobal :=
  let result := "SurfaceFlinger TimeStats:\n".toList
  let result := result ++ ("statsStart = ".toList ++ printf_d g.statsStart ++ "\n".toList)
  let result := result ++ ("statsEnd = ".toList ++ printf_d g.statsEnd ++ "\n".toList)
  let result := result ++ ("totalFrames= ".toList ++ printf_d g.totalFrames ++ "\n".toList)
  let result := result ++ ("missedFrames= ".toList ++ printf_d g.missedFrames ++ "\n".toList)
  let result := result ++ ("clientCompositionFrames= ".toList
    ++ printf_d g.clientCompositionFrames ++ "\n".toList)
  let result := result ++ "TimeStats for each layer is as below:\n".toList
  let st := g.dumpStats.foldl (TimeStatsGlobal.toStringStep fmtFPS) (result, [])
  (st.1, { g with dumpStats := st.2 })

/-- Modelled from the spec: the message `SFTimeStatsGlobalProto` generated from the wire
schema, which is not in the source tree; five scalar fields and a repeated layer
record. -/
structure SFTimeStatsGlobalProto where
  stats_start : Int := 0
  stats_end : Int := 0
  total_frames : Int := 0
  missed_frames : Int := 0
  client_composition_frames : Int := 0
  stats : List SFTimeStatsLayerProto := []
deriving DecidableEq, Repr

/-- One round of the loop of `TimeStatsGlobal::toProto`: `add_stats()` and `CopyFrom` of
the record of the layer; the layer is left as its `toProto()` leaves it. -/
def TimeStatsGlobal.toProtoStep (st : SFTimeStatsGlobalProto × List TimeStatsLayer)
    (ele : TimeStatsLayer) : SFTimeStatsGlobalProto × List TimeStatsLayer :=
  let r := ele.toProto
  ({ st.1 with stats := st.1.stats ++ [r.1] }, st.2 ++ [r.2])

/-- The method `TimeStatsGlobal::toProto()`: the record and the statistics after the
call. -/
def TimeStatsGlobal.toProto (g : TimeStatsGlobal) : SFTimeStatsGlobalProto × TimeStatsGlobal :=
  let globalProto : SFTimeStatsGlobalProto := {}
  let globalProto := { globalProto with stats_start := g.statsStart }
  let globalProto := { globalProto with stats_end := g.statsEnd }
  let globalProto := { globalProto with total_frames := g.totalFrames }
  let globalProto := { globalProto with missed_frames := g.missedFrames }
  let globalProto :=
    { globalProto with client_composition_frames := g.clientCompositionFrames }
  let st := g.dumpStats.foldl TimeStatsGlobal.toProtoStep (globalProto, [])
  (st.1, { g with dumpStats := st.2 })

/-! ## Quantities the claims are stated with -/

/-- The number of deltas of a run that are counted under the boundary `b`: the
non-negative ones that resolve to `b`. -/
def hits (b : Int) (deltas : List Int) : Nat :=
  deltas.countP (fun d => decide (0 ≤ d ∧ bucketFor d = b))

/-- The number of non-negative deltas of a run. -/
def observations (deltas : List Int) : Nat :=
  deltas.countP (fun d => decide (0 ≤ d))

/-- The sum of the stored counts of a bucket mapping. -/
def totalCount (m : List (Int × Int)) : Int := (m.map Prod.snd).sum

/-- The sum of `boundary * count` over a bucket mapping. -/
def weightedSum (m : List (Int × Int)) : Int := (m.map (fun e => e.1 * e.2)).sum

/-- The token `<boundary>ms=<count>` of the text form of a histogram. -/
def token (bucket count : Int) : List Char :=
  printf_d bucket ++ "ms=".toList ++ printf_d count

/-- The characters that `%d` can print: the minus sign and the decimal digits. -/
def isNumberChar (c : Char) : Bool := c == '-' || isDigit c

/-- The lines of a text: the pieces between its newline characters (the piece after
the last newline included). -/
def lines : List Char → List (List Char)
  | [] => [[]]
  | c :: cs =>
    if c = '\n' then [] :: lines cs
    else
      match lines cs with
      | [] => [[c]]
      | l :: ls => (c :: l) :: ls

/-- The line of tokens of the text form of a histogram, without its newline. -/
def histogramLine (h : Histogram) : List Char :=
  List.intercalate [' '] (histogramConfig.map (fun b => token b (h.countOf b)))

/-- The five lines that `TimeStatsLayer::toString` starts with, for a layer none of
whose names holds a newline. -/
def TimeStatsLayer.headerLines (L : TimeStatsLayer) : List (List Char) :=
  ["layerName = ".toList ++ c_str L.layerName,
   "packageName = ".toList ++ c_str (getPackageName L.layerName),
   "statsStart = ".toList ++ printf_d L.statsStart,
   "statsEnd = ".toList ++ printf_d L.statsEnd,
   "totalFrames= ".toList ++ printf_d L.totalFrames]

/-- The two lines of the section of one entry of `deltas`: the heading and the line of
tokens. -/
def sectionLines (ele : List Char × Histogram) : List (List Char) :=
  [c_str ele.1 ++ " histogram is as below:".toList, histogramLine ele.2]

/-- The text whose lines are `ls`, each closed by a newline. -/
def unlines (ls : List (List Char)) : List Char :=
  (ls.map (fun l => l ++ ['\n'])).flatten

/-- The `averageFPS` line of a layer, when its `deltas` has the key
`"present2present"`. -/
def TimeStatsLayer.averageFPSLines (fmtFPS : FloatQuotient → List Char)
    (L : TimeStatsLayer) : List (List Char) :=
  match findDelta L.deltas "present2present".toList with
  | some h => ["averageFPS = ".toList ++ fmtFPS h.averageTime]
  | none => []

/-- The sum of the boundaries that the non-negative deltas of a run resolve to: the sum
of the inserted (clamped) boundary values. -/
def clampedSum (deltas : List Int) : Int :=
  ((deltas.filter (fun d => decide (0 ≤ d))).map bucketFor).sum

/-- A value that the format of precision `p` whose exponents (of the last binary digit
of the significand) run from `emin` to `emax` holds as a normal number, a zero, an
infinity or a NaN; `float` is the format of `p = 24` and exponents -149 to 104, `double`
that of `p = 53` and exponents -1074 to 971. -/
def FP.InFormat (p : Nat) (emin emax : Int) : FP → Prop
  | .finite _ m e => m = 0 ∨ (2 ^ (p - 1) ≤ m ∧ m < 2 ^ p ∧ emin ≤ e ∧ e ≤ emax)
  | _ => True

/-- The sum of `min delta 1000` over the non-negative deltas of a run: the sum of the
clamped deltas. -/
def clampedDeltaSum (deltas : List Int) : Int :=
  ((deltas.filter (fun d => decide (0 ≤ d))).map (fun d => min d 1000)).sum

/-- The separator characters of the pattern of `getPackageName`: the class `[-\s\t]`. -/
def isSeparator (c : Char) : Bool := c == '-' || isSpace c || c == '\t'

/-- A text that ends with `#` followed by one or more decimal digits. -/
def endsWithHashDigits (s : List Char) : Prop :=
  ∃ front digits, s = front ++ '#' :: digits ∧ digits ≠ [] ∧ ∀ c ∈ digits, isDigit c = true

/-- The end of the pattern of `getPackageName`: `#\d+`. -/
def hashDigitsRegex : Regex := .seq (.set (fun c => c == '#')) (.plus isDigit)

/-- The part `.*#\d+` of the pattern of `getPackageName`. -/
def tailRegex : Regex := .seq (.star isAnyButNewline) hashDigitsRegex

/-- The part `([^/]+).*#\d+` of the pattern of `getPackageName`. -/
def bodyRegex : Regex := .seq (.group (.plus (fun c => !(c == '/')))) tailRegex

/-- The part `SurfaceView[-\s\t]+` of the pattern of `getPackageName`. -/
def surfaceViewRegex : Regex :=
  .seq (Regex.lit "SurfaceView".toList) (.plus (fun c => c == '-' || isSpace c || c == '\t'))

/-- The last step of `std::regex_match`: the match has to end where the input ends. -/
def matchEnd (s1 : List Char) (cap : Option (List Char)) : Option (Option (List Char)) :=
  if s1 = [] then some cap else none

end TimeStatsHelper
end surfaceflinger
end android

open android.surfaceflinger android.surfaceflinger.TimeStatsHelper



/-! ## Machine integers: basic facts -/

theorem wrap32_of_isInt32 {x : Int} (h : isInt32 x) : wrap32 x = x := by
  unfold isInt32 at h
  unfold wrap32
  omega

theorem wrap32_isInt32 (x : Int) : isInt32 (wrap32 x) := by
  unfold isInt32 wrap32
  omega

theorem wrap32_wrap32_add (x y : Int) : wrap32 (wrap32 x + y) = wrap32 (x + y) := by
  unfold wrap32
  omega

theorem wrap64_of_range {x : Int} (h0 : -9223372036854775808 ≤ x)
    (h1 : x < 9223372036854775808) : wrap64 x = x := by
  unfold wrap64
  omega

/-! ## The boundary table and `bucketFor` -/

theorem histogramConfig_length : histogramConfig.length = HISTOGRAM_SIZE := by decide

theorem histogramConfig_last : histogramConfig.getD (HISTOGRAM_SIZE - 1) 0 = 1000 := by decide

theorem histogramConfig_sorted : histogramConfig.Pairwise (fun a b => a < b) := by decide

/-- The table: 0 to 34 in steps of 1, 36 to 50 in steps of 2, 54 to 150 in steps of 4 and
200 to 1000 in steps of 50. -/
theorem histogramConfig_eq :
    histogramConfig =
      (List.range 35).map (fun i => (i : Int))
        ++ (List.range 8).map (fun i => 36 + 2 * (i : Int))
        ++ (List.range 25).map (fun i => 54 + 4 * (i : Int))
        ++ (List.range 17).map (fun i => 200 + 50 * (i : Int)) := by
  decide

/-- On a list sorted in ascending order, the element at `lower_bound` is the first one
that is not below the value. -/
theorem get?_lower_bound (xs : List Int) (v : Int) :
    xs.get? (lower_bound xs v) = xs.find? (fun b => decide (v ≤ b)) := by
  induction xs with
  | nil => simp [lower_bound]
  | cons x xs ih =>
    by_cases hx : x < v
    · have : ¬ v ≤ x := by omega
      simp [lower_bound, hx, List.find?, this]
      simpa using ih
    · have : v ≤ x := by omega
      simp [lower_bound, hx, List.find?, this]

theorem find?_le_last (xs : List Int) (v last : Int) (hl : xs.getLast? = some last)
    (hv : v ≤ last) : ∃ b, xs.find? (fun b => decide (v ≤ b)) = some b := by
  have hmem : last ∈ xs := List.mem_of_getLast?_eq_some hl
  have : (xs.find? (fun b => decide (v ≤ b))).isSome := by
    rw [List.find?_isSome]
    exact ⟨last, hmem, by simpa using hv⟩
  exact Option.isSome_iff_exists.mp this

/-- A negative delta leaves the histogram as it is. -/
theorem insert_of_neg (h : Histogram) (delta : Int) (hd : delta < 0) : h.insert delta = h := by
  unfold Histogram.insert
  rw [if_pos hd]

/-- For a non-negative delta, `insert` is `hist[bucketFor delta]++`. -/
theorem insert_eq_increment (h : Histogram) (delta : Int) (hd : 0 ≤ delta) :
    h.insert delta = ⟨increment (bucketFor delta) h.hist⟩ := by
  unfold Histogram.insert
  rw [histogramConfig_last]
  have h0 : ¬ delta < 0 := by omega
  rw [if_neg h0]
  by_cases h1 : delta > 1000
  · rw [if_pos h1]
    have : histogramConfig.find? (fun b => decide (delta ≤ b)) = none := by
      rw [List.find?_eq_none]
      intro b hb
      have hb1000 : b ≤ 1000 := by
        revert b
        decide
      simp only [decide_eq_true_eq]
      omega
    simp [bucketFor, this]
  · rw [if_neg h1]
    obtain ⟨b, hb⟩ := find?_le_last histogramConfig delta 1000 (by decide) (by omega)
    rw [get?_lower_bound, hb]
    simp [bucketFor, hb]

theorem bucketFor_of_gt {delta : Int} (h : 1000 < delta) : bucketFor delta = 1000 := by
  have : histogramConfig.find? (fun b => decide (delta ≤ b)) = none := by
    rw [List.find?_eq_none]
    intro b hb
    have hb1000 : b ≤ 1000 := by
      revert b
      decide
    simp only [decide_eq_true_eq]
    omega
  simp [bucketFor, this]

theorem bucketFor_mem (delta : Int) : bucketFor delta ∈ histogramConfig := by
  unfold bucketFor
  cases hf : histogramConfig.find? (fun b => decide (delta ≤ b)) with
  | none =>
    simp only [Option.getD_none]
    decide
  | some b =>
    simp only [Option.getD_some]
    exact List.mem_of_find?_eq_some hf

/-- Up to the last boundary, `bucketFor delta` is the least table entry not below
`delta`. -/
theorem bucketFor_least {delta : Int} (h : delta ≤ 1000) :
    delta ≤ bucketFor delta ∧ ∀ b ∈ histogramConfig, delta ≤ b → bucketFor delta ≤ b := by
  obtain ⟨b, hb⟩ := find?_le_last histogramConfig delta 1000 (by decide) h
  have hbf : bucketFor delta = b := by simp [bucketFor, hb]
  rw [hbf]
  obtain ⟨hp, as, bs, hsplit, hall⟩ := List.find?_eq_some.mp hb
  refine ⟨by simpa using hp, ?_⟩
  intro b2 hb2 hle
  have hs := histogramConfig_sorted
  rw [hsplit] at hb2 hs
  rcases List.mem_append.mp hb2 with hin | hin
  · have := hall b2 hin
    simp at this
    omega
  · rcases List.mem_cons.mp hin with heq | hin2
    · omega
    · have hs2 := (List.pairwise_append.mp hs).2.1
      have := List.rel_of_pairwise_cons hs2 hin2
      omega

/-- The boundary of a delta is the least table entry that is not below
`min delta 1000`. -/
theorem bucketFor_spec (delta : Int) :
    bucketFor delta ∈ histogramConfig ∧ min delta 1000 ≤ bucketFor delta
    ∧ ∀ b ∈ histogramConfig, min delta 1000 ≤ b → bucketFor delta ≤ b := by
  refine ⟨bucketFor_mem delta, ?_⟩
  by_cases h : delta ≤ 1000
  · rw [min_eq_left h]
    exact bucketFor_least h
  · have hgt : 1000 < delta := by omega
    rw [min_eq_right (by omega), bucketFor_of_gt hgt]
    exact ⟨le_refl _, fun b _ hb => hb⟩

/-! ## The map operations -/

theorem find_increment_self (key : Int) (m : List (Int × Int)) :
    find (increment key m) key = some (wrap32 ((find m key).getD 0 + 1)) := by
  induction m with
  | nil => simp [increment, find]
  | cons e rest ih =>
    obtain ⟨k, c⟩ := e
    by_cases hk : k = key
    · simp [increment, find, hk]
    · simp [increment, find, hk, ih]

theorem find_increment_other (key b : Int) (m : List (Int × Int)) (hb : b ≠ key) :
    find (increment key m) b = find m b := by
  induction m with
  | nil =>
    have : ¬ key = b := fun h => hb h.symm
    simp [increment, find, this]
  | cons e rest ih =>
    obtain ⟨k, c⟩ := e
    by_cases hk : k = key
    · have : ¬ key = b := fun h => hb h.symm
      simp [increment, find, hk, this]
    · by_cases hkb : k = b
      · subst hkb
        simp [increment, find, hk]
      · simp [increment, find, hk, hkb, ih]

theorem find_mem {m : List (Int × Int)} {key c : Int} (h : find m key = some c) :
    (key, c) ∈ m := by
  induction m with
  | nil => simp [find] at h
  | cons e rest ih =>
    obtain ⟨k, c2⟩ := e
    by_cases hk : k = key
    · simp [find, hk] at h
      simp [hk, h]
    · simp [find, hk] at h
      exact List.mem_cons_of_mem _ (ih h)

theorem countOf_isInt32 {h : Histogram} (hv : h.Valid) (b : Int) : isInt32 (h.countOf b) := by
  unfold Histogram.countOf
  cases hf : find h.hist b with
  | none => simp [isInt32]
  | some c => exact (hv.2 _ (find_mem hf)).2

/-! ## Claims on `Histogram::insert` -/

/-- C1 (as amended): for a valid histogram and a delta `≥ 0`, when the count of the
bucket that the delta resolves to is below the largest `int32_t`, `insert` raises the
count of that bucket by exactly 1 and leaves the entry of every other bucket as it was;
the bucket is a table entry, the least one not below `delta` when `delta ≤ 1000`, and
1000 when `delta > 1000`. -/
theorem insert_increments_one_bucket (h : Histogram) (delta : Int) (hv : h.Valid)
    (hd : 0 ≤ delta) (hc : h.countOf (bucketFor delta) < 2147483647) :
    bucketFor delta ∈ histogramConfig
    ∧ (delta ≤ 1000 → delta ≤ bucketFor delta
        ∧ ∀ b ∈ histogramConfig, delta ≤ b → bucketFor delta ≤ b)
    ∧ (1000 < delta → bucketFor delta = 1000)
    ∧ (h.insert delta).countOf (bucketFor delta) = h.countOf (bucketFor delta) + 1
    ∧ ∀ b, b ≠ bucketFor delta → find (h.insert delta).hist b = find h.hist b := by
  refine ⟨bucketFor_mem delta, fun hle => bucketFor_least hle, fun hgt => bucketFor_of_gt hgt,
    ?_, ?_⟩
  · have hr := countOf_isInt32 hv (bucketFor delta)
    rw [insert_eq_increment h delta hd]
    unfold Histogram.countOf at hc hr ⊢
    rw [find_increment_self]
    cases hf : find h.hist (bucketFor delta) with
    | none => simp [wrap32]
    | some c =>
      rw [hf] at hc hr
      simp only [Option.getD_some] at hc hr ⊢
      apply wrap32_of_isInt32
      unfold isInt32 at hr ⊢
      omega
  · intro b hb
    rw [insert_eq_increment h delta hd]
    exact find_increment_other _ _ _ hb

/-- Witness of C1: the histogram `{16: 2}` and the delta 35, which resolves to 36. -/
theorem insert_increments_one_bucket_witness :
    bucketFor 35 = 36
    ∧ (Histogram.insert ⟨[(16, 2)]⟩ 35).countOf (bucketFor 35)
        = Histogram.countOf ⟨[(16, 2)]⟩ (bucketFor 35) + 1 :=
  ⟨by decide,
   (insert_increments_one_bucket ⟨[(16, 2)]⟩ 35 (by decide) (by decide) (by decide)).2.2.2.1⟩

/-- C1 (as stated) fails: in the valid histogram `{1000: 2147483647}` the call
`insert(1000)` raises no count by 1 while leaving the others alone, whatever bucket is
looked at; the count of 1000 becomes -2147483648. -/
theorem insert_count_overflow :
    Histogram.Valid ⟨[(1000, 2147483647)]⟩
    ∧ (Histogram.insert ⟨[(1000, 2147483647)]⟩ 1000).countOf 1000 = -2147483648
    ∧ ¬ ∃ b : Int,
        (Histogram.insert ⟨[(1000, 2147483647)]⟩ 1000).countOf b
            = Histogram.countOf ⟨[(1000, 2147483647)]⟩ b + 1
        ∧ ∀ b2 : Int, b2 ≠ b →
            (Histogram.insert ⟨[(1000, 2147483647)]⟩ 1000).countOf b2
              = Histogram.countOf ⟨[(1000, 2147483647)]⟩ b2 := by
  refine ⟨by decide, by decide, ?_⟩
  rintro ⟨b, hb, hothers⟩
  have hins : Histogram.insert ⟨[(1000, 2147483647)]⟩ 1000 = ⟨[(1000, -2147483648)]⟩ := by
    decide
  rw [hins] at hb hothers
  by_cases hb1000 : b = 1000
  · subst hb1000
    revert hb
    decide
  · have := hothers 1000 (fun h => hb1000 h.symm)
    revert this
    decide

/-- C2: for every histogram and every delta `< 0`, `insert` is a no-op: the bucket
mapping after the call is the mapping before it (no key is added, no count changes), so
the total observation count is unchanged. -/
theorem insert_negative_noop (h : Histogram) (delta : Int) (hd : delta < 0) :
    (h.insert delta).hist = h.hist
    ∧ totalCount (h.insert delta).hist = totalCount h.hist := by
  have : h.insert delta = h := by
    unfold Histogram.insert
    rw [if_pos hd]
  rw [this]
  exact ⟨rfl, rfl⟩

/-- Witness of C2: `insert(-7)` on the histogram `{16: 2, 33: 1}`. -/
theorem insert_negative_noop_witness :
    (Histogram.insert ⟨[(16, 2), (33, 1)]⟩ (-7)).hist = [(16, 2), (33, 1)] :=
  (insert_negative_noop ⟨[(16, 2), (33, 1)]⟩ (-7) (by decide)).1

/-! ## Runs of `insert` -/

theorem insertAll_cons (h : Histogram) (d : Int) (ds : List Int) :
    h.insertAll (d :: ds) = (h.insert d).insertAll ds := rfl

theorem hits_cons (b d : Int) (ds : List Int) :
    hits b (d :: ds) = hits b ds + if 0 ≤ d ∧ bucketFor d = b then 1 else 0 := by
  unfold hits
  rw [List.countP_cons]
  simp

theorem observations_cons (d : Int) (ds : List Int) :
    observations (d :: ds) = observations ds + if 0 ≤ d then 1 else 0 := by
  unfold observations
  rw [List.countP_cons]
  simp

/-- The entry of a bucket after a run of inserts: untouched when no delta of the run
resolves to it, else the count before plus the number of hits, reduced to `int32_t`. -/
theorem find_insertAll (ds : List Int) (h : Histogram) (b : Int) :
    find (h.insertAll ds).hist b =
      if hits b ds = 0 then find h.hist b
      else some (wrap32 ((find h.hist b).getD 0 + hits b ds)) := by
  induction ds generalizing h with
  | nil => simp [Histogram.insertAll, hits]
  | cons d ds ih =>
    rw [insertAll_cons, ih, hits_cons]
    by_cases hd : 0 ≤ d
    · rw [insert_eq_increment h d hd]
      by_cases hb : bucketFor d = b
      · subst hb
        simp only [find_increment_self, hd, and_self, if_true, Option.getD_some]
        by_cases h0 : hits (bucketFor d) ds = 0
        · simp [h0]
        · have : hits (bucketFor d) ds + 1 ≠ 0 := by omega
          simp only [h0, this, if_false, wrap32_wrap32_add]
          congr 2
          push_cast
          ring
      · have hne : b ≠ bucketFor d := fun h => hb h.symm
        simp [find_increment_other _ _ _ hne, hb]
    · have hlt : d < 0 := by omega
      rw [insert_of_neg h d hlt]
      simp [hd]

theorem mem_increment {key : Int} {m : List (Int × Int)} {e : Int × Int}
    (he : e ∈ increment key m) :
    e ∈ m ∨ (e.1 = key ∧ ∃ c, (c = 0 ∨ (key, c) ∈ m) ∧ e.2 = wrap32 (c + 1)) := by
  induction m with
  | nil =>
    simp only [increment, List.mem_singleton] at he
    subst he
    exact Or.inr ⟨rfl, 0, Or.inl rfl, rfl⟩
  | cons x rest ih =>
    obtain ⟨k, c⟩ := x
    by_cases hk : k = key
    · simp only [increment, hk, if_true, List.mem_cons] at he
      rcases he with he | he
      · subst he
        exact Or.inr ⟨rfl, c, Or.inr (by simp [hk]), rfl⟩
      · exact Or.inl (by simp [he])
    · simp only [increment, hk, if_false, List.mem_cons] at he
      rcases he with he | he
      · exact Or.inl (by simp [he])
      · rcases ih he with h1 | ⟨h1, c2, h2, h3⟩
        · exact Or.inl (List.mem_cons_of_mem _ h1)
        · refine Or.inr ⟨h1, c2, ?_, h3⟩
          rcases h2 with h2 | h2
          · exact Or.inl h2
          · exact Or.inr (List.mem_cons_of_mem _ h2)

theorem keys_increment (key : Int) (m : List (Int × Int)) :
    (increment key m).map Prod.fst =
      if key ∈ m.map Prod.fst then m.map Prod.fst else m.map Prod.fst ++ [key] := by
  induction m with
  | nil => simp [increment]
  | cons x rest ih =>
    obtain ⟨k, c⟩ := x
    by_cases hk : k = key
    · simp [increment, hk]
    · have hk2 : ¬ key = k := fun h => hk h.symm
      simp only [increment, hk, if_false, List.map_cons, ih, List.mem_cons, hk2, false_or]
      split <;> simp

theorem nodup_keys_increment (key : Int) (m : List (Int × Int))
    (hm : (m.map Prod.fst).Nodup) : ((increment key m).map Prod.fst).Nodup := by
  rw [keys_increment]
  split
  · exact hm
  · rename_i hnot
    rw [List.nodup_append]
    refine ⟨hm, List.nodup_singleton _, ?_⟩
    intro a ha hb
    simp only [List.mem_singleton] at hb
    subst hb
    exact hnot ha

theorem nodup_keys_insertAll (ds : List Int) (h : Histogram)
    (hm : (h.hist.map Prod.fst).Nodup) : ((h.insertAll ds).hist.map Prod.fst).Nodup := by
  induction ds generalizing h with
  | nil => exact hm
  | cons d ds ih =>
    rw [insertAll_cons]
    apply ih
    by_cases hd : 0 ≤ d
    · rw [insert_eq_increment h d hd]
      exact nodup_keys_increment _ _ hm
    · rw [insert_of_neg h d (by omega)]
      exact hm

theorem keys_insertAll (ds : List Int) (h : Histogram)
    (hm : ∀ e ∈ h.hist, e.1 ∈ histogramConfig) :
    ∀ e ∈ (h.insertAll ds).hist, e.1 ∈ histogramConfig := by
  induction ds generalizing h with
  | nil => exact hm
  | cons d ds ih =>
    rw [insertAll_cons]
    apply ih
    by_cases hd : 0 ≤ d
    · rw [insert_eq_increment h d hd]
      intro e he
      rcases mem_increment he with h1 | ⟨h1, _⟩
      · exact hm e h1
      · rw [h1]
        exact bucketFor_mem d
    · rw [insert_of_neg h d (by omega)]
      exact hm

theorem totalCount_nonneg {m : List (Int × Int)} (hm : ∀ e ∈ m, 0 ≤ e.2) :
    0 ≤ totalCount m := by
  induction m with
  | nil => simp [totalCount]
  | cons x rest ih =>
    have h1 := hm x (List.mem_cons_self _ _)
    have h2 := ih (fun e he => hm e (List.mem_cons_of_mem _ he))
    simp only [totalCount, List.map_cons, List.sum_cons] at h2 ⊢
    omega

/-! ## The loop of `averageTime` -/

theorem averageTimeLoop_snd (m : List (Int × Int)) (acc : Int × Int) :
    (m.foldl
      (fun (acc : Int × Int) (ele : Int × Int) =>
        let count := wrap64 (acc.2 + ele.2)
        let ret := wrap64 (acc.1 + wrap32 (ele.1 * ele.2))
        (ret, count)) acc).2
      = m.foldl (fun (count : Int) (ele : Int × Int) => wrap64 (count + ele.2)) acc.2 := by
  induction m generalizing acc with
  | nil => rfl
  | cons x rest ih => simp only [List.foldl_cons, ih]

theorem foldl_count_exact (m : List (Int × Int)) (count : Int) (hm : ∀ e ∈ m, 0 ≤ e.2)
    (h0 : 0 ≤ count) (h1 : count + totalCount m < 9223372036854775808) :
    m.foldl (fun (count : Int) (ele : Int × Int) => wrap64 (count + ele.2)) count
      = count + totalCount m := by
  induction m generalizing count with
  | nil => simp [totalCount]
  | cons x rest ih =>
    have hrest : ∀ e ∈ rest, 0 ≤ e.2 := fun e he => hm e (List.mem_cons_of_mem _ he)
    have hx := hm x (List.mem_cons_self _ _)
    have hr := totalCount_nonneg hrest
    simp only [totalCount, List.map_cons, List.sum_cons] at h1 hr ⊢
    have hw : wrap64 (count + x.2) = count + x.2 := wrap64_of_range (by omega) (by omega)
    rw [List.foldl_cons, hw, ih (count + x.2) hrest (by omega) (by simp only [totalCount]; omega)]
    simp only [totalCount]
    ring

/-- The divisor of `averageTime()` is the sum of the stored counts when these are
non-negative and their sum is in `int64_t`. -/
theorem averageTime_count (h : Histogram) (hm : ∀ e ∈ h.hist, 0 ≤ e.2)
    (h1 : totalCount h.hist < 9223372036854775808) :
    h.averageTime.count = totalCount h.hist := by
  unfold Histogram.averageTime Histogram.averageTimeLoop
  simp only
  rw [averageTimeLoop_snd, foldl_count_exact _ _ hm (le_refl _) (by simpa using h1)]
  simp

/-! ## Long runs of one delta -/

theorem insertAll_replicate_single (d : Int) (hd : 0 ≤ d) (n : Nat) (c : Int) :
    Histogram.insertAll ⟨[(bucketFor d, c)]⟩ (List.replicate n d)
      = ⟨[(bucketFor d, if n = 0 then c else wrap32 (c + n))]⟩ := by
  induction n generalizing c with
  | zero => simp [Histogram.insertAll]
  | succ n ih =>
    rw [List.replicate_succ, insertAll_cons, insert_eq_increment _ d hd]
    simp only [increment, if_true]
    rw [ih]
    by_cases hn : n = 0
    · subst hn
      simp
    · have : n + 1 ≠ 0 := by omega
      simp only [hn, this, if_false, wrap32_wrap32_add]
      congr 4
      push_cast
      ring

/-- The histogram after `n + 1` inserts of one non-negative delta: one entry, whose
count is `n + 1` reduced to `int32_t`. -/
theorem insertAll_replicate (d : Int) (hd : 0 ≤ d) (n : Nat) :
    Histogram.empty.insertAll (List.replicate (n + 1) d)
      = ⟨[(bucketFor d, wrap32 (n + 1))]⟩ := by
  rw [List.replicate_succ, insertAll_cons, insert_eq_increment _ d hd]
  simp only [Histogram.empty, increment]
  rw [insertAll_replicate_single d hd]
  by_cases hn : n = 0
  · subst hn
    simp
  · simp only [hn, if_false, wrap32_wrap32_add]
    congr 4
    push_cast
    ring

/-! ## Counts bucket by bucket -/

theorem find_of_mem {m : List (Int × Int)} (hn : (m.map Prod.fst).Nodup) {e : Int × Int}
    (he : e ∈ m) : find m e.1 = some e.2 := by
  induction m with
  | nil => simp at he
  | cons x rest ih =>
    obtain ⟨k, c⟩ := x
    rw [List.map_cons, List.nodup_cons] at hn
    rcases List.mem_cons.mp he with heq | hin
    · subst heq
      simp [find]
    · have hne : ¬ k = e.1 := by
        intro hk
        apply hn.1
        rw [hk]
        exact List.mem_map.mpr ⟨e, hin, rfl⟩
      simp [find, hne, ih hn.2 hin]

/-- The stored count of an entry after a run of inserts on the empty histogram: the
number of deltas that resolve to its key, which is not 0, reduced to `int32_t`. -/
theorem count_eq_wrap_hits (ds : List Int) (e : Int × Int)
    (he : e ∈ (Histogram.empty.insertAll ds).hist) :
    e.2 = wrap32 (hits e.1 ds) ∧ 1 ≤ hits e.1 ds := by
  have hnodup := nodup_keys_insertAll ds Histogram.empty (by simp [Histogram.empty])
  have hf := find_of_mem hnodup he
  rw [find_insertAll] at hf
  by_cases h0 : hits e.1 ds = 0
  · simp [h0, Histogram.empty, find] at hf
  · simp only [h0, if_false, Histogram.empty, find, Option.getD_none, zero_add,
      Option.some.injEq] at hf
    exact ⟨hf.symm, by omega⟩

/-- The stored count of an entry whose key fewer than `2^31` deltas of the run resolve
to is the number of these deltas. -/
theorem count_eq_hits (ds : List Int) (e : Int × Int)
    (he : e ∈ (Histogram.empty.insertAll ds).hist) (hn : hits e.1 ds < 2147483648) :
    e.2 = hits e.1 ds := by
  rw [(count_eq_wrap_hits ds e he).1]
  apply wrap32_of_isInt32
  unfold isInt32
  omega

/-- The statement `hist[key]++` changes the sum of the counts and the sum of
`boundary * count` by the change of the count of `key`. -/
theorem increment_sums (key : Int) (m : List (Int × Int)) :
    totalCount (increment key m)
        = totalCount m + (wrap32 ((find m key).getD 0 + 1) - (find m key).getD 0)
    ∧ weightedSum (increment key m)
        = weightedSum m + key * (wrap32 ((find m key).getD 0 + 1) - (find m key).getD 0) := by
  induction m with
  | nil => simp [increment, totalCount, weightedSum, find]
  | cons x rest ih =>
    obtain ⟨k, c⟩ := x
    by_cases hk : k = key
    · subst hk
      simp only [increment, if_true, find, totalCount, weightedSum, List.map_cons,
        List.sum_cons, Option.getD_some]
      constructor <;> ring
    · obtain ⟨ih1, ih2⟩ := ih
      simp only [totalCount, weightedSum] at ih1 ih2
      simp only [increment, hk, if_false, find, totalCount, weightedSum, List.map_cons,
        List.sum_cons, ih1, ih2]
      constructor <;> ring

theorem insertAll_append (h : Histogram) (ds : List Int) (d : Int) :
    h.insertAll (ds ++ [d]) = (h.insertAll ds).insert d := by
  unfold Histogram.insertAll
  rw [List.foldl_append]
  rfl

theorem hits_append (b d : Int) (ds : List Int) :
    hits b (ds ++ [d]) = hits b ds + if 0 ≤ d ∧ bucketFor d = b then 1 else 0 := by
  unfold hits
  rw [List.countP_append, List.countP_cons]
  simp

theorem observations_append (d : Int) (ds : List Int) :
    observations (ds ++ [d]) = observations ds + if 0 ≤ d then 1 else 0 := by
  unfold observations
  rw [List.countP_append, List.countP_cons]
  simp

theorem clampedSum_append (d : Int) (ds : List Int) :
    clampedSum (ds ++ [d]) = clampedSum ds + if 0 ≤ d then bucketFor d else 0 := by
  unfold clampedSum
  by_cases hd : 0 ≤ d
  · simp [List.filter_append, List.filter_cons, hd]
  · simp [List.filter_append, List.filter_cons, hd]

/-- After a run of inserts on the empty histogram in which fewer than `2^31` deltas
resolve to each boundary, the stored counts sum to the number of non-negative deltas and
the products `boundary * count` to the sum of the boundaries the deltas resolve to. -/
theorem sums_insertAll (ds : List Int)
    (hn : ∀ b ∈ histogramConfig, hits b ds < 2147483648) :
    totalCount (Histogram.empty.insertAll ds).hist = observations ds
    ∧ weightedSum (Histogram.empty.insertAll ds).hist = clampedSum ds := by
  induction ds using List.reverseRecOn with
  | nil => simp [Histogram.insertAll, Histogram.empty, totalCount, weightedSum, observations,
      clampedSum]
  | append_singleton ds d ih =>
    have hnds : ∀ b ∈ histogramConfig, hits b ds < 2147483648 := by
      intro b hb
      have := hn b hb
      rw [hits_append] at this
      omega
    obtain ⟨iht, ihw⟩ := ih hnds
    rw [insertAll_append, observations_append, clampedSum_append]
    by_cases hd : 0 ≤ d
    · rw [insert_eq_increment _ d hd]
      have hkey := bucketFor_mem d
      have hlt := hn _ hkey
      rw [hits_append] at hlt
      simp only [hd, and_self, if_true] at hlt
      have hc : (find (Histogram.empty.insertAll ds).hist (bucketFor d)).getD 0
          = hits (bucketFor d) ds := by
        have hfe : find Histogram.empty.hist (bucketFor d) = none := rfl
        have hw0 : wrap32 (hits (bucketFor d) ds : Int) = (hits (bucketFor d) ds : Int) := by
          apply wrap32_of_isInt32
          unfold isInt32
          omega
        rw [find_insertAll, hfe]
        by_cases h0 : hits (bucketFor d) ds = 0
        · rw [if_pos h0, h0]
          rfl
        · rw [if_neg h0, Option.getD_none, zero_add, hw0, Option.getD_some]
      have hw : wrap32 ((hits (bucketFor d) ds : Int) + 1) = (hits (bucketFor d) ds : Int) + 1 := by
        apply wrap32_of_isInt32
        unfold isInt32
        omega
      obtain ⟨h1, h2⟩ := increment_sums (bucketFor d) (Histogram.empty.insertAll ds).hist
      rw [hc, hw] at h1 h2
      simp only [hd, if_true]
      rw [h1, h2, iht, ihw]
      constructor
      · push_cast
        ring
      · ring
    · rw [insert_of_neg _ d (by omega)]
      simp only [hd, if_false]
      exact ⟨by simpa using iht, by simpa using ihw⟩

/-- A histogram obtained by a run of inserts has at most 85 entries. -/
theorem length_hist_insertAll (ds : List Int) :
    (Histogram.empty.insertAll ds).hist.length ≤ 85 := by
  have hnodup := nodup_keys_insertAll ds Histogram.empty (by simp [Histogram.empty])
  have hkeys := keys_insertAll ds Histogram.empty (by simp [Histogram.empty])
  have hsub : (Histogram.empty.insertAll ds).hist.map Prod.fst ⊆ histogramConfig := by
    intro k hk
    obtain ⟨e, he, rfl⟩ := List.mem_map.mp hk
    exact hkeys e he
  have := (List.subperm_of_subset hnodup hsub).length_le
  rw [List.length_map, histogramConfig_length] at this
  exact this

theorem totalCount_le_length (m : List (Int × Int)) (hm : ∀ e ∈ m, e.2 ≤ 2147483647) :
    totalCount m ≤ m.length * 2147483647 := by
  induction m with
  | nil => simp [totalCount]
  | cons x rest ih =>
    have h1 := hm x (List.mem_cons_self _ _)
    have h2 := ih (fun e he => hm e (List.mem_cons_of_mem _ he))
    simp only [totalCount, List.map_cons, List.sum_cons, List.length_cons] at h2 ⊢
    push_cast
    omega

theorem weightedSum_le_length (m : List (Int × Int))
    (hm : ∀ e ∈ m, e.1 * e.2 ≤ 2147483647) : weightedSum m ≤ m.length * 2147483647 := by
  induction m with
  | nil => simp [weightedSum]
  | cons x rest ih =>
    have h1 := hm x (List.mem_cons_self _ _)
    have h2 := ih (fun e he => hm e (List.mem_cons_of_mem _ he))
    simp only [weightedSum, List.map_cons, List.sum_cons, List.length_cons] at h2 ⊢
    push_cast
    omega

/-- The divisor of `averageTime()` after a run in which fewer than `2^31` deltas resolve
to each boundary is the number of non-negative deltas of the run. -/
theorem averageTime_count_of_run (ds : List Int)
    (hn : ∀ b ∈ histogramConfig, hits b ds < 2147483648) :
    (Histogram.empty.insertAll ds).averageTime.count = observations ds := by
  have hkeys := keys_insertAll ds Histogram.empty (by simp [Histogram.empty])
  have hcount : ∀ e ∈ (Histogram.empty.insertAll ds).hist, 0 ≤ e.2 ∧ e.2 ≤ 2147483647 := by
    intro e he
    have h1 := count_eq_hits ds e he (hn e.1 (hkeys e he))
    have h2 := hn e.1 (hkeys e he)
    omega
  have hlen := length_hist_insertAll ds
  have hle := totalCount_le_length _ (fun e he => (hcount e he).2)
  rw [averageTime_count _ (fun e he => (hcount e he).1) (by omega)]
  exact (sums_insertAll ds hn).1

/-! ## Claims on `Histogram::averageTime` and the invariant -/

/-- The inserts 2, 2, 1000000 give the buckets `{2: 2, 1000: 1}`, and `averageTime()` is
the quotient 1004 / 3. -/
theorem averageTime_example :
    (Histogram.empty.insertAll [2, 2, 1000000]).hist = [(2, 2), (1000, 1)]
    ∧ (Histogram.empty.insertAll [2, 2, 1000000]).averageTime = ⟨1004, 3⟩ := by
  constructor <;> decide

/-- The 32-bit product of `averageTime()`: after 2147484 inserts of the delta 1000 into
the empty histogram the bucket mapping is `{1000: 2147484}`, whose weighted sum is
2147484000 and whose total count is 2147484, but the numerator that `averageTime()`
accumulates is -2147483296, the product `1000 * 2147484` reduced to `int32_t`. -/
theorem averageTime_product_overflow :
    (Histogram.empty.insertAll (List.replicate 2147484 1000)).hist = [(1000, 2147484)]
    ∧ weightedSum (Histogram.empty.insertAll (List.replicate 2147484 1000)).hist
        = 2147484000
    ∧ totalCount (Histogram.empty.insertAll (List.replicate 2147484 1000)).hist = 2147484
    ∧ (Histogram.empty.insertAll (List.replicate 2147484 1000)).averageTime
        = ⟨-2147483296, 2147484⟩ := by
  have h := insertAll_replicate 1000 (by decide) 2147483
  have hb : bucketFor 1000 = 1000 := by decide
  have hw : wrap32 ((2147483 : Nat) + 1) = 2147484 := by decide
  rw [hb, hw] at h
  have hn : (2147483 + 1 : Nat) = 2147484 := by norm_num
  rw [hn] at h
  rw [h]
  refine ⟨rfl, by decide, by decide, by decide⟩

/-- C4 (as stated) fails: after 2147483648 inserts of the delta 0 into the empty
histogram the count stored for the key 0 is -2147483648, which is below 1. -/
theorem insertAll_count_overflow :
    ∃ e ∈ (Histogram.empty.insertAll (List.replicate 2147483648 0)).hist, ¬ 1 ≤ e.2 := by
  have h := insertAll_replicate 0 (by decide) 2147483647
  have hb : bucketFor 0 = 0 := by decide
  have hw : wrap32 ((2147483647 : Nat) + 1) = -2147483648 := by decide
  rw [hb, hw] at h
  have hn : (2147483647 + 1 : Nat) = 2147483648 := by norm_num
  rw [hn] at h
  rw [h]
  exact ⟨(0, -2147483648), by simp, by decide⟩

/-- C4 (as amended): in every histogram obtained from the empty one by a run of
`insert` calls with arbitrary integer arguments every key is one of the 85 values of
`histogramConfig` (0 to 34 in steps of 1, 36 to 50 in steps of 2, 54 to 150 in steps of
4, 200 to 1000 in steps of 50), and every stored count is the number of arguments that
resolve to its key, which is at least 1, reduced to `int32_t`: the count is at least 1
when fewer than `2^31` arguments resolve to its key. -/
theorem insertAll_invariant (ds : List Int) (e : Int × Int)
    (he : e ∈ (Histogram.empty.insertAll ds).hist) :
    e.1 ∈ histogramConfig
    ∧ histogramConfig.length = 85
    ∧ histogramConfig =
        (List.range 35).map (fun i => (i : Int))
          ++ (List.range 8).map (fun i => 36 + 2 * (i : Int))
          ++ (List.range 25).map (fun i => 54 + 4 * (i : Int))
          ++ (List.range 17).map (fun i => 200 + 50 * (i : Int))
    ∧ e.2 = wrap32 (hits e.1 ds)
    ∧ 1 ≤ hits e.1 ds
    ∧ (hits e.1 ds < 2147483648 → 1 ≤ e.2) := by
  obtain ⟨h1, h2⟩ := count_eq_wrap_hits ds e he
  refine ⟨?_, histogramConfig_length, histogramConfig_eq, h1, h2, ?_⟩
  · exact keys_insertAll ds Histogram.empty (by simp [Histogram.empty]) e he
  · intro hn
    rw [count_eq_hits ds e he hn]
    exact_mod_cast h2

/-- Witness of C4: the entry `(36, 2)` after the run 35, -4, 36, 5000. -/
theorem insertAll_invariant_witness :
    ((36 : Int), (2 : Int)) ∈ (Histogram.empty.insertAll [35, -4, 36, 5000]).hist
    ∧ (36 : Int) ∈ histogramConfig ∧ hits 36 [35, -4, 36, 5000] = 2 ∧ (1 : Int) ≤ 2 :=
  ⟨by decide,
   (insertAll_invariant [35, -4, 36, 5000] (36, 2) (by decide)).1,
   by decide,
   (insertAll_invariant [35, -4, 36, 5000] (36, 2) (by decide)).2.2.2.2.2 (by decide)⟩

/-- C9 (as stated) fails: after 2147483648 inserts of the delta 0 the divisor of
`averageTime()` is -2147483648, not the number 2147483648 of non-negative deltas. -/
theorem averageTime_count_overflow :
    observations (List.replicate 2147483648 0) = 2147483648
    ∧ (Histogram.empty.insertAll (List.replicate 2147483648 0)).averageTime.count
        = -2147483648 := by
  constructor
  · unfold observations
    rw [List.countP_replicate]
    simp
  · have h := insertAll_replicate 0 (by decide) 2147483647
    have hb : bucketFor 0 = 0 := by decide
    have hw : wrap32 ((2147483647 : Nat) + 1) = -2147483648 := by decide
    rw [hb, hw] at h
    have hn : (2147483647 + 1 : Nat) = 2147483648 := by norm_num
    rw [hn] at h
    rw [h]
    decide

/-- C9 (as amended): for every run of `insert` calls on the empty histogram in which
fewer than `2^31` deltas resolve to each boundary, the total count that `averageTime()`
divides by is the number of non-negative deltas of the run; it is non-zero if and only if
the run has a non-negative delta. -/
theorem averageTime_count_insertAll (ds : List Int)
    (hn : ∀ b ∈ histogramConfig, hits b ds < 2147483648) :
    (Histogram.empty.insertAll ds).averageTime.count = observations ds
    ∧ ((Histogram.empty.insertAll ds).averageTime.count ≠ 0 ↔ ∃ d ∈ ds, 0 ≤ d) := by
  have hc := averageTime_count_of_run ds hn
  refine ⟨hc, ?_⟩
  rw [hc]
  have : observations ds ≠ 0 ↔ ∃ d ∈ ds, 0 ≤ d := by
    unfold observations
    rw [Nat.ne_zero_iff_zero_lt, List.countP_pos_iff]
    simp
  exact_mod_cast this

/-- Witness of C9: the run 16, -3, 16, 33 has three non-negative deltas. -/
theorem averageTime_count_insertAll_witness :
    (Histogram.empty.insertAll [16, -3, 16, 33]).averageTime.count = 3 :=
  (averageTime_count_insertAll [16, -3, 16, 33] (by decide)).1

/-! ## Text of numbers -/

theorem isNumberChar_digitChar (n : Nat) : isNumberChar (Nat.digitChar (n % 10)) = true := by
  have h : n % 10 < 10 := Nat.mod_lt _ (by decide)
  interval_cases n % 10 <;> decide

theorem isNumberChar_toDigitsCore (fuel n : Nat) (ds : List Char)
    (hds : ∀ c ∈ ds, isNumberChar c = true) :
    ∀ c ∈ Nat.toDigitsCore 10 fuel n ds, isNumberChar c = true := by
  induction fuel generalizing n ds with
  | zero => simpa [Nat.toDigitsCore] using hds
  | succ fuel ih =>
    have hcons : ∀ c ∈ Nat.digitChar (n % 10) :: ds, isNumberChar c = true := by
      intro c hc
      rcases List.mem_cons.mp hc with h | h
      · rw [h]
        exact isNumberChar_digitChar n
      · exact hds c h
    unfold Nat.toDigitsCore
    simp only
    split
    · exact hcons
    · exact ih _ _ hcons

theorem isNumberChar_printf_d (x : Int) : ∀ c ∈ printf_d x, isNumberChar c = true := by
  unfold printf_d Nat.toDigits
  split
  · intro c hc
    rcases List.mem_cons.mp hc with h | h
    · rw [h]
      decide
    · exact isNumberChar_toDigitsCore _ _ [] (by simp) c h
  · exact isNumberChar_toDigitsCore _ _ [] (by simp)

theorem isNumberChar_ne {c : Char} (h : isNumberChar c = true) :
    c ≠ ' ' ∧ c ≠ '\n' ∧ c ≠ Char.ofNat 0 := by
  refine ⟨?_, ?_, ?_⟩ <;>
  · intro hc
    rw [hc] at h
    revert h
    decide

/-- A token holds no space, no newline and no NUL. -/
theorem token_chars (bucket count : Int) :
    ∀ c ∈ token bucket count, c ≠ ' ' ∧ c ≠ '\n' ∧ c ≠ Char.ofNat 0 := by
  intro c hc
  unfold token at hc
  rcases List.mem_append.mp hc with h | h
  · rcases List.mem_append.mp h with h | h
    · exact isNumberChar_ne (isNumberChar_printf_d _ c h)
    · have : c = 'm' ∨ c = 's' ∨ c = '=' := by simpa using h
      rcases this with h | h | h <;>
      · rw [h]
        decide
  · exact isNumberChar_ne (isNumberChar_printf_d _ c h)

/-! ## The text form of a histogram -/

/-- One round of the loop of `toString` appends the token of the bucket and a space,
and leaves the map as it is: `hist[bucket]` is only evaluated for a present key. -/
theorem toStringStep_eq (text : List Char) (m : List (Int × Int)) (i : Nat) :
    Histogram.toStringStep (text, m) i =
      (text ++ (token (histogramConfig.getD i 0)
          (Histogram.countOf ⟨m⟩ (histogramConfig.getD i 0)) ++ [' ']), m) := by
  unfold Histogram.toStringStep
  generalize histogramConfig.getD i 0 = b
  unfold Histogram.countOf index token
  cases hf : find m b with
  | none => simp [hf]
  | some c => simp [hf]

theorem toString_loop (is : List Nat) (text : List Char) (m : List (Int × Int)) :
    is.foldl Histogram.toStringStep (text, m) =
      (text ++ (is.map (fun i => token (histogramConfig.getD i 0)
          (Histogram.countOf ⟨m⟩ (histogramConfig.getD i 0)) ++ [' '])).flatten, m) := by
  induction is generalizing text with
  | nil => simp
  | cons i is ih =>
    rw [List.foldl_cons, toStringStep_eq, ih]
    simp

theorem dropLast_join_spaces (ts : List (List Char)) (hts : ts ≠ []) :
    (ts.map (fun t => t ++ [' '])).flatten.dropLast = List.intercalate [' '] ts := by
  induction ts with
  | nil => exact absurd rfl hts
  | cons t rest ih =>
    cases rest with
    | nil => simp [List.intercalate]
    | cons t2 rest2 =>
      have ih2 := ih (by simp)
      have hne : ((t2 :: rest2).map (fun t => t ++ [' '])).flatten ≠ [] := by simp
      rw [List.map_cons, List.flatten_cons, List.append_assoc,
        List.dropLast_append_of_ne_nil _ (by simp), List.singleton_append,
        List.dropLast_cons_of_ne_nil hne, ih2]
      simp [List.intercalate, List.intersperse]

theorem histogramConfig_range :
    (List.range HISTOGRAM_SIZE).map (fun i => histogramConfig.getD i 0) = histogramConfig := by
  decide

/-- The text of a histogram in closed form, and the histogram after the call. -/
theorem toString_eq (h : Histogram) :
    h.toString =
      (List.intercalate [' '] (histogramConfig.map (fun b => token b (h.countOf b)))
        ++ ['\n'], h) := by
  unfold Histogram.toString
  simp only [toString_loop, List.nil_append, setBack]
  have hmap : (List.range HISTOGRAM_SIZE).map (fun i => token (histogramConfig.getD i 0)
        (Histogram.countOf ⟨h.hist⟩ (histogramConfig.getD i 0)) ++ [' '])
      = (histogramConfig.map (fun b => token b (h.countOf b))).map (fun t => t ++ [' ']) := by
    conv_rhs => rw [← histogramConfig_range]
    simp [List.map_map, Function.comp]
  rw [hmap, dropLast_join_spaces _ (by rw [ne_eq, List.map_eq_nil_iff]; decide)]

/-- C7: for every bucket mapping, the text of `Histogram::toString()` is 85 tokens
`<boundary>ms=<count>`, one for each entry of `histogramConfig` in the order of the
table, which is strictly ascending; consecutive tokens are joined by one space and the
text ends with one newline. No token holds a space or a newline, so the text has no
other space, no other newline, and no space before the newline. -/
theorem toString_format (h : Histogram) :
    (h.toString).1 =
        List.intercalate [' '] (histogramConfig.map (fun b => token b (h.countOf b)))
          ++ ['\n']
    ∧ (histogramConfig.map (fun b => token b (h.countOf b))).length = 85
    ∧ histogramConfig.Pairwise (fun a b => a < b)
    ∧ (histogramConfig.map (fun b => token b (h.countOf b))).all
        (fun t => t.all (fun c => c != ' ' && c != '\n') && !t.isEmpty) = true := by
  refine ⟨by rw [toString_eq], by simp [histogramConfig_length, HISTOGRAM_SIZE],
    histogramConfig_sorted, ?_⟩
  rw [List.all_eq_true]
  intro t ht
  obtain ⟨b, _, rfl⟩ := List.mem_map.mp ht
  rw [Bool.and_eq_true, List.all_eq_true]
  constructor
  · intro c hc
    have := token_chars b (h.countOf b) c hc
    simp [this.1, this.2.1]
  · simp [token]

theorem countOf_insertAll (ds : List Int) (b : Int) :
    (Histogram.empty.insertAll ds).countOf b = if hits b ds = 0 then 0 else wrap32 (hits b ds) := by
  unfold Histogram.countOf
  rw [find_insertAll]
  by_cases h0 : hits b ds = 0
  · simp [h0, Histogram.empty, find]
  · simp [h0, Histogram.empty, find]

/-- C8 (as stated) fails: after 2147483648 inserts of the delta 0, all of which resolve
to the boundary 0, the count printed for 0 is -2147483648: the text is the 85 tokens
with `0ms=-2147483648` first and the count 0 for every other boundary. -/
theorem toString_count_overflow :
    hits 0 (List.replicate 2147483648 0) = 2147483648
    ∧ ((Histogram.empty.insertAll (List.replicate 2147483648 0)).toString).1
        = List.intercalate [' ']
            (histogramConfig.map (fun b => token b (if b = 0 then -2147483648 else 0)))
          ++ ['\n']
    ∧ token 0 (-2147483648) = "0ms=-2147483648".toList := by
  refine ⟨?_, ?_, by decide⟩
  · unfold hits
    rw [List.countP_replicate]
    have : bucketFor 0 = 0 := by decide
    simp [this]
  · have h := insertAll_replicate 0 (by decide) 2147483647
    have hb : bucketFor 0 = 0 := by decide
    have hw : wrap32 ((2147483647 : Nat) + 1) = -2147483648 := by decide
    rw [hb, hw] at h
    have hn : (2147483647 + 1 : Nat) = 2147483648 := by norm_num
    rw [hn] at h
    have hmap : histogramConfig.map
          (fun b => token b (Histogram.countOf ⟨[(0, -2147483648)]⟩ b))
        = histogramConfig.map (fun b => token b (if b = 0 then -2147483648 else 0)) := by
      apply List.map_congr_left
      intro b _
      by_cases hb0 : b = 0
      · simp [Histogram.countOf, find, hb0]
      · have : ¬ (0 : Int) = b := fun h => hb0 h.symm
        simp [Histogram.countOf, find, hb0, this]
    rw [h, toString_eq, hmap]

/-- C8 (as amended): for every histogram built from the empty one by a run of inserts
in which fewer than `2^31` deltas resolve to any one boundary, the text of
`Histogram::toString()` is the 85 tokens `<b>ms=<n>`, `b` running through
`histogramConfig` and `n` being the number of inserted deltas that resolve to `b` (the
non-negative deltas for which `b` is the smallest boundary not below `min delta 1000`);
a boundary with no entry in the mapping has no such delta and is printed with count 0. -/
theorem toString_insertAll (ds : List Int)
    (hn : ∀ b ∈ histogramConfig, hits b ds < 2147483648) :
    ((Histogram.empty.insertAll ds).toString).1
        = List.intercalate [' '] (histogramConfig.map (fun b => token b (hits b ds)))
          ++ ['\n']
    ∧ (∀ b ∈ histogramConfig, find (Histogram.empty.insertAll ds).hist b = none →
        hits b ds = 0 ∧ (Histogram.empty.insertAll ds).countOf b = 0)
    ∧ ∀ b, hits b ds = ds.countP (fun d => decide (0 ≤ d ∧
        (b ∈ histogramConfig ∧ min d 1000 ≤ b
          ∧ ∀ b2 ∈ histogramConfig, min d 1000 ≤ b2 → b ≤ b2))) := by
  refine ⟨?_, ?_, ?_⟩
  · have hmap : histogramConfig.map
          (fun b => token b ((Histogram.empty.insertAll ds).countOf b))
        = histogramConfig.map (fun b => token b (hits b ds)) := by
      apply List.map_congr_left
      intro b hb
      rw [countOf_insertAll]
      by_cases h0 : hits b ds = 0
      · simp [h0]
      · have hlt := hn b hb
        have : wrap32 (hits b ds) = hits b ds := by
          apply wrap32_of_isInt32
          unfold isInt32
          omega
        simp [h0, this]
    rw [toString_eq, hmap]
  · intro b _ hf
    have h0 : hits b ds = 0 := by
      rw [find_insertAll] at hf
      by_contra hne
      simp [hne] at hf
    refine ⟨h0, ?_⟩
    rw [countOf_insertAll]
    simp [h0]
  · intro b
    unfold hits
    apply List.countP_congr
    intro d _
    simp only [decide_eq_true_eq]
    constructor
    · rintro ⟨hd, rfl⟩
      exact ⟨hd, bucketFor_spec d⟩
    · rintro ⟨hd, hb, hle, hleast⟩
      obtain ⟨h1, h2, h3⟩ := bucketFor_spec d
      exact ⟨hd, le_antisymm (h3 b hb hle) (hleast _ h1 h2)⟩

/-- Witness of C8: the run 16, -3, 16, 33, in which two deltas resolve to 16. -/
theorem toString_insertAll_witness :
    hits 16 [16, -3, 16, 33] = 2
    ∧ ((Histogram.empty.insertAll [16, -3, 16, 33]).toString).1
        = List.intercalate [' ']
            (histogramConfig.map (fun b => token b (hits b [16, -3, 16, 33])))
          ++ ['\n'] :=
  ⟨by decide, (toString_insertAll [16, -3, 16, 33] (by decide)).1⟩

/-! ## The structured record of a layer -/

theorem foldl_addDelta (ds : List (List Char × Histogram)) (layerProto : SFTimeStatsLayerProto) :
    ds.foldl addDelta layerProto =
      { layerProto with
        deltas := layerProto.deltas ++ ds.map (fun ele =>
          { delta_name := ele.1, histograms := [ele.2.hist.foldl setBucket {}] }) } := by
  induction ds generalizing layerProto with
  | nil => simp
  | cons ele rest ih =>
    rw [List.foldl_cons, ih]
    simp [addDelta]

/-- The delta records of `toProto()`: one for each entry of `deltas`, in order, with the
name of the entry and a bucket list of exactly one pair, the one record that every round
of the inner loop writes to. -/
theorem toProto_deltas (L : TimeStatsLayer) :
    (L.toProto).1.deltas =
      L.deltas.map (fun ele =>
        { delta_name := ele.1, histograms := [ele.2.hist.foldl setBucket {}] }) := by
  unfold TimeStatsLayer.toProto
  simp [foldl_addDelta]

/-- C5 at its failing input: for the layer whose `deltas` has the one entry
`"present2present"` with the bucket mapping `{16: 2, 33: 1}`, the delta record of
`toProto()` carries the name `"present2present"` and a bucket list of one pair, `(33, 1)`
(the entry that the loop visits last), although the mapping has two entries. -/
theorem toProto_single_bucket :
    (TimeStatsLayer.toProto
        ⟨"com.example.app/MainActivity#0".toList, [], 0, 10, 3,
          [("present2present".toList, ⟨[(16, 2), (33, 1)]⟩)]⟩).1.deltas
      = [⟨"present2present".toList, [⟨33, 1⟩]⟩] := by
  rw [toProto_deltas]
  decide

/-- C6 at its failing input: for the layer whose `deltas` has the one entry
`"post2present"` with an empty histogram, the delta record of `toProto()` has one bucket
pair, `(0, 0)`, not zero pairs; the text of the same histogram lists the 85 boundaries,
each with the count 0. -/
theorem toProto_empty_histogram :
    (TimeStatsLayer.toProto
        ⟨"com.example.app/MainActivity#0".toList, [], 0, 10, 0,
          [("post2present".toList, Histogram.empty)]⟩).1.deltas
      = [⟨"post2present".toList, [⟨0, 0⟩]⟩]
    ∧ (Histogram.empty.toString).1
      = List.intercalate [' '] (histogramConfig.map (fun b => token b 0)) ++ ['\n'] := by
  constructor
  · rw [toProto_deltas]
    decide
  · rw [toString_eq]
    rfl

/-! ## Lines of a text -/

theorem lines_ne_nil (s : List Char) : lines s ≠ [] := by
  induction s with
  | nil => simp [lines]
  | cons c cs ih =>
    unfold lines
    split
    · simp
    · split <;> simp

theorem lines_append_newline (a b : List Char) (ha : ∀ c ∈ a, c ≠ '\n') :
    lines (a ++ '\n' :: b) = a :: lines b := by
  induction a with
  | nil => simp [lines]
  | cons c cs ih =>
    have hc : c ≠ '\n' := ha c (List.mem_cons_self _ _)
    have ih2 := ih (fun x hx => ha x (List.mem_cons_of_mem _ hx))
    rw [List.cons_append, lines, if_neg hc, ih2]

theorem c_str_of_no_nul (s : List Char) (hs : ∀ c ∈ s, c ≠ Char.ofNat 0) : c_str s = s := by
  unfold c_str
  rw [List.takeWhile_eq_self_iff]
  intro c hc
  simpa using hs c hc

theorem mem_intercalate {sep : List Char} {ts : List (List Char)} {c : Char}
    (hc : c ∈ List.intercalate sep ts) : c ∈ sep ∨ ∃ t ∈ ts, c ∈ t := by
  induction ts with
  | nil => simp [List.intercalate] at hc
  | cons t rest ih =>
    cases rest with
    | nil =>
      simp only [List.intercalate, List.intersperse, List.flatten_cons, List.flatten_nil,
        List.append_nil] at hc
      exact Or.inr ⟨t, by simp, hc⟩
    | cons t2 rest2 =>
      have hsplit : List.intercalate sep (t :: t2 :: rest2)
          = t ++ sep ++ List.intercalate sep (t2 :: rest2) := by
        simp [List.intercalate, List.intersperse]
      rw [hsplit] at hc
      rcases List.mem_append.mp hc with h | h
      · rcases List.mem_append.mp h with h | h
        · exact Or.inr ⟨t, by simp, h⟩
        · exact Or.inl h
      · rcases ih h with h | ⟨t3, ht3, h⟩
        · exact Or.inl h
        · exact Or.inr ⟨t3, List.mem_cons_of_mem _ ht3, h⟩

/-- The line of tokens holds no newline and no NUL. -/
theorem histogramLine_chars (h : Histogram) :
    ∀ c ∈ histogramLine h, c ≠ '\n' ∧ c ≠ Char.ofNat 0 := by
  intro c hc
  rcases mem_intercalate hc with h1 | ⟨t, ht, h1⟩
  · have : c = ' ' := by simpa using h1
    rw [this]
    decide
  · obtain ⟨b, _, rfl⟩ := List.mem_map.mp ht
    have := token_chars b (h.countOf b) c h1
    exact ⟨this.2.1, this.2.2⟩

theorem no_newline_append {a b : List Char} (ha : ∀ c ∈ a, c ≠ '\n')
    (hb : ∀ c ∈ b, c ≠ '\n') : ∀ c ∈ a ++ b, c ≠ '\n' := by
  intro c hc
  rcases List.mem_append.mp hc with h | h
  · exact ha c h
  · exact hb c h

theorem no_newline_printf_d (x : Int) : ∀ c ∈ printf_d x, c ≠ '\n' :=
  fun c hc => (isNumberChar_ne (isNumberChar_printf_d x c hc)).2.1

/-- The conversion `%.3f` prints no newline. -/
theorem no_newline_printf_3f (x : FP) : ∀ c ∈ printf_3f x, c ≠ '\n' := by
  have hmem : ∀ (s : List Char), '\n' ∉ s → ∀ c ∈ s, c ≠ '\n' := by
    intro s hs c hc heq
    exact hs (heq ▸ hc)
  cases x with
  | nan => exact hmem _ (by decide)
  | inf neg =>
    cases neg
    · exact hmem _ (by decide)
    · exact hmem _ (by decide)
  | finite neg m e =>
    unfold printf_3f
    simp only
    generalize (if 0 ≤ e then m * 2 ^ e.toNat * 1000
      else roundNearestEven (m * 1000) (2 ^ (-e).toNat)) = n
    apply no_newline_append
    · apply no_newline_append
      · cases neg
        · simp
        · exact hmem _ (by decide)
      · intro c hc
        exact (isNumberChar_ne (isNumberChar_toDigitsCore _ _ [] (by simp) c hc)).2.1
    · intro c hc
      simp only [List.mem_cons, List.mem_singleton, List.not_mem_nil, or_false] at hc
      rcases hc with h | h | h | h
      · rw [h]
        decide
      · rw [h]
        exact (isNumberChar_ne (isNumberChar_digitChar _)).2.1
      · rw [h]
        exact (isNumberChar_ne (isNumberChar_digitChar _)).2.1
      · rw [h]
        exact (isNumberChar_ne (isNumberChar_digitChar _)).2.1

/-- The print of the `averageFPS` value holds no newline. -/
theorem no_newline_averageFPSText (q : FloatQuotient) : '\n' ∉ averageFPSText q :=
  fun h => no_newline_printf_3f _ _ h rfl

/-- One round of the last loop of `TimeStatsLayer::toString` appends the heading line
and the line of tokens of the entry, each closed by a newline. -/
theorem histogramSection_eq (result : List Char) (ele : List Char × Histogram) :
    TimeStatsLayer.histogramSection result ele =
      result ++ ((c_str ele.1 ++ " histogram is as below:".toList)
        ++ '\n' :: (histogramLine ele.2 ++ '\n' :: [])) := by
  unfold TimeStatsLayer.histogramSection
  have htext : (ele.2.toString).1 = histogramLine ele.2 ++ ['\n'] := by
    rw [toString_eq]
    rfl
  have hnul : ∀ c ∈ histogramLine ele.2 ++ ['\n'], c ≠ Char.ofNat 0 := by
    intro c hc
    rcases List.mem_append.mp hc with h | h
    · exact (histogramLine_chars ele.2 c h).2
    · have : c = '\n' := by simpa using h
      rw [this]
      decide
  rw [htext, c_str_of_no_nul _ hnul]
  have hlit : " histogram is as below:\n".toList
      = " histogram is as below:".toList ++ ['\n'] := by decide
  rw [hlit]
  simp [List.append_assoc]

theorem unlines_append (a b : List (List Char)) : unlines (a ++ b) = unlines a ++ unlines b := by
  simp [unlines]

theorem unlines_cons (l : List Char) (ls : List (List Char)) :
    unlines (l :: ls) = l ++ '\n' :: unlines ls := by
  simp [unlines]

theorem foldl_histogramSection (ds : List (List Char × Histogram)) (result : List Char) :
    ds.foldl TimeStatsLayer.histogramSection result
      = result ++ unlines (ds.flatMap sectionLines) := by
  induction ds generalizing result with
  | nil => simp [unlines]
  | cons ele rest ih =>
    rw [List.foldl_cons, ih, histogramSection_eq, List.flatMap_cons, unlines_append]
    simp [sectionLines, unlines, List.append_assoc]

/-- The text of a layer, line by line: the five header lines, the `averageFPS` line when
`deltas` has the key `"present2present"`, then the two lines of every entry of `deltas`;
the layer after the call has the package name of its layer name. -/
theorem toString_text (fmtFPS : FloatQuotient → List Char) (L : TimeStatsLayer) :
    L.toString fmtFPS =
      (unlines (L.headerLines ++ L.averageFPSLines fmtFPS ++ L.deltas.flatMap sectionLines),
       { L with packageName := getPackageName L.layerName }) := by
  unfold TimeStatsLayer.toString TimeStatsLayer.averageFPSLines
  cases hf : findDelta L.deltas "present2present".toList with
  | none =>
    simp only [Option.isSome_none, Bool.false_eq_true, if_false, foldl_histogramSection,
      List.append_nil, unlines_append]
    congr 2
    simp [TimeStatsLayer.header, TimeStatsLayer.headerLines, unlines, List.append_assoc]
  | some h =>
    simp only [Option.isSome_some, if_true, indexDelta, hf, foldl_histogramSection,
      unlines_append]
    congr 2
    simp [TimeStatsLayer.header, TimeStatsLayer.headerLines, unlines, List.append_assoc]

/-- The lines of a text written line by line. -/
theorem lines_unlines (ls : List (List Char)) (hls : ∀ l ∈ ls, ∀ c ∈ l, c ≠ '\n') :
    lines (unlines ls) = ls ++ [[]] := by
  induction ls with
  | nil => simp [unlines, lines]
  | cons l rest ih =>
    rw [unlines_cons, lines_append_newline _ _ (hls l (List.mem_cons_self _ _)),
      ih (fun l2 h2 => hls l2 (List.mem_cons_of_mem _ h2))]
    rfl

theorem not_averageFPS_of_head {c : Char} {rest : List Char} (hc : c ≠ 'a') :
    ¬ ("averageFPS = ".toList <+: c :: rest) := by
  intro h
  have h2 : 'a' :: "verageFPS = ".toList <+: c :: rest := h
  exact hc (List.cons_prefix_cons.mp h2).1.symm

/-- The lines of the text of a layer none of whose printed names holds a newline. -/
theorem lines_toString (fmtFPS : FloatQuotient → List Char) (L : TimeStatsLayer)
    (hfmt : ∀ q, '\n' ∉ fmtFPS q) (hl : '\n' ∉ c_str L.layerName)
    (hp : '\n' ∉ c_str (getPackageName L.layerName))
    (hk : ∀ e ∈ L.deltas, '\n' ∉ c_str e.1) :
    lines (L.toString fmtFPS).1 =
      L.headerLines ++ L.averageFPSLines fmtFPS ++ L.deltas.flatMap sectionLines ++ [[]] := by
  have hmem : ∀ (s : List Char), '\n' ∉ s → ∀ c ∈ s, c ≠ '\n' := by
    intro s hs c hc heq
    exact hs (heq ▸ hc)
  rw [toString_text]
  apply lines_unlines
  intro l hlmem
  rcases List.mem_append.mp hlmem with h1 | h1
  · rcases List.mem_append.mp h1 with h2 | h2
    · simp only [TimeStatsLayer.headerLines, List.mem_cons, List.mem_singleton,
        List.not_mem_nil, or_false] at h2
      rcases h2 with h | h | h | h | h <;> subst h
      · exact no_newline_append (by decide) (hmem _ hl)
      · exact no_newline_append (by decide) (hmem _ hp)
      · exact no_newline_append (by decide) (no_newline_printf_d _)
      · exact no_newline_append (by decide) (no_newline_printf_d _)
      · exact no_newline_append (by decide) (no_newline_printf_d _)
    · unfold TimeStatsLayer.averageFPSLines at h2
      split at h2
      · simp only [List.mem_singleton] at h2
        subst h2
        exact no_newline_append (by decide) (hmem _ (hfmt _))
      · simp at h2
  · obtain ⟨e, he, hle⟩ := List.mem_flatMap.mp h1
    simp only [sectionLines, List.mem_cons, List.mem_singleton, List.not_mem_nil,
      or_false] at hle
    rcases hle with h | h <;> subst h
    · exact no_newline_append (hmem _ (hk e he)) (by decide)
    · exact fun c hc => (histogramLine_chars e.2 c hc).1

/-! ## Exactness of `averageTime` while the products fit -/

theorem weightedSum_nonneg {m : List (Int × Int)} (hm : ∀ e ∈ m, 0 ≤ e.1 * e.2) :
    0 ≤ weightedSum m := by
  induction m with
  | nil => simp [weightedSum]
  | cons x rest ih =>
    have h1 := hm x (List.mem_cons_self _ _)
    have h2 := ih (fun e he => hm e (List.mem_cons_of_mem _ he))
    simp only [weightedSum, List.map_cons, List.sum_cons] at h2 ⊢
    omega

theorem averageTimeLoop_fst (m : List (Int × Int)) (acc : Int × Int) :
    (m.foldl
      (fun (acc : Int × Int) (ele : Int × Int) =>
        let count := wrap64 (acc.2 + ele.2)
        let ret := wrap64 (acc.1 + wrap32 (ele.1 * ele.2))
        (ret, count)) acc).1
      = m.foldl (fun (ret : Int) (ele : Int × Int) => wrap64 (ret + wrap32 (ele.1 * ele.2)))
          acc.1 := by
  induction m generalizing acc with
  | nil => rfl
  | cons x rest ih => simp only [List.foldl_cons, ih]

theorem foldl_ret_exact (m : List (Int × Int)) (ret : Int)
    (hm : ∀ e ∈ m, 0 ≤ e.1 * e.2 ∧ e.1 * e.2 ≤ 2147483647)
    (h0 : 0 ≤ ret) (h1 : ret + weightedSum m < 9223372036854775808) :
    m.foldl (fun (ret : Int) (ele : Int × Int) => wrap64 (ret + wrap32 (ele.1 * ele.2))) ret
      = ret + weightedSum m := by
  induction m generalizing ret with
  | nil => simp [weightedSum]
  | cons x rest ih =>
    have hrest : ∀ e ∈ rest, 0 ≤ e.1 * e.2 ∧ e.1 * e.2 ≤ 2147483647 :=
      fun e he => hm e (List.mem_cons_of_mem _ he)
    have hx := hm x (List.mem_cons_self _ _)
    have hr := weightedSum_nonneg (fun e he => (hrest e he).1)
    simp only [weightedSum, List.map_cons, List.sum_cons] at h1 hr ⊢
    have hw32 : wrap32 (x.1 * x.2) = x.1 * x.2 := by
      apply wrap32_of_isInt32
      unfold isInt32
      omega
    have hw : wrap64 (ret + x.1 * x.2) = ret + x.1 * x.2 :=
      wrap64_of_range (by omega) (by omega)
    rw [List.foldl_cons, hw32, hw,
      ih (ret + x.1 * x.2) hrest (by omega) (by simp only [weightedSum]; omega)]
    simp only [weightedSum]
    ring

/-- While every product `boundary * count` is non-negative and fits `int32_t` (and the
sums fit `int64_t`), `averageTime()` is the exact quotient of the weighted sum by the
total count. -/
theorem averageTime_exact (h : Histogram)
    (hm : ∀ e ∈ h.hist, 0 ≤ e.2 ∧ 0 ≤ e.1 * e.2 ∧ e.1 * e.2 ≤ 2147483647)
    (h1 : weightedSum h.hist < 9223372036854775808)
    (h2 : totalCount h.hist < 9223372036854775808) :
    h.averageTime = ⟨weightedSum h.hist, totalCount h.hist⟩ := by
  have hc := averageTime_count h (fun e he => (hm e he).1) h2
  have hr : h.averageTime.ret = weightedSum h.hist := by
    unfold Histogram.averageTime Histogram.averageTimeLoop
    simp only
    rw [averageTimeLoop_fst, foldl_ret_exact _ _ (fun e he => (hm e he).2) (le_refl _)
      (by simpa using h1)]
    simp
  cases hq : h.averageTime with
  | mk r c =>
    rw [hq] at hc hr
    simp only at hc hr
    rw [hc, hr]

/-! ## `averageTime` after a run of inserts -/

theorem clampedSum_cons (d : Int) (ds : List Int) :
    clampedSum (d :: ds) = clampedSum ds + if 0 ≤ d then bucketFor d else 0 := by
  unfold clampedSum
  by_cases hd : 0 ≤ d
  · simp [List.filter_cons, hd]
    ring
  · simp [List.filter_cons, hd]

theorem clampedSum_le (ds : List Int) : clampedSum ds ≤ 1000 * observations ds := by
  induction ds with
  | nil => simp [clampedSum, observations]
  | cons d ds ih =>
    rw [clampedSum_cons, observations_cons]
    by_cases hd : 0 ≤ d
    · have hb : bucketFor d ≤ 1000 := by
        have := bucketFor_mem d
        revert this
        generalize bucketFor d = b
        revert b
        decide
      simp only [hd, if_true]
      push_cast
      omega
    · simp only [hd, if_false]
      push_cast
      omega

theorem histogramConfig_nonneg {b : Int} (hb : b ∈ histogramConfig) : 0 ≤ b := by
  revert b
  decide

/-- C3 (as stated) fails: after 2147483648 inserts of the delta 0 and one insert of the
delta 10 the inserted boundary values sum to 10 and number 2147483649, but
`averageTime()` is the quotient of 10 by -2147483647. -/
theorem averageTime_count_wrapped :
    clampedSum (List.replicate 2147483648 0 ++ [10]) = 10
    ∧ observations (List.replicate 2147483648 0 ++ [10]) = 2147483649
    ∧ (Histogram.empty.insertAll (List.replicate 2147483648 0 ++ [10])).averageTime
        = ⟨10, -2147483647⟩ := by
  have hb0 : bucketFor 0 = 0 := by decide
  refine ⟨?_, ?_, ?_⟩
  · unfold clampedSum
    rw [List.filter_append, List.map_append, List.sum_append, List.filter_replicate]
    simp only [show decide ((0 : Int) ≤ 0) = true from rfl, if_true, List.map_replicate, hb0,
      List.sum_replicate, smul_zero, zero_add]
    decide
  · unfold observations
    rw [List.countP_append, List.countP_replicate]
    rfl
  · have h := insertAll_replicate 0 (by decide) 2147483647
    have hw : wrap32 ((2147483647 : Nat) + 1) = -2147483648 := by decide
    rw [hb0, hw] at h
    have hn : (2147483647 + 1 : Nat) = 2147483648 := by norm_num
    rw [hn] at h
    unfold Histogram.insertAll at h ⊢
    rw [List.foldl_append, h]
    decide

/-- The operands of the return statement of `averageTime()` after a run in which
fewer than `2^31` deltas resolve to each boundary and no product `boundary * count`
leaves `int32_t`. -/
theorem averageTime_of_run (ds : List Int)
    (hn : ∀ b ∈ histogramConfig, hits b ds < 2147483648)
    (hp : ∀ b ∈ histogramConfig, b * hits b ds ≤ 2147483647) :
    (Histogram.empty.insertAll ds).averageTime = ⟨clampedSum ds, observations ds⟩ := by
  obtain ⟨htot, hws⟩ := sums_insertAll ds hn
  have hkeys := keys_insertAll ds Histogram.empty (by simp [Histogram.empty])
  have hent : ∀ e ∈ (Histogram.empty.insertAll ds).hist,
      0 ≤ e.2 ∧ e.2 ≤ 2147483647 ∧ 0 ≤ e.1 * e.2 ∧ e.1 * e.2 ≤ 2147483647 := by
    intro e he
    have h1 := histogramConfig_nonneg (hkeys e he)
    have h2 := hn e.1 (hkeys e he)
    have hc := count_eq_hits ds e he h2
    refine ⟨by omega, by omega, mul_nonneg h1 (by omega), ?_⟩
    rw [hc]
    exact hp e.1 (hkeys e he)
  have hlen := length_hist_insertAll ds
  have hle1 := totalCount_le_length _ (fun e he => (hent e he).2.1)
  have hle2 := weightedSum_le_length _ (fun e he => (hent e he).2.2.2)
  rw [← hws, ← htot]
  apply averageTime_exact
  · exact fun e he => ⟨(hent e he).1, (hent e he).2.2⟩
  · omega
  · omega

/-- C3 (as amended): for every histogram obtained from the empty one by a run of
`insert` calls in which, for every boundary `b`, fewer than `2^31` deltas resolve to `b`
and `b` times their number is at most 2147483647, `averageTime()` is the exact quotient
of the sum over the buckets of `boundary * count` by the sum over the buckets of `count`,
which are the sum and the number of the inserted (clamped) boundary values; for the
inserts 2, 2, 1000000 the buckets are exactly `{2: 2, 1000: 1}` and the quotient is
1004 / 3. -/
theorem averageTime_insertAll (ds : List Int)
    (hn : ∀ b ∈ histogramConfig, hits b ds < 2147483648)
    (hp : ∀ b ∈ histogramConfig, b * hits b ds ≤ 2147483647) :
    (Histogram.empty.insertAll ds).averageTime
        = ⟨weightedSum (Histogram.empty.insertAll ds).hist,
           totalCount (Histogram.empty.insertAll ds).hist⟩
    ∧ weightedSum (Histogram.empty.insertAll ds).hist = clampedSum ds
    ∧ totalCount (Histogram.empty.insertAll ds).hist = observations ds
    ∧ (Histogram.empty.insertAll [2, 2, 1000000]).hist = [(2, 2), (1000, 1)]
    ∧ (Histogram.empty.insertAll [2, 2, 1000000]).averageTime = ⟨1004, 3⟩ := by
  obtain ⟨htot, hws⟩ := sums_insertAll ds hn
  refine ⟨?_, hws, htot, by decide, by decide⟩
  rw [hws, htot]
  exact averageTime_of_run ds hn hp

/-- Witness of C3: the run 16, -3, 16, 33, whose clamped values sum to 65. -/
theorem averageTime_insertAll_witness :
    (Histogram.empty.insertAll [16, -3, 16, 33]).averageTime = ⟨65, 3⟩ := by
  have h := averageTime_insertAll [16, -3, 16, 33] (by decide) (by decide)
  rw [h.2.1, h.2.2.1] at h
  exact h.1

/-! ## The structured record of the global statistics -/

theorem foldl_toProtoStep (ls : List TimeStatsLayer) (globalProto : SFTimeStatsGlobalProto)
    (done : List TimeStatsLayer) :
    ls.foldl TimeStatsGlobal.toProtoStep (globalProto, done) =
      ({ globalProto with stats := globalProto.stats ++ ls.map (fun L => L.toProto.1) },
       done ++ ls.map (fun L => L.toProto.2)) := by
  induction ls generalizing globalProto done with
  | nil => simp
  | cons L rest ih =>
    have hstep : TimeStatsGlobal.toProtoStep (globalProto, done) L
        = ({ globalProto with stats := globalProto.stats ++ [L.toProto.1] },
           done ++ [L.toProto.2]) := rfl
    rw [List.foldl_cons, hstep, ih]
    simp

/-- The record of `TimeStatsGlobal::toProto()` and the statistics after the call. -/
theorem toProto_global_eq (g : TimeStatsGlobal) :
    g.toProto =
      ({ stats_start := g.statsStart, stats_end := g.statsEnd, total_frames := g.totalFrames,
         missed_frames := g.missedFrames,
         client_composition_frames := g.clientCompositionFrames,
         stats := g.dumpStats.map (fun L => L.toProto.1) },
       { g with dumpStats := g.dumpStats.map (fun L => L.toProto.2) }) := by
  unfold TimeStatsGlobal.toProto
  simp [foldl_toProtoStep]

/-- C12: for every `TimeStatsGlobal` `g`, the record of `TimeStatsGlobal::toProto()` has
`stats_start`, `stats_end`, `total_frames`, `missed_frames` and
`client_composition_frames` equal to the fields of `g`, and its layer list has the
length of the layer sequence of `g`, the `i`-th layer record being the record of
`TimeStatsLayer::toProto()` of the `i`-th layer, for every index `i`. -/
theorem toProto_global (g : TimeStatsGlobal) :
    (g.toProto).1.stats_start = g.statsStart
    ∧ (g.toProto).1.stats_end = g.statsEnd
    ∧ (g.toProto).1.total_frames = g.totalFrames
    ∧ (g.toProto).1.missed_frames = g.missedFrames
    ∧ (g.toProto).1.client_composition_frames = g.clientCompositionFrames
    ∧ (g.toProto).1.stats.length = g.dumpStats.length
    ∧ ∀ i : Nat, (g.toProto).1.stats.get? i
        = (g.dumpStats.get? i).map (fun L => (TimeStatsLayer.toProto L).1) := by
  rw [toProto_global_eq]
  refine ⟨rfl, rfl, rfl, rfl, rfl, by simp, ?_⟩
  intro i
  simp

/-! ## What rendering changes -/

/-- C16: for every layer `L`, `TimeStatsLayer::toString()` and
`TimeStatsLayer::toProto()` each set `packageName` to `getPackageName(layerName)` and
leave `layerName`, `statsStart`, `statsEnd`, `totalFrames` and the whole `deltas` mapping
as they were; `Histogram::toString()` leaves the bucket mapping as it was, adding no
entry for an absent boundary; so the record of a `toProto()` that follows a text
render is the record of a `toProto()` without one. -/
theorem rendering_changes_packageName_only (fmtFPS : FloatQuotient → List Char)
    (L : TimeStatsLayer) (h : Histogram) :
    ((L.toString fmtFPS).2.packageName = getPackageName L.layerName
      ∧ (L.toString fmtFPS).2.layerName = L.layerName
      ∧ (L.toString fmtFPS).2.statsStart = L.statsStart
      ∧ (L.toString fmtFPS).2.statsEnd = L.statsEnd
      ∧ (L.toString fmtFPS).2.totalFrames = L.totalFrames
      ∧ (L.toString fmtFPS).2.deltas = L.deltas)
    ∧ ((L.toProto).2.packageName = getPackageName L.layerName
      ∧ (L.toProto).2.layerName = L.layerName
      ∧ (L.toProto).2.statsStart = L.statsStart
      ∧ (L.toProto).2.statsEnd = L.statsEnd
      ∧ (L.toProto).2.totalFrames = L.totalFrames
      ∧ (L.toProto).2.deltas = L.deltas)
    ∧ (h.toString).2.hist = h.hist
    ∧ ((L.toString fmtFPS).2.toProto).1 = (L.toProto).1 := by
  refine ⟨?_, ?_, ?_, ?_⟩
  · rw [toString_text]
    exact ⟨rfl, rfl, rfl, rfl, rfl, rfl⟩
  · exact ⟨rfl, rfl, rfl, rfl, rfl, rfl⟩
  · rw [toString_eq]
  · rw [toString_text]
    rfl

/-! ## The search of `insert` -/

theorem lower_bound_lt_length {xs : List Int} {v b : Int}
    (h : xs.get? (lower_bound xs v) = some b) : lower_bound xs v < xs.length := by
  by_contra hge
  rw [List.get?_eq_none.mpr (by omega)] at h
  exact absurd h (by simp)

/-- C17: for every delta with `0 ≤ delta ≤ 1000` the position that the lower-bound
search over `histogramConfig` returns is strictly inside the table, so the dereference
in the last statement of `insert` is defined and `insert` counts the delta under the
entry at that position; `histogramConfig` is strictly ascending with last element 1000,
and the three branches of `insert` cover every integer. -/
theorem lower_bound_inside_table (h : Histogram) (delta : Int) (h0 : 0 ≤ delta)
    (h1 : delta ≤ 1000) :
    lower_bound histogramConfig delta < HISTOGRAM_SIZE
    ∧ (∃ bucket, histogramConfig.get? (lower_bound histogramConfig delta) = some bucket
        ∧ delta ≤ bucket ∧ h.insert delta = ⟨increment bucket h.hist⟩)
    ∧ histogramConfig.Pairwise (fun a b => a < b)
    ∧ histogramConfig.getLast? = some 1000
    ∧ ∀ d : Int, d < 0 ∨ d > histogramConfig.getD (HISTOGRAM_SIZE - 1) 0
        ∨ (0 ≤ d ∧ d ≤ histogramConfig.getD (HISTOGRAM_SIZE - 1) 0) := by
  obtain ⟨b, hb⟩ := find?_le_last histogramConfig delta 1000 (by decide) h1
  have hget : histogramConfig.get? (lower_bound histogramConfig delta) = some b := by
    rw [get?_lower_bound, hb]
  refine ⟨?_, ⟨b, hget, ?_, ?_⟩, histogramConfig_sorted, by decide, ?_⟩
  · have := lower_bound_lt_length hget
    rw [histogramConfig_length] at this
    exact this
  · have := List.find?_some hb
    simpa using this
  · unfold Histogram.insert
    rw [histogramConfig_last, if_neg (by omega), if_neg (by omega), hget]
  · intro d
    rw [histogramConfig_last]
    omega

/-- Witness of C17: the delta 35 is found at position 35 of the table, the entry 36. -/
theorem lower_bound_inside_table_witness :
    lower_bound histogramConfig 35 < HISTOGRAM_SIZE :=
  (lower_bound_inside_table Histogram.empty 35 (by decide) (by decide)).1

/-! ## The scenario of one layer with one histogram -/

/-- C13: in the scenario of the layer named `com.example.app/MainActivity#0` whose
`deltas` has the single entry `"present2present"` built by inserting 16, 16, 33 into an
empty histogram, `getPackageName` yields `com.example.app`, the buckets are exactly
`{16: 2, 33: 1}`, the operands of the return statement of `averageTime()` are 65 and 3
and the `float` it returns is `11359573 * 2 ^ -19`, the `float` nearest to 65 / 3 (about
21.67); the text of the layer has, as its sixth line, directly after the `totalFrames`
line, the line `averageFPS = 46.154`, the `%.3f` print of `1000.0 / averageTime()`, and
46.154 is 600 / 13 = 1000 / (65 / 3) to three decimals. -/
theorem scenario_present2present (packageName : List Char)
    (statsStart statsEnd totalFrames : Int) :
    getPackageName "com.example.app/MainActivity#0".toList = "com.example.app".toList
    ∧ (Histogram.empty.insertAll [16, 16, 33]).hist = [(16, 2), (33, 1)]
    ∧ (Histogram.empty.insertAll [16, 16, 33]).averageTime = ⟨65, 3⟩
    ∧ (Histogram.empty.insertAll [16, 16, 33]).averageTime.toFloat
        = FP.finite false 11359573 (-19)
    ∧ |(11359573 : ℚ) * (2 : ℚ) ^ (-19 : Int) - 65 / 3| ≤ (2 : ℚ) ^ (-20 : Int)
    ∧ printf_3f (FP.div 53 (FP.ofInt 53 1000)
          (Histogram.empty.insertAll [16, 16, 33]).averageTime.toFloat) = "46.154".toList
    ∧ |(46154 : ℚ) / 1000 - 1000 / (65 / 3)| ≤ 1 / 2000
    ∧ (1000 : ℚ) / (65 / 3) = 600 / 13
    ∧ ((TimeStatsLayer.mk "com.example.app/MainActivity#0".toList packageName
          statsStart statsEnd totalFrames
          [("present2present".toList, Histogram.empty.insertAll [16, 16, 33])]).toString
            averageFPSText).1
        = unlines
            ["layerName = com.example.app/MainActivity#0".toList,
             "packageName = com.example.app".toList,
             "statsStart = ".toList ++ printf_d statsStart,
             "statsEnd = ".toList ++ printf_d statsEnd,
             "totalFrames= ".toList ++ printf_d totalFrames,
             "averageFPS = 46.154".toList,
             "present2present histogram is as below:".toList,
             histogramLine (Histogram.empty.insertAll [16, 16, 33])]
    ∧ (lines ((TimeStatsLayer.mk "com.example.app/MainActivity#0".toList packageName
          statsStart statsEnd totalFrames
          [("present2present".toList, Histogram.empty.insertAll [16, 16, 33])]).toString
            averageFPSText).1).get? 5
        = some ("averageFPS = 46.154".toList)
    ∧ ((TimeStatsLayer.mk "com.example.app/MainActivity#0".toList packageName
          statsStart statsEnd totalFrames
          [("present2present".toList, Histogram.empty.insertAll [16, 16, 33])]).toString
            averageFPSText).2.packageName = "com.example.app".toList := by
  have hpkg : getPackageName "com.example.app/MainActivity#0".toList
      = "com.example.app".toList := by decide
  have havg : (Histogram.empty.insertAll [16, 16, 33]).averageTime = ⟨65, 3⟩ := by decide
  have hfd : findDelta [("present2present".toList, Histogram.empty.insertAll [16, 16, 33])]
      "present2present".toList = some (Histogram.empty.insertAll [16, 16, 33]) := by
    decide
  have hfps : averageFPSText (Histogram.empty.insertAll [16, 16, 33]).averageTime
      = "46.154".toList := by decide
  refine ⟨hpkg, by decide, havg, by decide, ?_, hfps, ?_, by norm_num, ?_, ?_, ?_⟩
  · rw [abs_le]
    norm_num
  · rw [abs_le]
    norm_num
  · rw [toString_text]
    unfold TimeStatsLayer.averageFPSLines TimeStatsLayer.headerLines
    simp only
    rw [hfd, hpkg]
    simp only
    rw [hfps]
    rfl
  · have hl : '\n' ∉ c_str "com.example.app/MainActivity#0".toList := by decide
    have hp : '\n' ∉ c_str (getPackageName "com.example.app/MainActivity#0".toList) := by
      rw [hpkg]
      decide
    have hk : ∀ e ∈ [("present2present".toList, Histogram.empty.insertAll [16, 16, 33])],
        '\n' ∉ c_str e.1 := by decide
    rw [lines_toString averageFPSText _ no_newline_averageFPSText hl hp hk]
    unfold TimeStatsLayer.averageFPSLines
    simp only
    rw [hfd]
    simp only
    rw [hfps]
    rfl
  · rw [toString_text]
    exact hpkg

/-- Witness of C13: the scenario with the statistics window 0 to 10 and 3 frames. -/
theorem scenario_present2present_witness :
    (lines ((TimeStatsLayer.mk "com.example.app/MainActivity#0".toList [] 0 10 3
          [("present2present".toList, Histogram.empty.insertAll [16, 16, 33])]).toString
            averageFPSText).1).get? 5
      = some ("averageFPS = 46.154".toList) :=
  (scenario_present2present [] 0 10 3).2.2.2.2.2.2.2.2.2.1

/-! ## The products of `averageTime` -/

/-- C18 at its failing input: in the bucket mapping `{1000: 2147484}`, whose boundary is
an entry of `histogramConfig` and whose count is a non-negative `int32_t`, the sum of
`boundary * count` is 2147484000, the product `1000 * 2147484` is outside `int32_t`, and
the numerator that `averageTime()` accumulates is -2147483296. -/
theorem averageTime_numerator_overflow :
    Histogram.Valid ⟨[(1000, 2147484)]⟩
    ∧ (1000 : Int) ∈ histogramConfig
    ∧ (0 : Int) ≤ 2147484 ∧ isInt32 2147484
    ∧ weightedSum [(1000, 2147484)] = 2147484000
    ∧ ¬ isInt32 (1000 * 2147484)
    ∧ (Histogram.averageTime ⟨[(1000, 2147484)]⟩).ret = -2147483296 := by
  decide

/-! ## Order of the inserts -/

theorem hits_perm (b : Int) {ds1 ds2 : List Int} (hperm : ds1.Perm ds2) :
    hits b ds1 = hits b ds2 := by
  unfold hits
  exact hperm.countP_eq _

theorem find_insertAll_perm (h : Histogram) {ds1 ds2 : List Int} (hperm : ds1.Perm ds2)
    (b : Int) : find (h.insertAll ds1).hist b = find (h.insertAll ds2).hist b := by
  rw [find_insertAll, find_insertAll, hits_perm b hperm]

theorem mem_iff_find {m : List (Int × Int)} (hn : (m.map Prod.fst).Nodup) (e : Int × Int) :
    e ∈ m ↔ find m e.1 = some e.2 :=
  ⟨fun he => find_of_mem hn he, fun hf => find_mem hf⟩

/-- Two maps with the same entry for every key hold the same entries. -/
theorem perm_of_find_eq {m1 m2 : List (Int × Int)} (h1 : (m1.map Prod.fst).Nodup)
    (h2 : (m2.map Prod.fst).Nodup) (hf : ∀ b, find m1 b = find m2 b) : m1.Perm m2 := by
  rw [List.perm_ext_iff_of_nodup (List.Nodup.of_map _ h1) (List.Nodup.of_map _ h2)]
  intro e
  rw [mem_iff_find h1, mem_iff_find h2, hf]

/-- The accumulators of `averageTime()` do not depend on the order in which the entries
of the map are visited. -/
theorem averageTime_perm {h1 h2 : Histogram} (hperm : h1.hist.Perm h2.hist) :
    h1.averageTime = h2.averageTime := by
  have hloop : h1.averageTimeLoop = h2.averageTimeLoop := by
    unfold Histogram.averageTimeLoop
    apply hperm.foldl_eq'
    intro x _ y _ z
    simp only
    generalize wrap32 (x.1 * x.2) = px
    generalize wrap32 (y.1 * y.2) = py
    rw [Prod.mk.injEq]
    constructor
    · unfold wrap64
      omega
    · unfold wrap64
      omega
  unfold Histogram.averageTime
  rw [hloop]

theorem toString_of_find_eq {h1 h2 : Histogram} (hf : ∀ b, find h1.hist b = find h2.hist b) :
    (h1.toString).1 = (h2.toString).1 := by
  rw [toString_eq, toString_eq]
  have hc : ∀ b, h1.countOf b = h2.countOf b := by
    intro b
    unfold Histogram.countOf
    rw [hf b]
  simp only [hc]

/-- C20: inserts commute: for every histogram `h` and all integers `d1`, `d2`,
inserting `d1` then `d2` gives the same bucket mapping (the same entry for every key) as
inserting `d2` then `d1`; hence two runs of inserts that are rearrangements of each
other give the same bucket mapping, the same text of `Histogram::toString()` and, on a
map with distinct keys, the same entries and the same `averageTime()`. -/
theorem insert_comm (h : Histogram) (d1 d2 : Int) (ds1 ds2 : List Int)
    (hperm : ds1.Perm ds2) :
    (∀ b, find ((h.insert d1).insert d2).hist b = find ((h.insert d2).insert d1).hist b)
    ∧ (∀ b, find (h.insertAll ds1).hist b = find (h.insertAll ds2).hist b)
    ∧ ((h.insertAll ds1).toString).1 = ((h.insertAll ds2).toString).1
    ∧ ((h.hist.map Prod.fst).Nodup →
        (h.insertAll ds1).hist.Perm (h.insertAll ds2).hist
        ∧ (h.insertAll ds1).averageTime = (h.insertAll ds2).averageTime)
    ∧ (Histogram.empty.insertAll ds1).averageTime
        = (Histogram.empty.insertAll ds2).averageTime := by
  have hmaps : ∀ (h0 : Histogram), (h0.hist.map Prod.fst).Nodup →
      (h0.insertAll ds1).hist.Perm (h0.insertAll ds2).hist := by
    intro h0 hv
    exact perm_of_find_eq (nodup_keys_insertAll ds1 h0 hv) (nodup_keys_insertAll ds2 h0 hv)
      (find_insertAll_perm h0 hperm)
  refine ⟨?_, find_insertAll_perm h hperm, toString_of_find_eq (find_insertAll_perm h hperm),
    fun hv => ⟨hmaps h hv, averageTime_perm (hmaps h hv)⟩, ?_⟩
  · intro b
    have hswap : [d1, d2].Perm [d2, d1] := List.Perm.swap d2 d1 []
    exact find_insertAll_perm h hswap b
  · exact averageTime_perm (hmaps Histogram.empty (by simp [Histogram.empty]))

/-- Witness of C20: the runs 16, 33, 16 and 33, 16, 16 on the empty histogram. -/
theorem insert_comm_witness :
    (Histogram.empty.insertAll [16, 33, 16]).averageTime
      = (Histogram.empty.insertAll [33, 16, 16]).averageTime :=
  (insert_comm Histogram.empty 16 33 [16, 33, 16] [33, 16, 16] (by decide)).2.2.2.2

/-! ## Floating point: rounding -/

theorem bitLengthAux_zero (fuel : Nat) : bitLengthAux fuel 0 = 0 := by
  cases fuel <;> simp [bitLengthAux]

theorem bitLengthAux_spec (fuel n : Nat) (h : n ≤ fuel) (hn : 0 < n) :
    2 ^ (bitLengthAux fuel n - 1) ≤ n ∧ n < 2 ^ bitLengthAux fuel n := by
  induction fuel generalizing n with
  | zero => omega
  | succ fuel ih =>
    have hn0 : n ≠ 0 := by omega
    simp only [bitLengthAux, hn0, if_false, Nat.add_sub_cancel]
    by_cases h2 : n / 2 = 0
    · rw [h2, bitLengthAux_zero]
      have : n = 1 := by omega
      subst this
      decide
    · obtain ⟨h3, h4⟩ := ih (n / 2) (by omega) (by omega)
      have hk : 1 ≤ bitLengthAux fuel (n / 2) := by
        by_contra hc
        have : bitLengthAux fuel (n / 2) = 0 := by omega
        rw [this] at h4
        simp at h4
        omega
      obtain ⟨k, hk2⟩ : ∃ k, bitLengthAux fuel (n / 2) = k + 1 := ⟨_, (Nat.sub_add_cancel hk).symm⟩
      rw [hk2] at h3 h4 ⊢
      simp only [Nat.add_sub_cancel] at h3
      rw [pow_succ] at h4 ⊢
      rw [pow_succ]
      constructor <;> omega

/-- A positive number has `bitLength` binary digits. -/
theorem bitLength_spec (n : Nat) (hn : 0 < n) :
    2 ^ (bitLength n - 1) ≤ n ∧ n < 2 ^ bitLength n :=
  bitLengthAux_spec n n (le_refl _) hn

theorem bitLength_pos (n : Nat) (hn : 0 < n) : 1 ≤ bitLength n := by
  by_contra hc
  have h0 : bitLength n = 0 := by omega
  have := (bitLength_spec n hn).2
  rw [h0] at this
  simp at this
  omega

/-- The rounding to the nearest integer is off by at most one half. -/
theorem roundNearestEven_spec (num den : Nat) (hden : 0 < den) :
    |(roundNearestEven num den : ℚ) - (num : ℚ) / den| ≤ 1 / 2 := by
  have hdq : (0 : ℚ) < den := by exact_mod_cast hden
  have hdm := Nat.div_add_mod num den
  have hlt := Nat.mod_lt num hden
  have hnum : (num : ℚ) = den * (num / den : ℕ) + (num % den : ℕ) := by exact_mod_cast hdm.symm
  have hx : (num : ℚ) / den = (num / den : ℕ) + ((num % den : ℕ) : ℚ) / den := by
    rw [hnum]
    field_simp
    ring
  have hr0 : (0 : ℚ) ≤ ((num % den : ℕ) : ℚ) / den := by positivity
  have hr1 : ((num % den : ℕ) : ℚ) / den < 1 := by
    rw [div_lt_one hdq]
    exact_mod_cast hlt
  rw [abs_le, hx]
  unfold roundNearestEven
  split
  · rename_i hc
    have h2 : (1 : ℚ) / 2 ≤ ((num % den : ℕ) : ℚ) / den := by
      rw [le_div_iff₀ hdq]
      have : den ≤ 2 * (num % den) := by omega
      have h3 : (den : ℚ) ≤ 2 * (num % den : ℕ) := by exact_mod_cast this
      linarith
    push_cast
    constructor <;> linarith
  · rename_i hc
    have h2 : ((num % den : ℕ) : ℚ) / den ≤ 1 / 2 := by
      rw [div_le_iff₀ hdq]
      have : 2 * (num % den) ≤ den := by omega
      have h3 : 2 * ((num % den : ℕ) : ℚ) ≤ den := by exact_mod_cast this
      linarith
    constructor <;> linarith

/-- The fraction that `scaleRatio` yields. -/
theorem scaleRatio_spec (num den : Nat) (hden : 0 < den) (e : Int) :
    0 < (scaleRatio num den e).2
    ∧ ((scaleRatio num den e).1 : ℚ) / (scaleRatio num den e).2
        = (num : ℚ) / den / (2 : ℚ) ^ e := by
  have hdq : (0 : ℚ) < den := by exact_mod_cast hden
  unfold scaleRatio
  split
  · rename_i he
    refine ⟨by positivity, ?_⟩
    obtain ⟨k, rfl⟩ := Int.eq_ofNat_of_zero_le he
    simp only [Int.toNat_ofNat, zpow_natCast]
    push_cast
    rw [div_div]
  · rename_i he
    refine ⟨hden, ?_⟩
    obtain ⟨k, hk⟩ := Int.eq_ofNat_of_zero_le (show 0 ≤ -e by omega)
    have he2 : e = -(k : Int) := by omega
    subst he2
    simp only [neg_neg, Int.toNat_ofNat, zpow_neg, zpow_natCast]
    push_cast
    field_simp

theorem two_zpow_pos (e : Int) : (0 : ℚ) < (2 : ℚ) ^ e := zpow_pos (by norm_num) e

theorem bitLength_zpow (n : Nat) (hn : 0 < n) :
    (2 : ℚ) ^ ((bitLength n : Int) - 1) ≤ n ∧ (n : ℚ) < (2 : ℚ) ^ (bitLength n : Int) := by
  obtain ⟨h1, h2⟩ := bitLength_spec n hn
  have hpos := bitLength_pos n hn
  constructor
  · have : ((bitLength n : Int) - 1) = ((bitLength n - 1 : ℕ) : Int) := by omega
    rw [this, zpow_natCast]
    exact_mod_cast h1
  · rw [zpow_natCast]
    exact_mod_cast h2

/-- The last steps of `roundRatio`, for a quotient scaled into `[2 ^ (p - 1), 2 ^ p)`. -/
theorem roundRatio_core (p num den : Nat) (hp : 1 ≤ p) (hden : 0 < den) (e : Int)
    (hlo : ((2 ^ (p - 1) : ℕ) : ℚ) ≤ (num : ℚ) / den / (2 : ℚ) ^ e)
    (hhi : (num : ℚ) / den / (2 : ℚ) ^ e < ((2 ^ p : ℕ) : ℚ))
    (r : Nat × Int)
    (hr : r = if roundNearestEven (scaleRatio num den e).1 (scaleRatio num den e).2 = 2 ^ p
      then (2 ^ (p - 1), e + 1)
      else (roundNearestEven (scaleRatio num den e).1 (scaleRatio num den e).2, e)) :
    2 ^ (p - 1) ≤ r.1 ∧ r.1 < 2 ^ p
    ∧ |(r.1 : ℚ) * (2 : ℚ) ^ r.2 - (num : ℚ) / den|
        ≤ (num : ℚ) / den * (2 : ℚ) ^ (-(p : Int)) := by
  obtain ⟨hs2, hsv⟩ := scaleRatio_spec num den hden e
  have hrne := roundNearestEven_spec (scaleRatio num den e).1 (scaleRatio num den e).2 hs2
  rw [hsv] at hrne
  generalize roundNearestEven (scaleRatio num den e).1 (scaleRatio num den e).2 = m at hr hrne
  have he := two_zpow_pos e
  generalize hy : (num : ℚ) / den / (2 : ℚ) ^ e = y at hlo hhi hrne
  have hx : (num : ℚ) / den = y * (2 : ℚ) ^ e := by
    rw [← hy]
    field_simp
    ring
  have hpp : (2 : ℕ) ^ p = 2 * 2 ^ (p - 1) := by
    obtain ⟨k, rfl⟩ : ∃ k, p = k + 1 := ⟨p - 1, by omega⟩
    rw [Nat.add_sub_cancel, pow_succ]
    ring
  have hppq : ((2 ^ p : ℕ) : ℚ) = 2 * ((2 ^ (p - 1) : ℕ) : ℚ) := by exact_mod_cast hpp
  have hzp : (2 : ℚ) ^ (-(p : Int)) * ((2 ^ p : ℕ) : ℚ) = 1 := by
    rw [zpow_neg, zpow_natCast]
    push_cast
    have : (2 : ℚ) ^ p ≠ 0 := by positivity
    field_simp
  rw [abs_le] at hrne
  have hm1 : 2 ^ (p - 1) ≤ m := by
    by_contra hc
    have : m + 1 ≤ 2 ^ (p - 1) := by omega
    have h2 : (m : ℚ) + 1 ≤ ((2 ^ (p - 1) : ℕ) : ℚ) := by exact_mod_cast this
    linarith [hrne.1]
  have hm2 : m ≤ 2 ^ p := by
    by_contra hc
    have : 2 ^ p + 1 ≤ m := by omega
    have h2 : ((2 ^ p : ℕ) : ℚ) + 1 ≤ (m : ℚ) := by exact_mod_cast this
    linarith [hrne.2]
  have hpow : 0 < 2 ^ (p - 1) := by positivity
  have hbound : (2 : ℚ) ^ e / 2 ≤ y * (2 : ℚ) ^ e * (2 : ℚ) ^ (-(p : Int)) := by
    have h1 : (2 : ℚ) ^ e / 2 = ((2 ^ (p - 1) : ℕ) : ℚ) * (2 : ℚ) ^ e * (2 : ℚ) ^ (-(p : Int)) := by
      have : ((2 ^ (p - 1) : ℕ) : ℚ) = ((2 ^ p : ℕ) : ℚ) / 2 := by
        rw [hppq]
        ring
      rw [this]
      calc (2 : ℚ) ^ e / 2 = (2 : ℚ) ^ e / 2 * ((2 : ℚ) ^ (-(p : Int)) * ((2 ^ p : ℕ) : ℚ)) := by
            rw [hzp, mul_one]
        _ = _ := by ring
    rw [h1]
    have h3 := two_zpow_pos (-(p : Int))
    gcongr
  have herr : |(m : ℚ) * (2 : ℚ) ^ e - y * (2 : ℚ) ^ e| ≤ (2 : ℚ) ^ e / 2 := by
    rw [← sub_mul, abs_mul, abs_of_pos he]
    have : |(m : ℚ) - y| ≤ 1 / 2 := abs_le.mpr hrne
    calc |(m : ℚ) - y| * (2 : ℚ) ^ e ≤ 1 / 2 * (2 : ℚ) ^ e := by gcongr
      _ = _ := by ring
  rw [hx]
  by_cases hm : m = 2 ^ p
  · rw [if_pos hm] at hr
    subst hr
    simp only
    refine ⟨le_refl _, by omega, ?_⟩
    have hval : ((2 ^ (p - 1) : ℕ) : ℚ) * (2 : ℚ) ^ (e + 1) = (m : ℚ) * (2 : ℚ) ^ e := by
      rw [hm, hppq, zpow_add₀ (by norm_num : (2 : ℚ) ≠ 0), zpow_one]
      ring
    rw [hval]
    exact le_trans herr hbound
  · rw [if_neg hm] at hr
    subst hr
    simp only
    refine ⟨hm1, by omega, ?_⟩
    exact le_trans herr hbound

theorem nat_floor_div (a b : Nat) (hb : 0 < b) :
    ((a / b : ℕ) : ℚ) ≤ (a : ℚ) / b ∧ (a : ℚ) / b < ((a / b : ℕ) : ℚ) + 1 := by
  have hbq : (0 : ℚ) < b := by exact_mod_cast hb
  constructor
  · exact Nat.cast_div_le
  · rw [div_lt_iff₀ hbq]
    have := Nat.lt_mul_div_succ a hb
    have h2 : ((a : ℕ) : ℚ) < ((b * (a / b + 1) : ℕ) : ℚ) := by exact_mod_cast this
    push_cast at h2
    linarith

/-- The fraction `num / den` rounded to `p` binary digits: the significand is
normalised and the relative error is at most `2 ^ -p`. -/
theorem roundRatio_spec (p num den : Nat) (hp : 1 ≤ p) (hnum : 0 < num) (hden : 0 < den) :
    2 ^ (p - 1) ≤ (roundRatio p num den).1 ∧ (roundRatio p num den).1 < 2 ^ p
    ∧ |((roundRatio p num den).1 : ℚ) * (2 : ℚ) ^ (roundRatio p num den).2 - (num : ℚ) / den|
        ≤ (num : ℚ) / den * (2 : ℚ) ^ (-(p : Int)) := by
  have hnq : (0 : ℚ) < num := by exact_mod_cast hnum
  have hdq : (0 : ℚ) < den := by exact_mod_cast hden
  obtain ⟨hn1, hn2⟩ := bitLength_zpow num hnum
  obtain ⟨hd1, hd2⟩ := bitLength_zpow den hden
  have h2 : (2 : ℚ) ≠ 0 := by norm_num
  generalize he0 : (bitLength num : Int) - (bitLength den : Int) - (p : Int) = e0
  have hpp : (2 : ℕ) ^ p = 2 * 2 ^ (p - 1) := by
    obtain ⟨k, rfl⟩ : ∃ k, p = k + 1 := ⟨p - 1, by omega⟩
    rw [Nat.add_sub_cancel, pow_succ]
    ring
  have hppq : ((2 ^ p : ℕ) : ℚ) = 2 * ((2 ^ (p - 1) : ℕ) : ℚ) := by exact_mod_cast hpp
  have hp1 : ((2 ^ (p - 1) : ℕ) : ℚ) = (2 : ℚ) ^ ((p : Int) - 1) := by
    have : ((p : Int) - 1) = ((p - 1 : ℕ) : Int) := by omega
    rw [this, zpow_natCast]
    push_cast
    rfl
  have hpe := two_zpow_pos e0
  -- the quotient scaled by `2 ^ e0` lies strictly between `2 ^ (p - 1)` and `2 ^ (p + 1)`
  have hlo0 : ((2 ^ (p - 1) : ℕ) : ℚ) < (num : ℚ) / den / (2 : ℚ) ^ e0 := by
    rw [div_div, lt_div_iff₀ (by positivity), hp1]
    calc (2 : ℚ) ^ ((p : Int) - 1) * ((den : ℚ) * (2 : ℚ) ^ e0)
        = (2 : ℚ) ^ ((p : Int) - 1 + e0) * den := by
          rw [zpow_add₀ h2]
          ring
      _ < (2 : ℚ) ^ ((p : Int) - 1 + e0) * (2 : ℚ) ^ (bitLength den : Int) := by
          have := two_zpow_pos ((p : Int) - 1 + e0)
          gcongr
      _ = (2 : ℚ) ^ ((bitLength num : Int) - 1) := by
          rw [← zpow_add₀ h2]
          congr 1
          omega
      _ ≤ num := hn1
  have hhi0 : (num : ℚ) / den / (2 : ℚ) ^ e0 < 2 * ((2 ^ p : ℕ) : ℚ) := by
    rw [div_div, div_lt_iff₀ (by positivity), hppq, hp1]
    calc (num : ℚ) < (2 : ℚ) ^ (bitLength num : Int) := hn2
      _ = 2 * (2 * (2 : ℚ) ^ ((p : Int) - 1)) * ((2 : ℚ) ^ ((bitLength den : Int) - 1)
            * (2 : ℚ) ^ e0) := by
          have h4 : (2 : ℚ) * (2 * (2 : ℚ) ^ ((p : Int) - 1)) = (2 : ℚ) ^ ((p : Int) + 1) := by
            rw [zpow_add₀ h2, zpow_sub₀ h2, zpow_one]
            field_simp
            ring
          rw [h4, ← zpow_add₀ h2, ← zpow_add₀ h2]
          congr 1
          omega
      _ ≤ 2 * (2 * (2 : ℚ) ^ ((p : Int) - 1)) * ((den : ℚ) * (2 : ℚ) ^ e0) := by
          have := two_zpow_pos ((p : Int) - 1)
          gcongr
  obtain ⟨hs2, hsv⟩ := scaleRatio_spec num den hden e0
  obtain ⟨hf1, hf2⟩ := nat_floor_div (scaleRatio num den e0).1 (scaleRatio num den e0).2 hs2
  rw [hsv] at hf1 hf2
  unfold roundRatio
  simp only [he0]
  by_cases hc : (scaleRatio num den e0).1 / (scaleRatio num den e0).2 ≥ 2 ^ p
  · have hcq : ((2 ^ p : ℕ) : ℚ) ≤ (((scaleRatio num den e0).1 / (scaleRatio num den e0).2 : ℕ) : ℚ) := by
      exact_mod_cast hc
    simp only [hc, if_true]
    have hhalf : (num : ℚ) / den / (2 : ℚ) ^ (e0 + 1) = (num : ℚ) / den / (2 : ℚ) ^ e0 / 2 := by
      rw [zpow_add₀ h2, zpow_one, div_div, div_div, div_div]
    apply roundRatio_core p num den hp hden (e0 + 1) _ _ _ rfl
    · rw [hhalf]
      linarith
    · rw [hhalf]
      linarith
  · have hcq : ((((scaleRatio num den e0).1 / (scaleRatio num den e0).2 : ℕ) : ℚ)) + 1
        ≤ ((2 ^ p : ℕ) : ℚ) := by
      have : (scaleRatio num den e0).1 / (scaleRatio num den e0).2 + 1 ≤ 2 ^ p := by omega
      exact_mod_cast this
    simp only [hc, if_false]
    apply roundRatio_core p num den hp hden e0 _ _ _ rfl
    · exact le_of_lt hlo0
    · linarith

/-! ## Floating point: the operations -/

/-- The conversion of a positive integer: a positive number with a relative error of at
most `2 ^ -p`. -/
theorem ofInt_pos (p : Nat) (hp : 1 ≤ p) (x : Int) (hx : 0 < x) :
    ∃ m e, FP.ofInt p x = FP.finite false m e ∧ 0 < m
      ∧ |(m : ℚ) * (2 : ℚ) ^ e - (x : ℚ)| ≤ (x : ℚ) * (2 : ℚ) ^ (-(p : Int)) := by
  have hnat : 0 < x.natAbs := by omega
  obtain ⟨h1, _, h3⟩ := roundRatio_spec p x.natAbs 1 hp hnat (by decide)
  have h0 : ((x.natAbs : ℕ) : Int) = x := Int.natAbs_of_nonneg (le_of_lt hx)
  have hcast : ((x.natAbs : ℕ) : ℚ) = (x : ℚ) := by
    rw [← Int.cast_natCast, h0]
  rw [hcast] at h3
  simp only [Nat.cast_one, div_one] at h3
  refine ⟨(roundRatio p x.natAbs 1).1, (roundRatio p x.natAbs 1).2, ?_, ?_, h3⟩
  · unfold FP.ofInt
    have hx0 : x ≠ 0 := by omega
    have hneg : ¬ x < 0 := by omega
    simp only [hx0, if_false, hneg, decide_False]
  · have : 0 < 2 ^ (p - 1) := by positivity
    omega

/-- The division of two positive numbers: a positive number with a relative error of at
most `2 ^ -p`. -/
theorem div_pos_spec (p : Nat) (hp : 1 ≤ p) (ma mb : Nat) (ea eb : Int) (hma : 0 < ma)
    (hmb : 0 < mb) :
    ∃ m e, FP.div p (FP.finite false ma ea) (FP.finite false mb eb) = FP.finite false m e
      ∧ 0 < m
      ∧ |(m : ℚ) * (2 : ℚ) ^ e - ((ma : ℚ) * (2 : ℚ) ^ ea) / ((mb : ℚ) * (2 : ℚ) ^ eb)|
          ≤ ((ma : ℚ) * (2 : ℚ) ^ ea) / ((mb : ℚ) * (2 : ℚ) ^ eb) * (2 : ℚ) ^ (-(p : Int)) := by
  obtain ⟨h1, _, h3⟩ := roundRatio_spec p ma mb hp hma hmb
  have h2 : (2 : ℚ) ≠ 0 := by norm_num
  have hea := two_zpow_pos ea
  have heb := two_zpow_pos eb
  have hmbq : (0 : ℚ) < mb := by exact_mod_cast hmb
  refine ⟨(roundRatio p ma mb).1, (roundRatio p ma mb).2 + ea - eb, ?_, ?_, ?_⟩
  · have hma0 : ma ≠ 0 := by omega
    have hmb0 : mb ≠ 0 := by omega
    simp only [FP.div, hma0, hmb0, if_false, Bool.xor_false]
  · have : 0 < 2 ^ (p - 1) := by positivity
    omega
  · have hs : (0 : ℚ) < (2 : ℚ) ^ ea / (2 : ℚ) ^ eb := by positivity
    have e1 : ((roundRatio p ma mb).1 : ℚ) * (2 : ℚ) ^ ((roundRatio p ma mb).2 + ea - eb)
          - ((ma : ℚ) * (2 : ℚ) ^ ea) / ((mb : ℚ) * (2 : ℚ) ^ eb)
        = (((roundRatio p ma mb).1 : ℚ) * (2 : ℚ) ^ (roundRatio p ma mb).2 - (ma : ℚ) / mb)
            * ((2 : ℚ) ^ ea / (2 : ℚ) ^ eb) := by
      rw [zpow_sub₀ h2, zpow_add₀ h2]
      field_simp
      ring
    have e2 : ((ma : ℚ) * (2 : ℚ) ^ ea) / ((mb : ℚ) * (2 : ℚ) ^ eb) * (2 : ℚ) ^ (-(p : Int))
        = (ma : ℚ) / mb * (2 : ℚ) ^ (-(p : Int)) * ((2 : ℚ) ^ ea / (2 : ℚ) ^ eb) := by
      field_simp
      ring
    rw [e1, e2, abs_mul, abs_of_pos hs]
    gcongr

/-- The value `static_cast<float>(ret) / count` for positive operands: a positive `float`
within a relative `2 ^ -22` of the exact quotient. -/
theorem toFloat_pos (ret count : Int) (hr : 0 < ret) (hc : 0 < count) :
    ∃ m e, FloatQuotient.toFloat ⟨ret, count⟩ = FP.finite false m e ∧ 0 < m
      ∧ (1 - 1 / 4194304) * ((ret : ℚ) / count) ≤ (m : ℚ) * (2 : ℚ) ^ e
      ∧ (m : ℚ) * (2 : ℚ) ^ e ≤ (1 + 1 / 4194304) * ((ret : ℚ) / count) := by
  obtain ⟨ma, ea, ha, hma, hae⟩ := ofInt_pos 24 (by decide) ret hr
  obtain ⟨mb, eb, hb, hmb, hbe⟩ := ofInt_pos 24 (by decide) count hc
  obtain ⟨m, e, hd, hm, hde⟩ := div_pos_spec 24 (by decide) ma mb ea eb hma hmb
  refine ⟨m, e, ?_, hm, ?_⟩
  · unfold FloatQuotient.toFloat
    simp only
    rw [ha, hb, hd]
  · have hu : (2 : ℚ) ^ (-((24 : ℕ) : Int)) = 1 / 16777216 := by norm_num
    rw [hu] at hae hbe hde
    have hrq : (0 : ℚ) < ret := by exact_mod_cast hr
    have hcq : (0 : ℚ) < count := by exact_mod_cast hc
    generalize (ma : ℚ) * (2 : ℚ) ^ ea = A at hae hde
    generalize (mb : ℚ) * (2 : ℚ) ^ eb = B at hbe hde
    generalize (m : ℚ) * (2 : ℚ) ^ e = F at hde ⊢
    generalize (ret : ℚ) = R at hae hrq ⊢
    generalize (count : ℚ) = C at hbe hcq ⊢
    rw [abs_le] at hae hbe hde
    have hA : 0 < A := by linarith [hae.1]
    have hB : 0 < B := by linarith [hbe.1]
    have hAB : 0 < A / B := div_pos hA hB
    have hRC : 0 < R / C := div_pos hrq hcq
    have hlo : (1 - 1 / 16777216) / (1 + 1 / 16777216) * (R / C) ≤ A / B := by
      rw [div_mul_div_comm, div_le_div_iff₀ (by positivity) hB]
      nlinarith [hae.1, hbe.2, mul_pos hrq hcq, mul_pos hA hcq, mul_pos hrq hB]
    have hhi : A / B ≤ (1 + 1 / 16777216) / (1 - 1 / 16777216) * (R / C) := by
      rw [div_mul_div_comm, div_le_div_iff₀ hB (by positivity)]
      nlinarith [hae.2, hbe.1, mul_pos hrq hcq, mul_pos hA hcq, mul_pos hrq hB]
    constructor
    · have : (1 - 1 / 4194304) * (R / C)
          ≤ (1 - 1 / 16777216) * ((1 - 1 / 16777216) / (1 + 1 / 16777216) * (R / C)) := by
        have : (1 - 1 / 4194304 : ℚ)
            ≤ (1 - 1 / 16777216) * ((1 - 1 / 16777216) / (1 + 1 / 16777216)) := by norm_num
        nlinarith
      nlinarith [hde.1]
    · have : (1 + 1 / 16777216) * ((1 + 1 / 16777216) / (1 - 1 / 16777216) * (R / C))
          ≤ (1 + 1 / 4194304) * (R / C) := by
        have : (1 + 1 / 16777216) * ((1 + 1 / 16777216) / (1 - 1 / 16777216))
            ≤ (1 + 1 / 4194304 : ℚ) := by norm_num
        nlinarith
      nlinarith [hde.2]

/-- The value `static_cast<float>(ret) / count` for `ret = 0` and a positive `count`:
the `float` zero. -/
theorem toFloat_zero (count : Int) (hc : 0 < count) :
    FloatQuotient.toFloat ⟨0, count⟩ = FP.finite false 0 0 := by
  obtain ⟨mb, eb, hb, hmb, _⟩ := ofInt_pos 24 (by decide) count hc
  unfold FloatQuotient.toFloat
  simp only
  rw [hb]
  have hmb0 : mb ≠ 0 := by omega
  simp [FP.ofInt, FP.div, hmb0]

/-! ## Floating point: the values stay in the formats -/

theorem bitLength_le (n k : Nat) (hn : 0 < n) (h : n < 2 ^ k) : bitLength n ≤ k := by
  obtain ⟨h1, _⟩ := bitLength_spec n hn
  by_contra hc
  have hk : k ≤ bitLength n - 1 := by omega
  have := Nat.pow_le_pow_right (by decide : 0 < 2) hk
  omega

theorem bitLength_ge (n k : Nat) (hn : 0 < n) (h : 2 ^ k ≤ n) : k + 1 ≤ bitLength n := by
  obtain ⟨_, h2⟩ := bitLength_spec n hn
  by_contra hc
  have hk : bitLength n ≤ k := by omega
  have := Nat.pow_le_pow_right (by decide : 0 < 2) hk
  omega

/-- A normalised significand of `p` binary digits has `p` binary digits. -/
theorem bitLength_normal (p m : Nat) (hp : 1 ≤ p) (h1 : 2 ^ (p - 1) ≤ m) (h2 : m < 2 ^ p) :
    bitLength m = p := by
  have hm : 0 < m := lt_of_lt_of_le (by positivity) h1
  have := bitLength_le m p hm h2
  have := bitLength_ge m (p - 1) hm h1
  omega

/-- The exponent that `roundRatio` yields is at most 2 above the difference of the
numbers of binary digits, less the precision. -/
theorem roundRatio_exp (p num den : Nat) :
    (bitLength num : Int) - bitLength den - p ≤ (roundRatio p num den).2
    ∧ (roundRatio p num den).2 ≤ (bitLength num : Int) - bitLength den - p + 2 := by
  unfold roundRatio
  simp only
  split_ifs <;> constructor <;> simp only <;> omega

theorem ofInt_cases (p : Nat) (hp : 1 ≤ p) (x : Int) (hx : x ≠ 0) :
    ∃ s m e, FP.ofInt p x = FP.finite s m e ∧ 2 ^ (p - 1) ≤ m ∧ m < 2 ^ p
      ∧ (bitLength x.natAbs : Int) - 1 - p ≤ e ∧ e ≤ (bitLength x.natAbs : Int) - 1 - p + 2 := by
  have hnat : 0 < x.natAbs := by omega
  obtain ⟨h1, h2, _⟩ := roundRatio_spec p x.natAbs 1 hp hnat (by decide)
  obtain ⟨h3, h4⟩ := roundRatio_exp p x.natAbs 1
  have hb1 : bitLength 1 = 1 := by decide
  rw [hb1] at h3 h4
  refine ⟨decide (x < 0), (roundRatio p x.natAbs 1).1, (roundRatio p x.natAbs 1).2, ?_, h1, h2,
    by omega, by omega⟩
  unfold FP.ofInt
  simp only [hx, if_false]

theorem div_cases (p : Nat) (hp : 1 ≤ p) (s t : Bool) (ma mb : Nat) (ea eb : Int)
    (hma : ma ≠ 0) (hmb : mb ≠ 0) :
    ∃ m e, FP.div p (FP.finite s ma ea) (FP.finite t mb eb) = FP.finite (xor s t) m e
      ∧ 2 ^ (p - 1) ≤ m ∧ m < 2 ^ p
      ∧ (bitLength ma : Int) - bitLength mb - p + ea - eb ≤ e
      ∧ e ≤ (bitLength ma : Int) - bitLength mb - p + 2 + ea - eb := by
  obtain ⟨h1, h2, _⟩ := roundRatio_spec p ma mb hp (by omega) (by omega)
  obtain ⟨h3, h4⟩ := roundRatio_exp p ma mb
  refine ⟨(roundRatio p ma mb).1, (roundRatio p ma mb).2 + ea - eb, ?_, h1, h2, by omega,
    by omega⟩
  simp only [FP.div, hma, hmb, if_false]

/-- The `float` that `averageTime()` returns from `int64_t` operands is a value of the
`float` format: the cast and the division neither overflow nor yield a subnormal
number. -/
theorem toFloat_inFormat (q : FloatQuotient)
    (hr : -9223372036854775808 ≤ q.ret ∧ q.ret ≤ 9223372036854775807)
    (hc : -9223372036854775808 ≤ q.count ∧ q.count ≤ 9223372036854775807) :
    (FP.ofInt 24 q.ret).InFormat 24 (-149) 104
    ∧ (FP.ofInt 24 q.count).InFormat 24 (-149) 104
    ∧ q.toFloat.InFormat 24 (-149) 104
    ∧ (∀ s m e, q.toFloat = FP.finite s m e → m ≠ 0 → -89 ≤ e ∧ e ≤ 43) := by
  have hbl : ∀ x : Int, x ≠ 0 → -9223372036854775808 ≤ x → x ≤ 9223372036854775807 →
      1 ≤ bitLength x.natAbs ∧ bitLength x.natAbs ≤ 64 := by
    intro x hx h1 h2
    have hn : 0 < x.natAbs := by omega
    refine ⟨bitLength_pos _ hn, bitLength_le _ 64 hn ?_⟩
    have : (2 : ℕ) ^ 64 = 18446744073709551616 := by norm_num
    omega
  unfold FloatQuotient.toFloat
  by_cases hr0 : q.ret = 0
  · by_cases hc0 : q.count = 0
    · rw [hr0, hc0]
      refine ⟨Or.inl rfl, Or.inl rfl, trivial, ?_⟩
      intro s m e h
      have hnan : FP.div 24 (FP.ofInt 24 0) (FP.ofInt 24 0) = FP.nan := by decide
      rw [hnan] at h
      cases h
    · obtain ⟨t, mb, eb, hb, hb1, hb2, hb3, hb4⟩ := ofInt_cases 24 (by decide) q.count hc0
      obtain ⟨hl1, hl2⟩ := hbl q.count hc0 hc.1 hc.2
      have hmb : mb ≠ 0 := by
        have : 0 < 2 ^ (24 - 1) := by positivity
        omega
      rw [hr0, hb]
      refine ⟨Or.inl rfl, Or.inr ⟨hb1, hb2, by omega, by omega⟩, ?_, ?_⟩
      · simp only [FP.ofInt, if_true, FP.div, hmb, if_false]
        exact Or.inl rfl
      · intro s m e h hm
        simp only [FP.ofInt, if_true, FP.div, hmb, if_false, FP.finite.injEq] at h
        exact absurd h.2.1.symm hm
  · obtain ⟨s, ma, ea, ha, ha1, ha2, ha3, ha4⟩ := ofInt_cases 24 (by decide) q.ret hr0
    obtain ⟨hk1, hk2⟩ := hbl q.ret hr0 hr.1 hr.2
    have hma : ma ≠ 0 := by
      have : 0 < 2 ^ (24 - 1) := by positivity
      omega
    by_cases hc0 : q.count = 0
    · rw [ha, hc0]
      refine ⟨Or.inr ⟨ha1, ha2, by omega, by omega⟩, Or.inl rfl, ?_, ?_⟩
      · simp only [FP.ofInt, if_true, FP.div, hma, if_false]
        trivial
      · intro s2 m e h
        simp only [FP.ofInt, if_true, FP.div, hma, if_false] at h
        exact absurd h (by simp)
    · obtain ⟨t, mb, eb, hb, hb1, hb2, hb3, hb4⟩ := ofInt_cases 24 (by decide) q.count hc0
      obtain ⟨hl1, hl2⟩ := hbl q.count hc0 hc.1 hc.2
      have hmb : mb ≠ 0 := by
        have : 0 < 2 ^ (24 - 1) := by positivity
        omega
      obtain ⟨m, e, hd, hd1, hd2, hd3, hd4⟩ := div_cases 24 (by decide) s t ma mb ea eb hma hmb
      have hbla := bitLength_normal 24 ma (by decide) ha1 ha2
      have hblb := bitLength_normal 24 mb (by decide) hb1 hb2
      rw [hbla, hblb] at hd3 hd4
      rw [ha, hb, hd]
      refine ⟨Or.inr ⟨ha1, ha2, by omega, by omega⟩, Or.inr ⟨hb1, hb2, by omega, by omega⟩,
        Or.inr ⟨hd1, hd2, by omega, by omega⟩, ?_⟩
      intro s2 m2 e2 h _
      simp only [FP.finite.injEq] at h
      omega

/-- The `double` that `%.3f` prints for the `averageFPS` line is a value of the `double`
format: the division of 1000.0 by the value of `averageTime()` neither overflows nor
yields a subnormal number. -/
theorem averageFPS_inFormat (q : FloatQuotient)
    (hr : -9223372036854775808 ≤ q.ret ∧ q.ret ≤ 9223372036854775807)
    (hc : -9223372036854775808 ≤ q.count ∧ q.count ≤ 9223372036854775807) :
    (FP.div 53 (FP.ofInt 53 1000) q.toFloat).InFormat 53 (-1074) 971 := by
  obtain ⟨_, _, hf, hexp⟩ := toFloat_inFormat q hr hc
  have h1000 : FP.ofInt 53 1000 = FP.finite false 8796093022208000 (-43) := by decide
  rw [h1000]
  cases hq : q.toFloat with
  | nan => trivial
  | inf s => exact Or.inl rfl
  | finite s m e =>
    rw [hq] at hf
    by_cases hm : m = 0
    · subst hm
      simp only [FP.div, if_true]
      trivial
    · rcases hf with h0 | ⟨h1, h2, _, _⟩
      · exact absurd h0 hm
      · obtain ⟨he1, he2⟩ := hexp s m e hq hm
        obtain ⟨m2, e2, hd, hd1, hd2, hd3, hd4⟩ :=
          div_cases 53 (by decide) false s 8796093022208000 m (-43) e (by decide) hm
        have hbl1 : bitLength 8796093022208000 = 53 :=
          bitLength_normal 53 _ (by decide) (by norm_num) (by norm_num)
        have hbl2 := bitLength_normal 24 m (by decide) h1 h2
        rw [hbl1, hbl2] at hd3 hd4
        rw [hd]
        exact Or.inr ⟨hd1, hd2, by omega, by omega⟩

/-- The operands of the return statement of `averageTime()` are `int64_t` values. -/
theorem averageTime_int64 (h : Histogram) :
    (-9223372036854775808 ≤ h.averageTime.ret ∧ h.averageTime.ret ≤ 9223372036854775807)
    ∧ (-9223372036854775808 ≤ h.averageTime.count
        ∧ h.averageTime.count ≤ 9223372036854775807) := by
  unfold Histogram.averageTime Histogram.averageTimeLoop
  simp only
  induction h.hist using List.reverseRecOn with
  | nil => simp
  | append_singleton m x _ =>
    rw [List.foldl_append]
    simp only [List.foldl_cons, List.foldl_nil, wrap64]
    omega

/-! ## Rounding up -/

/-- The boundary of a non-negative delta is not below `min delta 1000`, and equals it
exactly when `min delta 1000` is an entry of the table. -/
theorem bucketFor_rounds_up (delta : Int) :
    min delta 1000 ≤ bucketFor delta
    ∧ (bucketFor delta = min delta 1000 ↔ min delta 1000 ∈ histogramConfig) := by
  obtain ⟨hmem, hle, hleast⟩ := bucketFor_spec delta
  refine ⟨hle, ?_, ?_⟩
  · intro heq
    rw [← heq]
    exact hmem
  · intro hin
    exact le_antisymm (hleast _ hin (le_refl _)) hle

theorem clampedDeltaSum_cons (d : Int) (ds : List Int) :
    clampedDeltaSum (d :: ds) = clampedDeltaSum ds + if 0 ≤ d then min d 1000 else 0 := by
  unfold clampedDeltaSum
  by_cases hd : 0 ≤ d
  · simp [List.filter_cons, hd]
    ring
  · simp [List.filter_cons, hd]

theorem clampedDeltaSum_le_clampedSum (ds : List Int) : clampedDeltaSum ds ≤ clampedSum ds := by
  induction ds with
  | nil => simp [clampedDeltaSum, clampedSum]
  | cons d ds ih =>
    rw [clampedDeltaSum_cons, clampedSum_cons]
    by_cases hd : 0 ≤ d
    · have := (bucketFor_rounds_up d).1
      simp only [hd, if_true]
      omega
    · simp only [hd, if_false]
      omega

theorem clampedSum_nonneg (ds : List Int) : 0 ≤ clampedSum ds := by
  induction ds with
  | nil => simp [clampedSum]
  | cons d ds ih =>
    rw [clampedSum_cons]
    by_cases hd : 0 ≤ d
    · have := histogramConfig_nonneg (bucketFor_mem d)
      simp only [hd, if_true]
      omega
    · simp only [hd, if_false]
      omega

theorem observations_of_nonneg (ds : List Int) (hnn : ∀ d ∈ ds, 0 ≤ d) :
    observations ds = ds.length := by
  unfold observations
  rw [List.countP_eq_length]
  intro d hd
  simpa using hnn d hd

/-- C19 (as stated) fails, in two ways. The counts are `int32_t`: after 2147483648
inserts of the delta 1 into the empty histogram the clamped deltas sum to 2147483648,
and the numerator of `averageTime()` is -2147483648. And `averageTime()` returns a
`float`: after the inserts 16, 16, 33 the operands are 65 and 3 and the value returned is
`11359573 * 2 ^ -19`, which is below the mean 65 / 3 of the clamped deltas; after 134219
inserts of the delta 1000 the operands are 134219000 and 134219 and the value returned
is `16384001 * 2 ^ -14`, which is above 1000. -/
theorem averageTime_numerator_below_sum :
    ((List.replicate 2147483648 (1 : Int)).length = 2147483648
      ∧ clampedDeltaSum (List.replicate 2147483648 1) = 2147483648
      ∧ (Histogram.empty.insertAll (List.replicate 2147483648 1)).averageTime
          = ⟨-2147483648, -2147483648⟩)
    ∧ (clampedDeltaSum [16, 16, 33] = 65
      ∧ (Histogram.empty.insertAll [16, 16, 33]).averageTime = ⟨65, 3⟩
      ∧ (Histogram.empty.insertAll [16, 16, 33]).averageTime.toFloat
          = FP.finite false 11359573 (-19)
      ∧ (11359573 : ℚ) * (2 : ℚ) ^ (-19 : Int) < 65 / 3)
    ∧ ((Histogram.empty.insertAll (List.replicate 134219 1000)).averageTime
          = ⟨134219000, 134219⟩
      ∧ (Histogram.empty.insertAll (List.replicate 134219 1000)).averageTime.toFloat
          = FP.finite false 16384001 (-14)
      ∧ (1000 : ℚ) < (16384001 : ℚ) * (2 : ℚ) ^ (-14 : Int)) := by
  refine ⟨⟨List.length_replicate _ _, ?_, ?_⟩, ⟨by decide, by decide, by decide, by norm_num⟩,
    ?_⟩
  · unfold clampedDeltaSum
    rw [List.filter_replicate]
    simp only [show decide ((0 : Int) ≤ 1) = true from rfl, if_true, List.map_replicate,
      List.sum_replicate]
    decide
  · have hb : bucketFor 1 = 1 := by decide
    have h := insertAll_replicate 1 (by decide) 2147483647
    have hw : wrap32 ((2147483647 : Nat) + 1) = -2147483648 := by decide
    rw [hb, hw] at h
    have hn : (2147483647 + 1 : Nat) = 2147483648 := by norm_num
    rw [hn] at h
    rw [h]
    decide
  · have hb : bucketFor 1000 = 1000 := by decide
    have h := insertAll_replicate 1000 (by decide) 134218
    have hw : wrap32 ((134218 : Nat) + 1) = 134219 := by decide
    rw [hb, hw] at h
    have hn : (134218 + 1 : Nat) = 134219 := by norm_num
    rw [hn] at h
    rw [h]
    refine ⟨by decide, by decide, by norm_num⟩

/-- C19 (as amended): bucketing rounds up, never down: for every delta `≥ 0` the
boundary that `insert` resolves it to is `≥ min delta 1000`, with equality exactly when
`min delta 1000` is a member of `histogramConfig`; and for every non-empty run of
non-negative deltas inserted into an empty histogram in which, for every boundary `b`,
fewer than `2^31` deltas resolve to `b` and `b` times their number is at most 2147483647,
the numerator of `averageTime()` is `≥` the sum of `min delta 1000` over the run, the
divisor is the length of the run, and the numerator lies between 0 and 1000 times the
divisor: the exact quotient is not below the mean of the clamped deltas and lies between
0 and 1000. The `float` that `averageTime()` returns is a number with the sign not set,
not below `1 - 2 ^ -22` times the mean of the clamped deltas and not above
`1 + 2 ^ -22` times 1000. -/
theorem averageTime_rounds_up (ds : List Int) (hne : ds ≠ []) (hnn : ∀ d ∈ ds, 0 ≤ d)
    (hn : ∀ b ∈ histogramConfig, hits b ds < 2147483648)
    (hp : ∀ b ∈ histogramConfig, b * hits b ds ≤ 2147483647) :
    (∀ (h : Histogram) (d : Int), 0 ≤ d →
        h.insert d = ⟨increment (bucketFor d) h.hist⟩
        ∧ min d 1000 ≤ bucketFor d
        ∧ (bucketFor d = min d 1000 ↔ min d 1000 ∈ histogramConfig))
    ∧ clampedDeltaSum ds ≤ (Histogram.empty.insertAll ds).averageTime.ret
    ∧ (Histogram.empty.insertAll ds).averageTime.count = ds.length
    ∧ 0 ≤ (Histogram.empty.insertAll ds).averageTime.ret
    ∧ (Histogram.empty.insertAll ds).averageTime.ret
        ≤ 1000 * (Histogram.empty.insertAll ds).averageTime.count
    ∧ ∃ m e, (Histogram.empty.insertAll ds).averageTime.toFloat = FP.finite false m e
        ∧ (1 - 1 / 4194304) * ((clampedDeltaSum ds : ℚ) / (ds.length : ℚ))
            ≤ (m : ℚ) * (2 : ℚ) ^ e
        ∧ (m : ℚ) * (2 : ℚ) ^ e ≤ (1 + 1 / 4194304) * 1000 := by
  have hobs := observations_of_nonneg ds hnn
  have havg := averageTime_of_run ds hn hp
  rw [hobs] at havg
  have hlen : 0 < ds.length := List.length_pos.mpr hne
  have hlenq : (0 : ℚ) < (ds.length : ℚ) := by exact_mod_cast hlen
  have h1 := clampedDeltaSum_le_clampedSum ds
  have h2 := clampedSum_nonneg ds
  have h3 := clampedSum_le ds
  rw [hobs] at h3
  have h1q : (clampedDeltaSum ds : ℚ) ≤ (clampedSum ds : ℚ) := by exact_mod_cast h1
  have h3q : (clampedSum ds : ℚ) ≤ 1000 * (ds.length : ℚ) := by exact_mod_cast h3
  have hmean : (clampedDeltaSum ds : ℚ) / (ds.length : ℚ)
      ≤ (clampedSum ds : ℚ) / (ds.length : ℚ) :=
    (div_le_div_iff_of_pos_right hlenq).mpr h1q
  have hq1000 : (clampedSum ds : ℚ) / (ds.length : ℚ) ≤ 1000 := by
    rw [div_le_iff₀ hlenq]
    exact h3q
  refine ⟨fun h d hd => ⟨insert_eq_increment h d hd, bucketFor_rounds_up d⟩, ?_, ?_, ?_, ?_,
    ?_⟩
  · rw [havg]
    exact h1
  · rw [havg]
  · rw [havg]
    exact h2
  · rw [havg]
    exact h3
  · rw [havg]
    rcases eq_or_lt_of_le h2 with h0 | hpos
    · rw [← h0]
      refine ⟨0, 0, toFloat_zero _ (by exact_mod_cast hlen), ?_, ?_⟩
      · have hle : (clampedDeltaSum ds : ℚ) / (ds.length : ℚ) ≤ 0 := by
          rw [← h0] at hmean
          simpa using hmean
        have : (0 : ℚ) ≤ 1 - 1 / 4194304 := by norm_num
        simp only [Nat.cast_zero, zero_mul]
        exact mul_nonpos_of_nonneg_of_nonpos this hle
      · norm_num
    · obtain ⟨m, e, hf, _, hlo, hhi⟩ := toFloat_pos (clampedSum ds) (ds.length : Int) hpos
        (by exact_mod_cast hlen)
      refine ⟨m, e, hf, ?_, ?_⟩
      · refine le_trans ?_ hlo
        push_cast
        exact mul_le_mul_of_nonneg_left hmean (by norm_num)
      · refine le_trans hhi ?_
        push_cast
        exact mul_le_mul_of_nonneg_left hq1000 (by norm_num)

/-- Witness of C19: the run 35, 5000, 16, whose clamped deltas sum to 1051 and are
counted under the boundaries 36, 1000, 16. -/
theorem averageTime_rounds_up_witness :
    clampedDeltaSum [35, 5000, 16] ≤ (Histogram.empty.insertAll [35, 5000, 16]).averageTime.ret
    ∧ (Histogram.empty.insertAll [35, 5000, 16]).averageTime = ⟨1052, 3⟩
    ∧ (Histogram.empty.insertAll [35, 5000, 16]).averageTime.toFloat
        = FP.finite false 11490645 (-15) :=
  ⟨(averageTime_rounds_up [35, 5000, 16] (by decide) (by decide) (by decide)
      (by decide)).2.1, by decide, by decide⟩

/-! ## The matcher: what a successful match looks like -/

theorem repeatGreedy_some {R : Type} (p : Char → Bool) (k : List Char → Option R)
    (s : List Char) (r : R) (h : Regex.repeatGreedy p k s = some r) :
    ∃ a b, s = a ++ b ∧ (∀ c ∈ a, p c = true) ∧ k b = some r := by
  induction s with
  | nil =>
    exact ⟨[], [], rfl, by simp, by simpa [Regex.repeatGreedy] using h⟩
  | cons c cs ih =>
    unfold Regex.repeatGreedy at h
    by_cases hp : p c = true
    · rw [if_pos hp] at h
      cases hrec : Regex.repeatGreedy p k cs with
      | some r2 =>
        rw [hrec] at h
        simp only [Option.some.injEq] at h
        subst h
        obtain ⟨a, b, hs, ha, hk⟩ := ih hrec
        refine ⟨c :: a, b, by rw [hs]; rfl, ?_, hk⟩
        intro x hx
        rcases List.mem_cons.mp hx with hx | hx
        · rw [hx]
          exact hp
        · exact ha x hx
      | none =>
        rw [hrec] at h
        exact ⟨[], c :: cs, rfl, by simp, h⟩
    · rw [if_neg hp] at h
      exact ⟨[], c :: cs, rfl, by simp, h⟩

theorem lit_some {R : Type} (l : List Char)
    (k : List Char → Option (List Char) → Option R) (s : List Char)
    (cap : Option (List Char)) (r : R) (h : (Regex.lit l).exec k s cap = some r) :
    ∃ t, s = l ++ t ∧ k t cap = some r := by
  induction l generalizing s with
  | nil => exact ⟨s, rfl, h⟩
  | cons c cs ih =>
    simp only [Regex.lit, Regex.exec] at h
    cases s with
    | nil => simp at h
    | cons x xs =>
      simp only at h
      by_cases hx : (x == c) = true
      · rw [if_pos hx] at h
        obtain ⟨t, ht, hk⟩ := ih xs h
        have hxc : x = c := by simpa using hx
        exact ⟨t, by rw [ht, hxc]; rfl, hk⟩
      · rw [if_neg hx] at h
        simp at h

theorem plus_some {R : Type} (p : Char → Bool)
    (k : List Char → Option (List Char) → Option R) (s : List Char)
    (cap : Option (List Char)) (r : R) (h : (Regex.plus p).exec k s cap = some r) :
    ∃ a b, s = a ++ b ∧ a ≠ [] ∧ (∀ c ∈ a, p c = true) ∧ k b cap = some r := by
  simp only [Regex.exec] at h
  cases s with
  | nil => simp at h
  | cons x xs =>
    simp only at h
    by_cases hx : p x = true
    · rw [if_pos hx] at h
      obtain ⟨a, b, hs, ha, hk⟩ := repeatGreedy_some p _ xs r h
      refine ⟨x :: a, b, by rw [hs]; rfl, by simp, ?_, hk⟩
      intro c hc
      rcases List.mem_cons.mp hc with hc | hc
      · rw [hc]
        exact hx
      · exact ha c hc
    · rw [if_neg hx] at h
      simp at h

theorem packageNameRegex_eq : packageNameRegex = .seq (.opt surfaceViewRegex) bodyRegex := rfl

theorem regex_match_eq (re : Regex) (input : List Char) :
    regex_match re input = re.exec matchEnd input none := rfl

theorem hashDigits_some (s : List Char) (cap : Option (List Char))
    (r : Option (List Char)) (h : hashDigitsRegex.exec matchEnd s cap = some r) :
    r = cap ∧ ∃ digits, s = '#' :: digits ∧ digits ≠ [] ∧ ∀ c ∈ digits, isDigit c = true := by
  simp only [hashDigitsRegex, Regex.exec] at h
  cases s with
  | nil => simp at h
  | cons x xs =>
    simp only at h
    by_cases hx : (x == '#') = true
    · rw [if_pos hx] at h
      have hxc : x = '#' := by simpa using hx
      obtain ⟨a, b, hs, hne, ha, hk⟩ := plus_some isDigit matchEnd xs cap r h
      unfold matchEnd at hk
      by_cases hb : b = []
      · rw [if_pos hb] at hk
        simp only [Option.some.injEq] at hk
        subst hb
        rw [List.append_nil] at hs
        subst hs
        exact ⟨hk.symm, xs, by rw [hxc], hne, ha⟩
      · rw [if_neg hb] at hk
        simp at hk
    · rw [if_neg hx] at h
      simp at h

theorem tail_some (s : List Char) (cap : Option (List Char)) (r : Option (List Char))
    (h : tailRegex.exec matchEnd s cap = some r) : r = cap ∧ endsWithHashDigits s := by
  simp only [tailRegex, Regex.exec] at h
  obtain ⟨a, b, hs, _, hk⟩ := repeatGreedy_some _ _ s r h
  obtain ⟨hr, digits, hb, hne, hd⟩ := hashDigits_some b cap r hk
  exact ⟨hr, a, digits, by rw [hs, hb], hne, hd⟩

theorem body_some (s : List Char) (cap : Option (List Char)) (r : Option (List Char))
    (h : bodyRegex.exec matchEnd s cap = some r) :
    ∃ name rest, s = name ++ rest ∧ name ≠ [] ∧ (∀ c ∈ name, c ≠ '/') ∧ r = some name
      ∧ endsWithHashDigits rest := by
  simp only [bodyRegex, Regex.exec] at h
  cases s with
  | nil => simp at h
  | cons x xs =>
    simp only at h
    by_cases hx : (!(x == '/')) = true
    · rw [if_pos hx] at h
      obtain ⟨a, b, hs, ha, hk⟩ := repeatGreedy_some _ _ xs r h
      have hk2 : tailRegex.exec matchEnd b
          (some ((x :: xs).take ((x :: xs).length - b.length))) = some r := hk
      obtain ⟨hr, hend⟩ := tail_some b _ r hk2
      have htake : (x :: xs).take ((x :: xs).length - b.length) = x :: a := by
        rw [hs]
        have : (x :: (a ++ b)).length - b.length = (x :: a).length := by
          simp only [List.length_cons, List.length_append]
          omega
        rw [this]
        exact List.take_left' rfl
      rw [htake] at hr
      refine ⟨x :: a, b, by rw [hs]; rfl, by simp, ?_, hr, hend⟩
      intro c hc
      have hnot : ∀ y : Char, (!(y == '/')) = true → y ≠ '/' := by
        intro y hy
        simpa using hy
      rcases List.mem_cons.mp hc with hc | hc
      · rw [hc]
        exact hnot x hx
      · exact hnot c (ha c hc)
    · rw [if_neg hx] at h
      simp at h

theorem exec_seq {R : Type} (a b : Regex) (k : List Char → Option (List Char) → Option R)
    (s : List Char) (cap : Option (List Char)) :
    (Regex.seq a b).exec k s cap = a.exec (fun s1 cap1 => b.exec k s1 cap1) s cap := rfl

theorem exec_opt_some {R : Type} (a : Regex) (k : List Char → Option (List Char) → Option R)
    (s : List Char) (cap : Option (List Char)) (r : R) (h : a.exec k s cap = some r) :
    (Regex.opt a).exec k s cap = some r := by
  simp only [Regex.exec, h]

theorem exec_opt_none {R : Type} (a : Regex) (k : List Char → Option (List Char) → Option R)
    (s : List Char) (cap : Option (List Char)) (h : a.exec k s cap = none) :
    (Regex.opt a).exec k s cap = k s cap := by
  simp only [Regex.exec, h]

/-- A successful match of the pattern of `getPackageName`: the input is an optional
`SurfaceView` part with its separators, the captured name (not empty, without `/`), and
a rest that ends with `#` and digits. -/
theorem match_some (s : List Char) (r : Option (List Char))
    (h : regex_match packageNameRegex s = some r) :
    ∃ front name rest, s = front ++ name ++ rest
      ∧ (front = [] ∨ ∃ seps, (∀ c ∈ seps, isSeparator c = true)
          ∧ front = "SurfaceView".toList ++ seps)
      ∧ name ≠ [] ∧ (∀ c ∈ name, c ≠ '/') ∧ r = some name ∧ endsWithHashDigits rest := by
  rw [regex_match_eq, packageNameRegex_eq] at h
  rw [exec_seq] at h
  cases hpre : surfaceViewRegex.exec (fun s1 cap1 => bodyRegex.exec matchEnd s1 cap1) s none with
  | some r2 =>
    rw [exec_opt_some _ _ _ _ _ hpre] at h
    simp only [Option.some.injEq] at h
    subst h
    have hseq : surfaceViewRegex.exec (fun s1 cap1 => bodyRegex.exec matchEnd s1 cap1) s none
        = (Regex.lit "SurfaceView".toList).exec
            (fun s1 cap1 => (Regex.plus (fun c => c == '-' || isSpace c || c == '\t')).exec
              (fun s2 cap2 => bodyRegex.exec matchEnd s2 cap2) s1 cap1) s none := rfl
    rw [hseq] at hpre
    obtain ⟨t, hs, hk⟩ := lit_some "SurfaceView".toList _ s none r2 hpre
    obtain ⟨a, b, ht, _, ha, hb⟩ := plus_some _ _ t none r2 hk
    obtain ⟨name, rest, hbs, hne, hslash, hr, hend⟩ := body_some b none r2 hb
    exact ⟨"SurfaceView".toList ++ a, name, rest, by rw [hs, ht, hbs]; simp,
      Or.inr ⟨a, ha, rfl⟩, hne, hslash, hr, hend⟩
  | none =>
    rw [exec_opt_none _ _ _ _ hpre] at h
    obtain ⟨name, rest, hbs, hne, hslash, hr, hend⟩ := body_some s none r h
    exact ⟨[], name, rest, by rw [hbs]; rfl, Or.inl rfl, hne, hslash, hr, hend⟩

theorem endsWithHashDigits_append (a : List Char) {s : List Char} (h : endsWithHashDigits s) :
    endsWithHashDigits (a ++ s) := by
  obtain ⟨front, digits, hs, hne, hd⟩ := h
  exact ⟨a ++ front, digits, by rw [hs, List.append_assoc], hne, hd⟩

/-- A non-empty result of `getPackageName` is the capture of a successful match. -/
theorem getPackageName_ne_nil {s : List Char} (h : getPackageName s ≠ []) :
    regex_match packageNameRegex s = some (some (getPackageName s)) := by
  unfold getPackageName at h ⊢
  cases hm : regex_match packageNameRegex s with
  | none => simp [hm] at h
  | some r =>
    cases r with
    | none => simp [hm] at h
    | some name => rfl

/-- C15 (as stated) fails: in the layer name made of `SurfaceView`, the separators
space and `-`, and then `/foo#0`, the first character after the `SurfaceView` part and
its separators is `/`, and `getPackageName` returns `-`, not the empty string. -/
theorem getPackageName_slash_after_SurfaceView :
    "SurfaceView -/foo#0".toList = "SurfaceView".toList ++ " -".toList ++ '/' :: "foo#0".toList
    ∧ getPackageName "SurfaceView -/foo#0".toList = "-".toList := by
  constructor <;> decide

/-- C15 (as amended): for every layer name that does not end with `#` followed by one
or more decimal digits, and for every layer name whose first character is `/`,
`getPackageName` returns the empty string; `getPackageName` returns a string for every
input, and whenever its result is not empty the result is a substring of the layer name
(a piece of it, at its start or right after `SurfaceView` and separators) that contains
no `/`. -/
theorem getPackageName_empty_or_substring (layerName : List Char) :
    (¬ endsWithHashDigits layerName → getPackageName layerName = [])
    ∧ (∀ t, layerName = '/' :: t → getPackageName layerName = [])
    ∧ (∃ result, getPackageName layerName = result)
    ∧ (getPackageName layerName ≠ [] →
        (∃ front rest, layerName = front ++ getPackageName layerName ++ rest
          ∧ (front = [] ∨ ∃ seps, (∀ c ∈ seps, isSeparator c = true)
              ∧ front = "SurfaceView".toList ++ seps))
        ∧ ∀ c ∈ getPackageName layerName, c ≠ '/') := by
  refine ⟨?_, ?_, ⟨_, rfl⟩, ?_⟩
  · intro hend
    by_contra hne
    obtain ⟨front, name, rest, hs, _, _, _, _, hrest⟩ :=
      match_some layerName _ (getPackageName_ne_nil hne)
    apply hend
    rw [hs]
    exact endsWithHashDigits_append _ hrest
  · intro t ht
    by_contra hne
    obtain ⟨front, name, rest, hs, hfront, hnn, hslash, _, _⟩ :=
      match_some layerName _ (getPackageName_ne_nil hne)
    rw [ht] at hs
    rcases hfront with hf | ⟨seps, _, hf⟩
    · subst hf
      cases name with
      | nil => exact hnn rfl
      | cons x xs =>
        simp only [List.nil_append, List.cons_append, List.cons.injEq] at hs
        exact hslash x (List.mem_cons_self _ _) hs.1.symm
    · subst hf
      have hs2 : '/' :: t = 'S' :: ("urfaceView".toList ++ seps ++ name ++ rest) := by
        rw [hs]
        rfl
      simp only [List.cons.injEq] at hs2
      exact absurd hs2.1 (by decide)
  · intro hne
    obtain ⟨front, name, rest, hs, hfront, _, hslash, hr, _⟩ :=
      match_some layerName _ (getPackageName_ne_nil hne)
    simp only [Option.some.injEq] at hr
    rw [hr]
    exact ⟨⟨front, rest, hs, hfront⟩, hslash⟩

/-- Witness of C15: `StatusBar` does not end with `#` and digits. -/
theorem getPackageName_empty_or_substring_witness :
    getPackageName "StatusBar".toList = [] := by
  apply (getPackageName_empty_or_substring "StatusBar".toList).1
  rintro ⟨front, digits, hs, hne, hd⟩
  have hmem : '#' ∈ "StatusBar".toList := by
    rw [hs]
    simp
  revert hmem
  decide

/-! ## The matcher: inputs that match -/

theorem repeatGreedy_append {R : Type} (p : Char → Bool) (k : List Char → Option R)
    (a b : List Char) (r : R) (ha : ∀ c ∈ a, p c = true)
    (hb : Regex.repeatGreedy p k b = some r) : Regex.repeatGreedy p k (a ++ b) = some r := by
  induction a with
  | nil => exact hb
  | cons c cs ih =>
    have hc : p c = true := ha c (List.mem_cons_self _ _)
    have ih2 := ih (fun x hx => ha x (List.mem_cons_of_mem _ hx))
    rw [List.cons_append, Regex.repeatGreedy, if_pos hc, ih2]

theorem repeatGreedy_stop {R : Type} (p : Char → Bool) (k : List Char → Option R)
    (b : List Char) (hb : ∀ c t, b = c :: t → p c = false) :
    Regex.repeatGreedy p k b = k b := by
  cases b with
  | nil => rfl
  | cons c t =>
    have hc : ¬ p c = true := by
      rw [hb c t rfl]
      simp
    rw [Regex.repeatGreedy, if_neg hc]

theorem repeatGreedy_none {R : Type} (p : Char → Bool) (k : List Char → Option R)
    (s : List Char) (hk : ∀ a s1, s = a ++ s1 → k s1 = none) :
    Regex.repeatGreedy p k s = none := by
  induction s with
  | nil => exact hk [] [] rfl
  | cons c cs ih =>
    have hrec : Regex.repeatGreedy p k cs = none :=
      ih (fun a s1 hs => hk (c :: a) s1 (by rw [hs]; rfl))
    have hhere : k (c :: cs) = none := hk [] (c :: cs) rfl
    rw [Regex.repeatGreedy, hrec]
    split <;> exact hhere

theorem lit_exec_append {R : Type} (l t : List Char)
    (k : List Char → Option (List Char) → Option R) (cap : Option (List Char)) :
    (Regex.lit l).exec k (l ++ t) cap = k t cap := by
  induction l with
  | nil => rfl
  | cons c cs ih =>
    simp only [Regex.lit, Regex.exec, List.cons_append, beq_self_eq_true, if_true]
    exact ih

theorem exec_plus_cons {R : Type} (p : Char → Bool)
    (k : List Char → Option (List Char) → Option R) (c : Char) (cs : List Char)
    (cap : Option (List Char)) (hc : p c = true) :
    (Regex.plus p).exec k (c :: cs) cap = Regex.repeatGreedy p (fun s1 => k s1 cap) cs := by
  simp only [Regex.exec, hc, if_true]

theorem exec_group {R : Type} (a : Regex) (k : List Char → Option (List Char) → Option R)
    (s : List Char) (cap : Option (List Char)) :
    (Regex.group a).exec k s cap
      = a.exec (fun s1 _ => k s1 (some (s.take (s.length - s1.length)))) s cap := rfl

theorem plus_digits_match (digits : List Char) (cap : Option (List Char))
    (hne : digits ≠ []) (hd : ∀ c ∈ digits, isDigit c = true) :
    (Regex.plus isDigit).exec matchEnd digits cap = some cap := by
  cases digits with
  | nil => exact absurd rfl hne
  | cons c cs =>
    rw [exec_plus_cons _ _ _ _ _ (hd c (List.mem_cons_self _ _))]
    have h := repeatGreedy_append isDigit (fun s1 => matchEnd s1 cap) cs [] cap
      (fun x hx => hd x (List.mem_cons_of_mem _ hx)) rfl
    rw [List.append_nil] at h
    exact h

theorem hashDigits_match (digits : List Char) (cap : Option (List Char))
    (hne : digits ≠ []) (hd : ∀ c ∈ digits, isDigit c = true) :
    hashDigitsRegex.exec matchEnd ('#' :: digits) cap = some cap := by
  have h := plus_digits_match digits cap hne hd
  simp only [hashDigitsRegex, Regex.exec, beq_self_eq_true, if_true]
  simp only [Regex.exec] at h
  exact h

theorem hashDigits_none_of_digits (digits a s1 : List Char) (cap : Option (List Char))
    (hd : ∀ c ∈ digits, isDigit c = true) (hs : digits = a ++ s1) :
    hashDigitsRegex.exec matchEnd s1 cap = none := by
  cases h : hashDigitsRegex.exec matchEnd s1 cap with
  | none => rfl
  | some r =>
    obtain ⟨_, ds, hs1, _, _⟩ := hashDigits_some s1 cap r h
    have hmem : '#' ∈ digits := by
      rw [hs, hs1]
      simp
    exact absurd (hd _ hmem) (by decide)

theorem tail_match (middle digits : List Char) (cap : Option (List Char))
    (hm : ∀ c ∈ middle, isAnyButNewline c = true) (hne : digits ≠ [])
    (hd : ∀ c ∈ digits, isDigit c = true) :
    tailRegex.exec matchEnd (middle ++ '#' :: digits) cap = some cap := by
  have hexec : tailRegex.exec matchEnd (middle ++ '#' :: digits) cap
      = Regex.repeatGreedy isAnyButNewline (fun s1 => hashDigitsRegex.exec matchEnd s1 cap)
          (middle ++ '#' :: digits) := rfl
  rw [hexec]
  apply repeatGreedy_append _ _ _ _ _ hm
  have hrest : Regex.repeatGreedy isAnyButNewline
      (fun s1 => hashDigitsRegex.exec matchEnd s1 cap) digits = none :=
    repeatGreedy_none _ _ _ (fun a s1 hs => hashDigits_none_of_digits digits a s1 cap hd hs)
  rw [Regex.repeatGreedy, hrest]
  have hhash : isAnyButNewline '#' = true := by decide
  rw [if_pos hhash]
  exact hashDigits_match digits cap hne hd

theorem tail_none_of_digits (digits a s1 : List Char) (cap : Option (List Char))
    (hd : ∀ c ∈ digits, isDigit c = true) (hs : digits = a ++ s1) :
    tailRegex.exec matchEnd s1 cap = none := by
  cases h : tailRegex.exec matchEnd s1 cap with
  | none => rfl
  | some r =>
    obtain ⟨_, front, ds, hs1, _, _⟩ := tail_some s1 cap r h
    have hmem : '#' ∈ digits := by
      rw [hs, hs1]
      simp
    exact absurd (hd _ hmem) (by decide)

/-- The part `([^/]+).*#\d+` of the pattern on a name without `/`, a middle that is empty
or starts with `/` and holds no line terminator, `#` and digits: the capture is the
name. -/
theorem body_match (name middle digits : List Char) (cap : Option (List Char))
    (hname : name ≠ []) (hslash : ∀ c ∈ name, c ≠ '/')
    (hmid : middle = [] ∨ ∃ t, middle = '/' :: t)
    (hm : ∀ c ∈ middle, isAnyButNewline c = true) (hne : digits ≠ [])
    (hd : ∀ c ∈ digits, isDigit c = true) :
    bodyRegex.exec matchEnd (name ++ middle ++ '#' :: digits) cap = some (some name) := by
  cases name with
  | nil => exact absurd rfl hname
  | cons x xs =>
    have hnot : ∀ c : Char, c ≠ '/' → (!(c == '/')) = true := by
      intro c hc
      simpa using hc
    have hx : (!(x == '/')) = true := hnot x (hslash x (List.mem_cons_self _ _))
    have hexec : bodyRegex.exec matchEnd (x :: xs ++ middle ++ '#' :: digits) cap
        = (Regex.plus (fun c => !(c == '/'))).exec
            (fun s1 _ => tailRegex.exec matchEnd s1
              (some ((x :: xs ++ middle ++ '#' :: digits).take
                ((x :: xs ++ middle ++ '#' :: digits).length - s1.length))))
            (x :: (xs ++ (middle ++ '#' :: digits))) cap := by
      rw [bodyRegex, exec_seq, exec_group]
      simp only [List.cons_append, List.append_assoc]
    rw [hexec, exec_plus_cons _ _ _ _ _ hx]
    apply repeatGreedy_append _ _ _ _ _
      (fun c hc => hnot c (hslash c (List.mem_cons_of_mem _ hc)))
    have htake : (x :: xs ++ middle ++ '#' :: digits).take
        ((x :: xs ++ middle ++ '#' :: digits).length - (middle ++ '#' :: digits).length)
        = x :: xs := by
      have hlen : (x :: xs ++ middle ++ '#' :: digits).length
          - (middle ++ '#' :: digits).length = (x :: xs).length := by
        simp only [List.length_cons, List.length_append]
        omega
      rw [hlen, List.append_assoc]
      exact List.take_left' rfl
    have hhere : tailRegex.exec matchEnd (middle ++ '#' :: digits)
        (some ((x :: xs ++ middle ++ '#' :: digits).take
          ((x :: xs ++ middle ++ '#' :: digits).length - (middle ++ '#' :: digits).length)))
        = some (some (x :: xs)) := by
      rw [tail_match middle digits _ hm hne hd, htake]
    rcases hmid with hmid | ⟨t, hmid⟩
    · subst hmid
      have hrest : Regex.repeatGreedy (fun c => !(c == '/'))
          (fun s1 => tailRegex.exec matchEnd s1
            (some ((x :: xs ++ [] ++ '#' :: digits).take
              ((x :: xs ++ [] ++ '#' :: digits).length - s1.length)))) digits = none :=
        repeatGreedy_none _ _ _ (fun a s1 hs => tail_none_of_digits digits a s1 _ hd hs)
      have hhash : (!('#' == '/')) = true := by decide
      rw [List.nil_append, Regex.repeatGreedy, if_pos hhash, hrest]
      exact hhere
    · subst hmid
      rw [repeatGreedy_stop]
      · exact hhere
      · intro c t2 hct
        simp only [List.cons_append, List.cons.injEq] at hct
        rw [← hct.1]
        decide

/-- The part `SurfaceView[-\s\t]+` of the pattern matches no input that does not start
with `SurfaceView` and a separator. -/
theorem surfaceView_none {R : Type} (k : List Char → Option (List Char) → Option R)
    (s : List Char) (cap : Option (List Char))
    (hs : ¬ ∃ c t, isSeparator c = true ∧ s = "SurfaceView".toList ++ c :: t) :
    surfaceViewRegex.exec k s cap = none := by
  cases h : surfaceViewRegex.exec k s cap with
  | none => rfl
  | some r =>
    exfalso
    have hseq : surfaceViewRegex.exec k s cap
        = (Regex.lit "SurfaceView".toList).exec
            (fun s1 cap1 => (Regex.plus isSeparator).exec k s1 cap1) s cap := rfl
    rw [hseq] at h
    obtain ⟨t, hst, hk⟩ := lit_some "SurfaceView".toList _ s cap r h
    obtain ⟨a, b, ht, hne, ha, _⟩ := plus_some _ _ t cap r hk
    cases a with
    | nil => exact hne rfl
    | cons c cs =>
      exact hs ⟨c, cs ++ b, ha c (List.mem_cons_self _ _), by rw [hst, ht]; rfl⟩

/-- The part `SurfaceView[-\s\t]+` of the pattern on `SurfaceView`, separators and a rest
that starts with no separator: the separators are taken and the rest is matched on. -/
theorem surfaceView_match {R : Type} (k : List Char → Option (List Char) → Option R)
    (seps rest : List Char) (cap : Option (List Char)) (r : R) (hne : seps ≠ [])
    (hseps : ∀ c ∈ seps, isSeparator c = true)
    (hrest : ∀ c t, rest = c :: t → isSeparator c = false) (hk : k rest cap = some r) :
    surfaceViewRegex.exec k ("SurfaceView".toList ++ seps ++ rest) cap = some r := by
  have hseq : surfaceViewRegex.exec k ("SurfaceView".toList ++ seps ++ rest) cap
      = (Regex.lit "SurfaceView".toList).exec
          (fun s1 cap1 => (Regex.plus isSeparator).exec k s1 cap1)
          ("SurfaceView".toList ++ (seps ++ rest)) cap := by
    rw [List.append_assoc]
    rfl
  rw [hseq, lit_exec_append]
  cases seps with
  | nil => exact absurd rfl hne
  | cons c cs =>
    rw [List.cons_append, exec_plus_cons _ _ _ _ _ (hseps c (List.mem_cons_self _ _))]
    apply repeatGreedy_append _ _ _ _ _ (fun x hx => hseps x (List.mem_cons_of_mem _ hx))
    rw [repeatGreedy_stop _ _ _ hrest]
    exact hk

theorem isSeparator_iff (c : Char) : isSeparator c = true ↔ (c = '-' ∨ isSpace c = true) := by
  unfold isSeparator
  constructor
  · intro h
    simp only [Bool.or_eq_true, beq_iff_eq] at h
    rcases h with (h | h) | h
    · exact Or.inl h
    · exact Or.inr h
    · rw [h]
      exact Or.inr (by decide)
  · intro h
    simp only [Bool.or_eq_true, beq_iff_eq]
    rcases h with h | h
    · exact Or.inl (Or.inl h)
    · exact Or.inl (Or.inr h)

/-- A name that is followed by `/` or `#` and does not itself start with `SurfaceView`
and a separator gives an input that does not start with `SurfaceView` and a separator. -/
theorem no_surfaceView_start (name rest : List Char) (x : Char) (rest2 : List Char)
    (hrest : rest = x :: rest2) (hx : x = '/' ∨ x = '#')
    (hsv : ¬ ∃ c t, isSeparator c = true ∧ name = "SurfaceView".toList ++ c :: t) :
    ¬ ∃ c t, isSeparator c = true ∧ name ++ rest = "SurfaceView".toList ++ c :: t := by
  have hxsep : isSeparator x = false := by
    rcases hx with hx | hx <;> rw [hx] <;> decide
  have hxpre : x ∉ "SurfaceView".toList := by
    rcases hx with hx | hx <;> rw [hx] <;> decide
  rintro ⟨c, t, hc, heq⟩
  rcases List.append_eq_append_iff.mp heq with ⟨a2, hpre, hr⟩ | ⟨c2, hname, hr⟩
  · cases a2 with
    | nil =>
      rw [hrest] at hr
      simp only [List.nil_append, List.cons.injEq] at hr
      rw [hr.1, hc] at hxsep
      exact absurd hxsep (by simp)
    | cons y ys =>
      rw [hrest] at hr
      simp only [List.cons_append, List.cons.injEq] at hr
      apply hxpre
      rw [hpre, hr.1]
      simp
  · cases c2 with
    | nil =>
      rw [hrest] at hr
      simp only [List.nil_append, List.cons.injEq] at hr
      rw [← hr.1, hc] at hxsep
      exact absurd hxsep (by simp)
    | cons y ys =>
      simp only [List.cons_append, List.cons.injEq] at hr
      apply hsv
      exact ⟨c, ys, hc, by rw [hname, hr.1]⟩

/-- C14 (as stated) fails: the layer name `SurfaceView -foo#0` is `SurfaceView`, the
separator space, the name `-foo` (not empty, without `/` and `#`, not starting with
`SurfaceView`), an empty middle, `#` and the digit 0, and `getPackageName` returns
`foo`, not `-foo`. -/
theorem getPackageName_separator_in_name :
    "SurfaceView -foo#0".toList
      = ("SurfaceView".toList ++ " ".toList) ++ "-foo".toList ++ [] ++ '#' :: "0".toList
    ∧ '/' ∉ "-foo".toList ∧ '#' ∉ "-foo".toList
    ∧ getPackageName "SurfaceView -foo#0".toList = "foo".toList
    ∧ "foo".toList ≠ "-foo".toList := by
  refine ⟨?_, ?_, ?_, ?_, ?_⟩ <;> decide

/-- C14 (as amended): for every layer name made of an optional front (`SurfaceView`
followed by one or more of `-`, space, tab), a name `P`, a middle `R`, `#` and digits
`D`, where `P` is not empty, contains no `/`, does not itself begin with `SurfaceView`
followed by `-` or white space and, when the front is present, does not begin with `-`
or white space, `R` is empty or begins with `/` and contains no line terminator, and `D`
is one or more decimal digits, `getPackageName` returns exactly `P` (also when `P`
contains `#`); `StatusBar#0` gives `StatusBar`, `com.appname/com.appname.activity#0`
gives `com.appname`, and `SurfaceView - com.appname/com.appname.activity#0` gives
`com.appname`. -/
theorem getPackageName_of_form (front name middle digits : List Char)
    (hfront : front = [] ∨ ∃ seps, seps ≠ [] ∧ (∀ c ∈ seps, c = '-' ∨ c = ' ' ∨ c = '\t')
      ∧ front = "SurfaceView".toList ++ seps)
    (hname : name ≠ []) (hslash : '/' ∉ name)
    (hsv : ¬ ∃ c t, (c = '-' ∨ isSpace c = true) ∧ name = "SurfaceView".toList ++ c :: t)
    (hsep : front ≠ [] → ∀ c t, name = c :: t → ¬ (c = '-' ∨ isSpace c = true))
    (hmid : middle = [] ∨ ∃ t, middle = '/' :: t)
    (hnl : ∀ c ∈ middle, c ≠ '\n' ∧ c ≠ '\r')
    (hne : digits ≠ []) (hd : ∀ c ∈ digits, isDigit c = true) :
    getPackageName (front ++ name ++ middle ++ '#' :: digits) = name
    ∧ getPackageName "StatusBar#0".toList = "StatusBar".toList
    ∧ getPackageName "com.appname/com.appname.activity#0".toList = "com.appname".toList
    ∧ getPackageName "SurfaceView - com.appname/com.appname.activity#0".toList
        = "com.appname".toList := by
  refine ⟨?_, by decide, by decide, by decide⟩
  have hslash2 : ∀ c ∈ name, c ≠ '/' := fun c hc heq => hslash (heq ▸ hc)
  have hm : ∀ c ∈ middle, isAnyButNewline c = true := by
    intro c hc
    have := hnl c hc
    simp [isAnyButNewline, this.1, this.2]
  have hbody : ∀ cap, bodyRegex.exec matchEnd (name ++ middle ++ '#' :: digits) cap
      = some (some name) :=
    fun cap => body_match name middle digits cap hname hslash2 hmid hm hne hd
  have hmatch : regex_match packageNameRegex (front ++ name ++ middle ++ '#' :: digits)
      = some (some name) := by
    rw [regex_match_eq, packageNameRegex_eq, exec_seq]
    rcases hfront with hf | ⟨seps, hsne, hseps, hf⟩
    · subst hf
      have hx : ∃ x rest2, middle ++ '#' :: digits = x :: rest2 ∧ (x = '/' ∨ x = '#') := by
        rcases hmid with hmid | ⟨t, hmid⟩
        · exact ⟨'#', digits, by rw [hmid]; rfl, Or.inr rfl⟩
        · exact ⟨'/', t ++ '#' :: digits, by rw [hmid]; rfl, Or.inl rfl⟩
      obtain ⟨x, rest2, hrest, hxx⟩ := hx
      have hsv2 : ¬ ∃ c t, isSeparator c = true ∧ name = "SurfaceView".toList ++ c :: t := by
        rintro ⟨c, t, hc, hn⟩
        exact hsv ⟨c, t, (isSeparator_iff c).mp hc, hn⟩
      have hnone := surfaceView_none
        (fun s1 cap1 => bodyRegex.exec matchEnd s1 cap1)
        ([] ++ name ++ middle ++ '#' :: digits) none
        (by
          rw [List.nil_append, List.append_assoc]
          exact no_surfaceView_start name _ x rest2 hrest hxx hsv2)
      rw [exec_opt_none _ _ _ _ hnone]
      exact hbody none
    · have hfne : front ≠ [] := by
        rw [hf]
        simp
      have hsome := surfaceView_match (fun s1 cap1 => bodyRegex.exec matchEnd s1 cap1)
        seps (name ++ middle ++ '#' :: digits) none (some name) hsne
        (fun c hc => by
          rw [isSeparator_iff]
          rcases hseps c hc with h | h | h
          · exact Or.inl h
          · rw [h]
            exact Or.inr (by decide)
          · rw [h]
            exact Or.inr (by decide))
        (by
          intro c t hct
          cases name with
          | nil => exact absurd rfl hname
          | cons y ys =>
            simp only [List.cons_append, List.cons.injEq] at hct
            have := hsep hfne y ys rfl
            rw [← hct.1]
            cases hsepc : isSeparator y with
            | false => rfl
            | true => exact absurd ((isSeparator_iff y).mp hsepc) this)
        (hbody none)
      have hshape : front ++ name ++ middle ++ '#' :: digits
          = "SurfaceView".toList ++ seps ++ (name ++ middle ++ '#' :: digits) := by
        rw [hf]
        simp only [List.append_assoc]
      rw [hshape, exec_opt_some _ _ _ _ _ hsome]
  unfold getPackageName
  rw [hmatch]

/-- Witness of C14: the layer name `SurfaceView - com.appname/Main#12`. -/
theorem getPackageName_of_form_witness :
    getPackageName (("SurfaceView".toList ++ " - ".toList) ++ "com.appname".toList
        ++ "/Main".toList ++ '#' :: "12".toList) = "com.appname".toList :=
  (getPackageName_of_form ("SurfaceView".toList ++ " - ".toList) "com.appname".toList
    "/Main".toList "12".toList (Or.inr ⟨" - ".toList, by decide, by decide, rfl⟩)
    (by decide) (by decide)
    (by
      rintro ⟨c, t, _, hn⟩
      have h7 : "com.appname".toList.head? = some 'S' := by
        rw [hn]
        rfl
      exact absurd h7 (by decide))
    (by
      intro _ c t hct
      have hc : c = 'c' := by
        have h7 : "com.appname".toList.head? = (c :: t).head? := by rw [hct]
        simpa using h7.symm
      rw [hc]
      decide)
    (Or.inr ⟨"Main".toList, rfl⟩) (by decide) (by decide) (by decide)).1

/-! ## The printed package name -/

theorem c_str_cons_of_ne (x : Char) (xs : List Char) (hx : x ≠ Char.ofNat 0) :
    c_str (x :: xs) = x :: c_str xs := by
  simp [c_str, List.takeWhile_cons, hx]

theorem c_str_cons_nul (xs : List Char) : c_str (Char.ofNat 0 :: xs) = [] := by
  simp [c_str, List.takeWhile_cons]

theorem mem_c_str_append (a b : List Char) (c : Char) (hc : c ∈ c_str a) :
    c ∈ c_str (a ++ b) := by
  induction a with
  | nil => simp [c_str] at hc
  | cons x xs ih =>
    by_cases hx : x = Char.ofNat 0
    · rw [hx, c_str_cons_nul] at hc
      simp at hc
    · rw [c_str_cons_of_ne x xs hx] at hc
      rw [List.cons_append, c_str_cons_of_ne x _ hx]
      rcases List.mem_cons.mp hc with h | h
      · rw [h]
        exact List.mem_cons_self _ _
      · exact List.mem_cons_of_mem _ (ih h)

theorem c_str_append_of_no_nul (a b : List Char) (ha : ∀ c ∈ a, c ≠ Char.ofNat 0) :
    c_str (a ++ b) = a ++ c_str b := by
  induction a with
  | nil => rfl
  | cons x xs ih =>
    have hx : x ≠ Char.ofNat 0 := ha x (List.mem_cons_self _ _)
    rw [List.cons_append, c_str_cons_of_ne x _ hx,
      ih (fun c hc => ha c (List.mem_cons_of_mem _ hc))]
    rfl

theorem isSeparator_ne_nul {c : Char} (h : isSeparator c = true) : c ≠ Char.ofNat 0 := by
  intro hc
  rw [hc] at h
  revert h
  decide

/-- The printed package name holds only characters of the printed layer name. -/
theorem packageName_chars (layerName : List Char) :
    ∀ c ∈ c_str (getPackageName layerName), c ∈ c_str layerName := by
  intro c hc
  by_cases hne : getPackageName layerName = []
  · rw [hne] at hc
    simp [c_str] at hc
  · obtain ⟨front, name, rest, hs, hfront, _, _, hr, _⟩ :=
      match_some layerName _ (getPackageName_ne_nil hne)
    simp only [Option.some.injEq] at hr
    rw [hr] at hc
    have hnul : ∀ x ∈ front, x ≠ Char.ofNat 0 := by
      rcases hfront with hf | ⟨seps, hseps, hf⟩
      · rw [hf]
        simp
      · rw [hf]
        intro x hx
        rcases List.mem_append.mp hx with h | h
        · have hlit : ∀ y ∈ "SurfaceView".toList, y ≠ Char.ofNat 0 := by decide
          exact hlit x h
        · exact isSeparator_ne_nul (hseps x h)
    rw [hs, List.append_assoc, c_str_append_of_no_nul _ _ hnul]
    exact List.mem_append_right _ (mem_c_str_append name rest c hc)

/-! ## The text of a layer without histograms -/

theorem headerLines_no_newline (L : TimeStatsLayer) (hl : '\n' ∉ c_str L.layerName)
    (hp : '\n' ∉ c_str (getPackageName L.layerName)) :
    ∀ l ∈ L.headerLines, ∀ c ∈ l, c ≠ '\n' := by
  have hmem : ∀ (s : List Char), '\n' ∉ s → ∀ c ∈ s, c ≠ '\n' := by
    intro s hs c hc heq
    exact hs (heq ▸ hc)
  intro l h2
  simp only [TimeStatsLayer.headerLines, List.mem_cons, List.mem_singleton,
    List.not_mem_nil, or_false] at h2
  rcases h2 with h | h | h | h | h <;> subst h
  · exact no_newline_append (by decide) (hmem _ hl)
  · exact no_newline_append (by decide) (hmem _ hp)
  · exact no_newline_append (by decide) (no_newline_printf_d _)
  · exact no_newline_append (by decide) (no_newline_printf_d _)
  · exact no_newline_append (by decide) (no_newline_printf_d _)

theorem headerLines_not_averageFPS (L : TimeStatsLayer) :
    ∀ l ∈ L.headerLines, ¬ ("averageFPS = ".toList <+: l) := by
  intro l h2
  simp only [TimeStatsLayer.headerLines, List.mem_cons, List.mem_singleton,
    List.not_mem_nil, or_false] at h2
  rcases h2 with h | h | h | h | h <;> subst h <;>
  · exact not_averageFPS_of_head (by decide)

/-! ## The `averageFPS` line -/

/-- C11 (as stated) fails: the layer named `Splash⏎averageFPS = 60` (with a newline in
the name) has an empty `deltas`, and its text has six lines, the second of which is
`averageFPS = 60`. -/
theorem toString_empty_deltas_six_lines :
    (TimeStatsLayer.mk "Splash\naverageFPS = 60".toList [] 0 0 0 []).deltas = []
    ∧ lines ((TimeStatsLayer.mk "Splash\naverageFPS = 60".toList [] 0 0 0 []).toString
        (fun _ => [])).1
      = ["layerName = Splash".toList, "averageFPS = 60".toList, "packageName = ".toList,
         "statsStart = 0".toList, "statsEnd = 0".toList, "totalFrames= 0".toList, []] := by
  refine ⟨rfl, ?_⟩
  rw [toString_text]
  decide

/-- C11 (as amended): for every layer whose `deltas` is empty and whose printed layer
name holds no newline, the text of `TimeStatsLayer::toString()` is exactly five lines,
each closed by a newline, in this order: `layerName`, `packageName` (derived from
`layerName`), `statsStart`, `statsEnd`, `totalFrames`; no line begins with
`averageFPS = ` and there is no histogram section. -/
theorem toString_empty_deltas (fmtFPS : FloatQuotient → List Char) (L : TimeStatsLayer)
    (hd : L.deltas = []) (hl : '\n' ∉ c_str L.layerName) :
    lines (L.toString fmtFPS).1
        = ["layerName = ".toList ++ c_str L.layerName,
           "packageName = ".toList ++ c_str (getPackageName L.layerName),
           "statsStart = ".toList ++ printf_d L.statsStart,
           "statsEnd = ".toList ++ printf_d L.statsEnd,
           "totalFrames= ".toList ++ printf_d L.totalFrames,
           []]
    ∧ (L.toString fmtFPS).1
        = unlines ["layerName = ".toList ++ c_str L.layerName,
           "packageName = ".toList ++ c_str (getPackageName L.layerName),
           "statsStart = ".toList ++ printf_d L.statsStart,
           "statsEnd = ".toList ++ printf_d L.statsEnd,
           "totalFrames= ".toList ++ printf_d L.totalFrames]
    ∧ ∀ l ∈ lines (L.toString fmtFPS).1, ¬ ("averageFPS = ".toList <+: l) := by
  have hp : '\n' ∉ c_str (getPackageName L.layerName) :=
    fun hmem => hl (packageName_chars L.layerName _ hmem)
  have htext : (L.toString fmtFPS).1 = unlines L.headerLines := by
    rw [toString_text]
    unfold TimeStatsLayer.averageFPSLines
    rw [hd]
    simp [findDelta]
  have hlines : lines (L.toString fmtFPS).1 = L.headerLines ++ [[]] := by
    rw [htext]
    exact lines_unlines _ (headerLines_no_newline L hl hp)
  refine ⟨by rw [hlines]; rfl, by rw [htext]; rfl, ?_⟩
  intro l hlmem
  rw [hlines] at hlmem
  rcases List.mem_append.mp hlmem with h1 | h1
  · exact headerLines_not_averageFPS L l h1
  · simp only [List.mem_singleton] at h1
    subst h1
    intro hpre
    exact absurd (List.prefix_nil.mp hpre) (by decide)

/-- Witness of C11: the layer `StatusBar#0` with no histogram. -/
theorem toString_empty_deltas_witness :
    lines ((TimeStatsLayer.mk "StatusBar#0".toList [] 5 20 0 []).toString (fun _ => [])).1
      = ["layerName = StatusBar#0".toList, "packageName = StatusBar".toList,
         "statsStart = 5".toList, "statsEnd = 20".toList, "totalFrames= 0".toList, []] := by
  have h := (toString_empty_deltas (fun _ => [])
    (TimeStatsLayer.mk "StatusBar#0".toList [] 5 20 0 []) rfl (by decide)).1
  rw [h]
  decide
